import Mathlib

/-! # Mailbox synchronisation engine (`internal/mail/sync.go`)

A shallow embedding of `Sync`, `fetchMissingUIDs` and `fetchMissingUIDsParallel`.

* UIDs (`imap.UID`, a `uint32`) are natural numbers; the code only compares them, so no
  arithmetic on them can overflow.
* `int` values that may be negative (`SyncOptions.Workers`) are integers; lengths and
  counters are natural numbers.
* The cache store and the mailbox connector are not part of the translated sources.  They
  are parameters of the embedding: the store is a state machine over an arbitrary state
  type, the connector is an oracle that may answer differently on every session and on
  every call of a session.
* Every call that the main goroutine makes on the store or on a connector session is
  recorded, in order, in a log.

The namespaces `Scopes`, `Auth` and `Cmd` embed the scope checks of
`internal/scopes/validator.go`, the validity tests of `internal/auth/token.go`, and the
pagination of `chat search` and the function `formatDuration` of `internal/cmd`.
-/

namespace Mail

/-! ## Data model -/

/-- An error value.  `wrap ctx e` is `fmt.Errorf("ctx: %w", e)`. -/
inductive Err where
  | base (msg : String)
  | wrap (ctx : String) (inner : Err)
  deriving DecidableEq, Repr

/-- Modelled from the spec: `Envelope`, the header metadata of one message, keyed by its
UID.  The struct declaration is not among the translated sources; the synchronisation code
reads only the field `UID`. -/
structure Envelope where
  uid : Nat
  subject : String
  deriving DecidableEq, Repr

/-- Modelled from the spec: `MailboxSyncState`, the record returned by `GetMailboxState`. -/
structure MailboxState where
  uidValidity : Nat
  lastSyncedUID : Nat
  deriving DecidableEq, Repr

/-- Modelled from the spec: the answer of `SelectMailbox`, `(uid_validity, message_count)`. -/
structure MailboxInfo where
  uidValidity : Nat
  numMessages : Nat
  deriving DecidableEq, Repr

/-- The struct `SyncOptions`.  `progress` tells whether a progress sink is set; the lines
written to the sink are not modelled. -/
structure SyncOptions where
  workers : Int
  progress : Bool
  deriving DecidableEq, Repr

/-- The struct `SyncResult`. -/
structure SyncResult where
  mailbox : String
  newMessages : Nat
  totalCached : Nat
  message : String
  deriving DecidableEq, Repr

/-- The connector session a call is made on: the one opened by `Sync`, the one opened by
`fetchMissingUIDs`, or the one opened by the `i`-th started worker. -/
inductive ConnId where
  | main
  | sequential
  | worker (i : Nat)
  deriving DecidableEq, Repr

/-- A call on the store or on a connector session. -/
inductive Call where
  | openCache
  | connect (c : ConnId)
  | selectMailbox (c : ConnId) (mailbox : String)
  | getAllUIDs (c : ConnId)
  | fetchEnvelopesByUID (c : ConnId) (batch : List Nat)
  | getMailboxState (mailbox : String)
  | clearMailbox (mailbox : String)
  | getCachedUIDs (mailbox : String)
  | insertEnvelopes (mailbox : String) (envelopes : List Envelope)
  | updateMailboxState (mailbox : String) (uidValidity : Nat) (lastUID : Nat)
  deriving DecidableEq, Repr

/-- The mailbox connector, as an oracle.  `none` is a nil error.  The answer of
`FetchEnvelopesByUID` may depend on the session and on the number of fetches made earlier
on that session. -/
structure Connector where
  connect : ConnId → Option Err
  selectMailbox : ConnId → String → Except Err MailboxInfo
  getAllUIDs : ConnId → Except Err (List Nat)
  fetchEnvelopesByUID : ConnId → Nat → List Nat → Except Err (List Envelope)

/-- The cache store, as a state machine over the state type `σ`.  `none` is a nil error.
`GetCachedUIDs` returns a set of UIDs (a Go map from UID to `true`). -/
structure Store (σ : Type) where
  openCache : Option Err
  getMailboxState : String → σ → Except Err (Option MailboxState)
  clearMailbox : String → σ → Option Err × σ
  getCachedUIDs : String → σ → Except Err (Finset Nat)
  insertEnvelopes : String → List Envelope → σ → Option Err × σ
  updateMailboxState : String → Nat → Nat → σ → Option Err × σ

/-- What a piece of the program leaves behind: its return value, the store state, and the
calls it made, in order. -/
structure Run (σ : Type) (α : Type) where
  result : α
  store : σ
  log : List Call

/-! ## The diff of `Sync` (lines 97-103) -/

/-- The loop `for _, uid := range serverUIDs { if !cachedUIDs[uid] { append } }`. -/
def missingUIDs (serverUIDs : List Nat) (cachedUIDs : Finset Nat) : List Nat :=
  serverUIDs.foldl
    (fun missing uid => if !(decide (uid ∈ cachedUIDs)) then missing ++ [uid] else missing) []

/-! ## Worker count and partition of `fetchMissingUIDsParallel` -/

/-- The constant `batchSize`. -/
def batchSize : Nat := 500

/-- Lines 209-215: the number of workers, from `opts.Workers` and `len(uids)`. -/
def effectiveWorkers (workers : Int) (n : Nat) : Int :=
  let numWorkers := if workers > ((n / batchSize + 1 : Nat) : Int)
    then ((n / batchSize + 1 : Nat) : Int) else workers
  if numWorkers < 1 then 1 else numWorkers

/-- The Go slice expression `xs[lo:hi]`, for `lo ≤ hi ≤ len(xs)`. -/
def slice {α : Type} (xs : List α) (lo hi : Nat) : List α :=
  (xs.drop lo).take (hi - lo)

/-- Lines 249-260: the loop `for i := 0; i < numWorkers; i++` with its running `start`,
yielding the index range `(start, count)` of every worker that is started; an iteration
with `count == 0` starts none. -/
def shareRanges (uidsPerWorker remainder numWorkers : Nat) (i start : Nat) :
    List (Nat × Nat) :=
  if i < numWorkers then
    let count := if i < remainder then uidsPerWorker + 1 else uidsPerWorker
    if count = 0 then
      shareRanges uidsPerWorker remainder numWorkers (i + 1) start
    else
      (start, count) :: shareRanges uidsPerWorker remainder numWorkers (i + 1) (start + count)
  else []
termination_by numWorkers - i

/-- Lines 245-260: the shares `uids[start : start+count]` handed to the workers, in worker
order. -/
def workerShares (uids : List Nat) (numWorkers : Nat) : List (List Nat) :=
  (shareRanges (uids.length / numWorkers) (uids.length % numWorkers) numWorkers 0 0).map
    (fun r => slice uids r.1 (r.1 + r.2))

/-! ## Sequential strategy (`fetchMissingUIDs`) -/

/-- The loop `for _, env := range envelopes { if env.UID > maxUID { maxUID = env.UID } }`. -/
def updateMaxUID (maxUID : Nat) (envelopes : List Envelope) : Nat :=
  envelopes.foldl (fun m env => if env.uid > m then env.uid else m) maxUID

/-- Lines 163-196: the loop `for i := 0; i < len(uids); i += batchSize`.  `k` counts the
fetches already made on the session.  A non-nil error leaves the loop at once. -/
def fetchLoop {σ : Type} (conn : Connector) (store : Store σ) (mailbox : String)
    (uidValidity : Nat) (uids : List Nat) (i k totalFetched : Nat) (maxUID : Nat) (s : σ) :
    Run σ (Nat × Option Err) :=
  if i < uids.length then
    let endIdx := if i + batchSize > uids.length then uids.length else i + batchSize
    let batch := slice uids i endIdx
    match conn.fetchEnvelopesByUID .sequential k batch with
    | .error err => ⟨(totalFetched, some err), s, [.fetchEnvelopesByUID .sequential batch]⟩
    | .ok envelopes =>
      if envelopes.length > 0 then
        let w := store.insertEnvelopes mailbox envelopes s
        match w.1 with
        | some err =>
          ⟨(totalFetched, some err), w.2,
            [.fetchEnvelopesByUID .sequential batch, .insertEnvelopes mailbox envelopes]⟩
        | none =>
          let maxUID1 := updateMaxUID maxUID envelopes
          let w2 := store.updateMailboxState mailbox uidValidity maxUID1 w.2
          match w2.1 with
          | some err =>
            ⟨(totalFetched, some err), w2.2,
              [.fetchEnvelopesByUID .sequential batch, .insertEnvelopes mailbox envelopes,
                .updateMailboxState mailbox uidValidity maxUID1]⟩
          | none =>
            let r := fetchLoop conn store mailbox uidValidity uids (i + batchSize) (k + 1)
              (totalFetched + envelopes.length) maxUID1 w2.2
            ⟨r.result, r.store,
              .fetchEnvelopesByUID .sequential batch :: .insertEnvelopes mailbox envelopes ::
                .updateMailboxState mailbox uidValidity maxUID1 :: r.log⟩
      else
        let r := fetchLoop conn store mailbox uidValidity uids (i + batchSize) (k + 1)
          (totalFetched + envelopes.length) maxUID s
        ⟨r.result, r.store, .fetchEnvelopesByUID .sequential batch :: r.log⟩
  else ⟨(totalFetched, none), s, []⟩
termination_by uids.length - i
decreasing_by all_goals (simp only [batchSize]; omega)

/-- The function `fetchMissingUIDs`: connect, select the mailbox, run the batch loop. -/
def fetchMissingUIDs {σ : Type} (conn : Connector) (store : Store σ) (mailbox : String)
    (uidValidity : Nat) (uids : List Nat) (_opts : SyncOptions) (s : σ) :
    Run σ (Nat × Option Err) :=
  match conn.connect .sequential with
  | some err => ⟨(0, some err), s, [.connect .sequential]⟩
  | none =>
    match conn.selectMailbox .sequential mailbox with
    | .error err =>
      ⟨(0, some err), s, [.connect .sequential, .selectMailbox .sequential mailbox]⟩
    | .ok _ =>
      let r := fetchLoop conn store mailbox uidValidity uids 0 0 0 0 s
      ⟨r.result, r.store,
        .connect .sequential :: .selectMailbox .sequential mailbox :: r.log⟩

/-! ## Parallel strategy (`fetchMissingUIDsParallel`) -/

/-- The struct `batch{envelopes, err}` sent over `batchChan`. -/
structure Batch where
  envelopes : List Envelope
  err : Option Err
  deriving DecidableEq, Repr

/-- Lines 278-293: the batch loop of one worker.  It yields the items the worker sends, in
order, and the calls it makes on its own session.  A fetch error is sent wrapped and ends
the worker. -/
def workerLoop (conn : Connector) (c : ConnId) (myUIDs : List Nat) (i k : Nat) :
    List Batch × List Call :=
  if i < myUIDs.length then
    let endIdx := if i + batchSize > myUIDs.length then myUIDs.length else i + batchSize
    let batch := slice myUIDs i endIdx
    match conn.fetchEnvelopesByUID c k batch with
    | .error err => ([⟨[], some (.wrap "fetch" err)⟩], [.fetchEnvelopesByUID c batch])
    | .ok envs =>
      let r := workerLoop conn c myUIDs (i + batchSize) (k + 1)
      (⟨envs, none⟩ :: r.1, .fetchEnvelopesByUID c batch :: r.2)
  else ([], [])
termination_by myUIDs.length - i
decreasing_by all_goals (simp only [batchSize]; omega)

/-- Lines 263-294: the body of one worker goroutine. -/
def workerRun (conn : Connector) (c : ConnId) (mailbox : String) (myUIDs : List Nat) :
    List Batch × List Call :=
  match conn.connect c with
  | some err => ([⟨[], some (.wrap "connect" err)⟩], [.connect c])
  | none =>
    match conn.selectMailbox c mailbox with
    | .error err =>
      ([⟨[], some (.wrap "select" err)⟩], [.connect c, .selectMailbox c mailbox])
    | .ok _ =>
      let r := workerLoop conn c myUIDs 0 0
      (r.1, .connect c :: .selectMailbox c mailbox :: r.2)

/-- The items each started worker sends, in worker order; the `j`-th started worker uses
the session `ConnId.worker j`. -/
def workerQueues (conn : Connector) (mailbox : String) : Nat → List (List Nat) →
    List (List Batch)
  | _, [] => []
  | j, share :: rest =>
    (workerRun conn (.worker j) mailbox share).1 :: workerQueues conn mailbox (j + 1) rest

/-- Removes the head of the `k`-th queue. -/
def popAt {α : Type} : Nat → List (List α) → Option (α × List (List α))
  | _, [] => none
  | 0, [] :: _ => none
  | 0, (x :: q) :: qs => some (x, q :: qs)
  | k + 1, q :: qs => (popAt k qs).map (fun r => (r.1, q :: r.2))

/-- The channel: the items of the workers reach the writer in some interleaving that keeps
each worker's own order.  `sched` resolves the choice: its head picks, among the workers
that still have an item to send, the one whose item arrives next. -/
def arrival {α : Type} : Nat → List Nat → List (List α) → List α
  | 0, _, _ => []
  | fuel + 1, sched, queues =>
    let live := queues.filter (fun q => !q.isEmpty)
    match popAt (sched.headD 0 % live.length) live with
    | none => []
    | some (x, rest) => x :: arrival fuel sched.tail rest

/-- The sequence received by `for b := range batchChan`: every item sent is received. -/
def arrivalOrder {α : Type} (sched : List Nat) (queues : List (List α)) : List α :=
  arrival (queues.map List.length).sum sched queues

/-- The variables of the writer loop, the store and the calls made so far. -/
structure WriterState (σ : Type) where
  totalFetched : Nat
  maxUID : Nat
  writeErr : Option Err
  batchesSinceStateUpdate : Nat
  store : σ
  log : List Call

/-- Lines 309-338: one iteration of `for b := range batchChan`.  The error of the
periodic `UpdateMailboxState` is dropped by the code. -/
def writerStep {σ : Type} (store : Store σ) (mailbox : String) (uidValidity : Nat)
    (st : WriterState σ) (b : Batch) : WriterState σ :=
  match b.err with
  | some err => { st with writeErr := some err }
  | none =>
    match st.writeErr with
    | some _ => st
    | none =>
      if b.envelopes.length > 0 then
        let w := store.insertEnvelopes mailbox b.envelopes st.store
        match w.1 with
        | some err =>
          { st with writeErr := some err, store := w.2,
                    log := st.log ++ [.insertEnvelopes mailbox b.envelopes] }
        | none =>
          let maxUID := updateMaxUID st.maxUID b.envelopes
          let totalFetched := st.totalFetched + b.envelopes.length
          let batchesSinceStateUpdate := st.batchesSinceStateUpdate + 1
          if batchesSinceStateUpdate ≥ 10 ∧ maxUID > 0 then
            ⟨totalFetched, maxUID, none, 0,
              (store.updateMailboxState mailbox uidValidity maxUID w.2).2,
              st.log ++ [.insertEnvelopes mailbox b.envelopes,
                .updateMailboxState mailbox uidValidity maxUID]⟩
          else
            ⟨totalFetched, maxUID, none, batchesSinceStateUpdate, w.2,
              st.log ++ [.insertEnvelopes mailbox b.envelopes]⟩
      else st

/-- Lines 303-338: the writer loop over the items in arrival order. -/
def writerLoop {σ : Type} (store : Store σ) (mailbox : String) (uidValidity : Nat)
    (items : List Batch) (st : WriterState σ) : WriterState σ :=
  items.foldl (writerStep store mailbox uidValidity) st

/-- Lines 345-356: what `fetchMissingUIDsParallel` returns once the channel is closed. -/
def writerFinish {σ : Type} (store : Store σ) (mailbox : String) (uidValidity : Nat)
    (st : WriterState σ) : Run σ (Nat × Option Err) :=
  match st.writeErr with
  | some err => ⟨(st.totalFetched, some err), st.store, st.log⟩
  | none =>
    if st.maxUID > 0 then
      let w := store.updateMailboxState mailbox uidValidity st.maxUID st.store
      match w.1 with
      | some err =>
        ⟨(st.totalFetched, some err), w.2,
          st.log ++ [.updateMailboxState mailbox uidValidity st.maxUID]⟩
      | none =>
        ⟨(st.totalFetched, none), w.2,
          st.log ++ [.updateMailboxState mailbox uidValidity st.maxUID]⟩
    else ⟨(st.totalFetched, none), st.store, st.log⟩

/-- The function `fetchMissingUIDsParallel`.  `numWorkers` is at least 1 after line 215, so
the divisions of lines 246-247 are divisions of natural numbers.  The calls of the workers
are made on their own sessions and are not part of the log of the main goroutine. -/
def fetchMissingUIDsParallel {σ : Type} (conn : Connector) (store : Store σ)
    (sched : List Nat) (mailbox : String) (uidValidity : Nat) (uids : List Nat)
    (opts : SyncOptions) (s : σ) : Run σ (Nat × Option Err) :=
  let numWorkers := effectiveWorkers opts.workers uids.length
  let shares := workerShares uids numWorkers.toNat
  let items := arrivalOrder sched (workerQueues conn mailbox 0 shares)
  writerFinish store mailbox uidValidity
    (writerLoop store mailbox uidValidity items ⟨0, 0, none, 0, s, []⟩)

/-! ## The orchestrator (`Sync`) -/

/-- Lines 29-34: a nil `opts` becomes the zero value, a worker count `<= 0` becomes 1. -/
def normalizeOpts (opts : Option SyncOptions) : SyncOptions :=
  let o : SyncOptions := match opts with
    | none => ⟨0, false⟩
    | some o => o
  if o.workers ≤ 0 then { o with workers := 1 } else o

/-- Line 63: `state != nil && state.UIDValidity != mbox.UIDValidity`. -/
def staleState (state : Option MailboxState) (mbox : MailboxInfo) : Bool :=
  match state with
  | none => false
  | some st => st.uidValidity != mbox.uidValidity

/-- Lines 130-143: the result assembled from what the strategy returned. -/
def syncResult {σ : Type} (mailbox : String) (cachedLen : Nat) (r : Run σ (Nat × Option Err)) :
    Run σ (Except Err SyncResult) :=
  match r.result.2 with
  | some err => ⟨.error err, r.store, r.log⟩
  | none =>
    let newCount := r.result.1
    ⟨.ok ⟨mailbox, newCount, cachedLen + newCount,
        if newCount = 0 then "already up to date"
        else "synced " ++ toString newCount ++ " new messages"⟩,
      r.store, r.log⟩

/-- Lines 123-129: the choice between the two strategies. -/
def syncFetch {σ : Type} (conn : Connector) (store : Store σ) (sched : List Nat)
    (mailbox : String) (opts : SyncOptions) (mbox : MailboxInfo) (cachedLen : Nat)
    (missing : List Nat) (s : σ) : Run σ (Except Err SyncResult) :=
  syncResult mailbox cachedLen
    (if opts.workers > 1 && missing.length > 100 then
      fetchMissingUIDsParallel conn store sched mailbox mbox.uidValidity missing opts s
    else
      fetchMissingUIDs conn store mailbox mbox.uidValidity missing opts s)

/-- Lines 70-144 of `Sync`: everything after the check of UIDVALIDITY. -/
def syncBody {σ : Type} (conn : Connector) (store : Store σ) (sched : List Nat)
    (mailbox : String) (opts : SyncOptions) (mbox : MailboxInfo) (s : σ) :
    Run σ (Except Err SyncResult) :=
  if mbox.numMessages = 0 then
    let w := store.updateMailboxState mailbox mbox.uidValidity 0 s
    match w.1 with
    | some err => ⟨.error err, w.2, [.updateMailboxState mailbox mbox.uidValidity 0]⟩
    | none =>
      ⟨.ok ⟨mailbox, 0, 0, "mailbox is empty"⟩, w.2,
        [.updateMailboxState mailbox mbox.uidValidity 0]⟩
  else
    match store.getCachedUIDs mailbox s with
    | .error err => ⟨.error err, s, [.getCachedUIDs mailbox]⟩
    | .ok cachedUIDs =>
      match conn.getAllUIDs .main with
      | .error err =>
        ⟨.error (.wrap "getting server UIDs" err), s,
          [.getCachedUIDs mailbox, .getAllUIDs .main]⟩
      | .ok serverUIDs =>
        let missing := missingUIDs serverUIDs cachedUIDs
        if missing.length = 0 then
          if serverUIDs.length > 0 then
            let maxUID := serverUIDs.getD (serverUIDs.length - 1) 0
            let w := store.updateMailboxState mailbox mbox.uidValidity maxUID s
            match w.1 with
            | some err =>
              ⟨.error err, w.2, [.getCachedUIDs mailbox, .getAllUIDs .main,
                .updateMailboxState mailbox mbox.uidValidity maxUID]⟩
            | none =>
              ⟨.ok ⟨mailbox, 0, cachedUIDs.card, "already up to date"⟩, w.2,
                [.getCachedUIDs mailbox, .getAllUIDs .main,
                  .updateMailboxState mailbox mbox.uidValidity maxUID]⟩
          else
            ⟨.ok ⟨mailbox, 0, cachedUIDs.card, "already up to date"⟩, s,
              [.getCachedUIDs mailbox, .getAllUIDs .main]⟩
        else
          let r := syncFetch conn store sched mailbox opts mbox cachedUIDs.card missing s
          ⟨r.result, r.store, .getCachedUIDs mailbox :: .getAllUIDs .main :: r.log⟩

/-- The function `Sync`.  `sched` resolves the arrival order of the parallel strategy.
The deferred `Close` calls have no result and are not modelled. -/
def Sync {σ : Type} (conn : Connector) (store : Store σ) (sched : List Nat)
    (mailbox : String) (opts : Option SyncOptions) (s : σ) : Run σ (Except Err SyncResult) :=
  let opts := normalizeOpts opts
  match store.openCache with
  | some err => ⟨.error err, s, [.openCache]⟩
  | none =>
    match conn.connect .main with
    | some err => ⟨.error err, s, [.openCache, .connect .main]⟩
    | none =>
      match conn.selectMailbox .main mailbox with
      | .error err =>
        ⟨.error err, s, [.openCache, .connect .main, .selectMailbox .main mailbox]⟩
      | .ok mbox =>
        match store.getMailboxState mailbox s with
        | .error err =>
          ⟨.error err, s, [.openCache, .connect .main, .selectMailbox .main mailbox,
            .getMailboxState mailbox]⟩
        | .ok state =>
          if staleState state mbox then
            let w := store.clearMailbox mailbox s
            match w.1 with
            | some err =>
              ⟨.error (.wrap "clearing stale cache" err), w.2,
                [.openCache, .connect .main, .selectMailbox .main mailbox,
                  .getMailboxState mailbox, .clearMailbox mailbox]⟩
            | none =>
              let r := syncBody conn store sched mailbox opts mbox w.2
              ⟨r.result, r.store,
                .openCache :: .connect .main :: .selectMailbox .main mailbox ::
                  .getMailboxState mailbox :: .clearMailbox mailbox :: r.log⟩
          else
            let r := syncBody conn store sched mailbox opts mbox s
            ⟨r.result, r.store,
              .openCache :: .connect .main :: .selectMailbox .main mailbox ::
                .getMailboxState mailbox :: r.log⟩

/-! ## The cache store of the spec (section 4.4) -/

/-- Modelled from the spec: what the cache holds for one mailbox, its envelope records and
its `MailboxSyncState`, if any. -/
structure MailboxData where
  envelopes : List Envelope
  state : Option MailboxState

/-- Modelled from the spec: the cache, keyed by mailbox name. -/
abbrev CacheDB := String → MailboxData

/-- Modelled from the spec: upsert of one envelope; re-inserting a UID that is present is a
no-op. -/
def upsert (envs : List Envelope) (e : Envelope) : List Envelope :=
  if envs.any (fun x => x.uid == e.uid) then envs else envs ++ [e]

/-- Modelled from the spec: the cache store of section 4.4, the implementation of which is
not among the translated sources.  Every operation succeeds; `ClearMailbox` deletes all
envelopes and resets the state of the mailbox; `InsertEnvelopes` upserts;
`UpdateMailboxState` overwrites the state of the mailbox. -/
def specStore : Store CacheDB where
  openCache := none
  getMailboxState := fun mailbox db => .ok (db mailbox).state
  clearMailbox := fun mailbox db => (none, Function.update db mailbox ⟨[], none⟩)
  getCachedUIDs := fun mailbox db => .ok ((db mailbox).envelopes.map (fun e => e.uid)).toFinset
  insertEnvelopes := fun mailbox envs db =>
    (none, Function.update db mailbox
      ⟨envs.foldl upsert (db mailbox).envelopes, (db mailbox).state⟩)
  updateMailboxState := fun mailbox uidValidity lastUID db =>
    (none, Function.update db mailbox ⟨(db mailbox).envelopes, some ⟨uidValidity, lastUID⟩⟩)

/-- The values written by the `UpdateMailboxState` calls of a log, in order. -/
def checkpoints : List Call → List Nat
  | [] => []
  | .updateMailboxState _ _ lastUID :: rest => lastUID :: checkpoints rest
  | _ :: rest => checkpoints rest

/-- The envelopes passed to the `InsertEnvelopes` calls of a log, in order. -/
def inserted : List Call → List Envelope
  | [] => []
  | .insertEnvelopes _ envelopes :: rest => envelopes ++ inserted rest
  | _ :: rest => inserted rest

/-- The number of `FetchEnvelopesByUID` calls of a log. -/
def fetchCount : List Call → Nat
  | [] => 0
  | .fetchEnvelopesByUID _ _ :: rest => fetchCount rest + 1
  | _ :: rest => fetchCount rest

/-- The shape of the log of the sequential batch loop, entered with `k` fetches made and
the running maximum `m`; the flag tells whether the loop ends with a nil error.  Each
batch contributes its fetch, followed by an insert and a checkpoint when the fetch returned
at least one envelope; a failing call is the last call of the log. -/
inductive BatchLog (conn : Connector) (mailbox : String) (uidValidity : Nat) :
    Nat → Nat → List Call → Bool → Prop where
  | done (k : Nat) (m : Nat) : BatchLog conn mailbox uidValidity k m [] true
  | fetchFailed (k : Nat) (m : Nat) (batch : List Nat) (err : Err)
      (hf : conn.fetchEnvelopesByUID .sequential k batch = .error err) :
      BatchLog conn mailbox uidValidity k m [.fetchEnvelopesByUID .sequential batch] false
  | skipped (k : Nat) (m : Nat) (batch : List Nat) (rest : List Call) (ok : Bool)
      (hf : conn.fetchEnvelopesByUID .sequential k batch = .ok [])
      (hrest : BatchLog conn mailbox uidValidity (k + 1) m rest ok) :
      BatchLog conn mailbox uidValidity k m (.fetchEnvelopesByUID .sequential batch :: rest) ok
  | insertFailed (k : Nat) (m : Nat) (batch : List Nat) (envs : List Envelope)
      (hf : conn.fetchEnvelopesByUID .sequential k batch = .ok envs) (hne : envs ≠ []) :
      BatchLog conn mailbox uidValidity k m
        [.fetchEnvelopesByUID .sequential batch, .insertEnvelopes mailbox envs] false
  | updateFailed (k : Nat) (m : Nat) (batch : List Nat) (envs : List Envelope)
      (hf : conn.fetchEnvelopesByUID .sequential k batch = .ok envs) (hne : envs ≠ []) :
      BatchLog conn mailbox uidValidity k m
        [.fetchEnvelopesByUID .sequential batch, .insertEnvelopes mailbox envs,
          .updateMailboxState mailbox uidValidity (updateMaxUID m envs)] false
  | committed (k : Nat) (m : Nat) (batch : List Nat) (envs : List Envelope)
      (rest : List Call) (ok : Bool)
      (hf : conn.fetchEnvelopesByUID .sequential k batch = .ok envs) (hne : envs ≠ [])
      (hrest : BatchLog conn mailbox uidValidity (k + 1) (updateMaxUID m envs) rest ok) :
      BatchLog conn mailbox uidValidity k m
        (.fetchEnvelopesByUID .sequential batch :: .insertEnvelopes mailbox envs ::
          .updateMailboxState mailbox uidValidity (updateMaxUID m envs) :: rest) ok

/-- The size of the share of worker `i` as the spec states it: the first `n mod W` workers
have one element more than `n / W`. -/
def shareCount (n W i : Nat) : Nat :=
  n / W + (if i < n % W then 1 else 0)

/-- The index at which the share of worker `i` starts when the shares are laid out one
after the other: the sizes of the shares of the workers before `i`, added up. -/
def shareStart (n W i : Nat) : Nat :=
  i * (n / W) + min i (n % W)

/-- The worker count as the spec states it: a nil options value or a count `<= 0` counts
as 1. -/
def normalizedWorkers (opts : Option SyncOptions) : Int :=
  match opts with
  | none => 1
  | some o => if o.workers ≤ 0 then 1 else o.workers

/-- The UIDs of the envelopes carried by a sequence of channel items, in order. -/
def itemUIDs (items : List Batch) : List Nat :=
  (items.map (fun b => b.envelopes.map (fun e => e.uid))).flatten

/-- The batches passed to the `FetchEnvelopesByUID` calls of a log, in order. -/
def fetchedBatches : List Call → List (List Nat)
  | [] => []
  | .fetchEnvelopesByUID _ batch :: rest => batch :: fetchedBatches rest
  | _ :: rest => fetchedBatches rest

/-- Lines 163-169 and 279-285: the batches `uids[i:end]` cut by the loop
`for i := ...; i < len(uids); i += batchSize` when it runs to its end, from index `i` on. -/
def batchesFrom (uids : List Nat) (i : Nat) : List (List Nat) :=
  if i < uids.length then
    let endIdx := if i + batchSize > uids.length then uids.length else i + batchSize
    slice uids i endIdx :: batchesFrom uids (i + batchSize)
  else []
termination_by uids.length - i
decreasing_by all_goals (simp only [batchSize]; omega)

/-- Lines 303-356: the writer of `fetchMissingUIDsParallel` on the items `items` that it
receives from the channel, in this order: the loop, then the final checkpoint.
`fetchMissingUIDsParallel` is `writerRun` on the arrival order of the items of its
workers. -/
def writerRun {σ : Type} (store : Store σ) (mailbox : String) (uidValidity : Nat)
    (items : List Batch) (s : σ) : Run σ (Nat × Option Err) :=
  writerFinish store mailbox uidValidity
    (writerLoop store mailbox uidValidity items ⟨0, 0, none, 0, s, []⟩)

/-- The calls of the writer as the spec states them, for batches that are all written: an
`InsertEnvelopes` for each batch, and after every 10th batch a checkpoint with the running
maximum UID.  `n` batches have been consumed before, with running maximum `m`. -/
def periodicLog (mailbox : String) (uidValidity : Nat) : Nat → Nat → List Batch → List Call
  | _, _, [] => []
  | n, m, b :: bs =>
    .insertEnvelopes mailbox b.envelopes ::
      ((if (n + 1) % 10 = 0
          then [Call.updateMailboxState mailbox uidValidity (updateMaxUID m b.envelopes)]
          else [])
        ++ periodicLog mailbox uidValidity (n + 1) (updateMaxUID m b.envelopes) bs)

/-- The calls of the writer for the batches it inserts, in order: an `InsertEnvelopes` per
batch, followed by a checkpoint with the running maximum UID when at least 10 batches were
inserted since the previous periodic checkpoint and that maximum is `> 0`.  `c` batches
were inserted since the previous periodic checkpoint, with running maximum `m`. -/
def periodicCalls (mailbox : String) (uidValidity : Nat) : Nat → Nat → List Batch → List Call
  | _, _, [] => []
  | c, m, b :: bs =>
    .insertEnvelopes mailbox b.envelopes ::
      (if c + 1 ≥ 10 ∧ updateMaxUID m b.envelopes > 0 then
        .updateMailboxState mailbox uidValidity (updateMaxUID m b.envelopes) ::
          periodicCalls mailbox uidValidity 0 (updateMaxUID m b.envelopes) bs
      else periodicCalls mailbox uidValidity (c + 1) (updateMaxUID m b.envelopes) bs)

/-- The batches of a sequence of items that hold at least one envelope. -/
def nonEmptyBatches (items : List Batch) : List Batch :=
  items.filter (fun b => decide (b.envelopes.length > 0))

/-- The call on which the writer records a store error, when the items `rest` that it has
not written start with a batch: the `InsertEnvelopes` of that batch.  A worker error item
causes no call. -/
def failedInsert (mailbox : String) : List Batch → List Call
  | [] => []
  | b :: _ =>
    match b.err with
    | none => [.insertEnvelopes mailbox b.envelopes]
    | some _ => []

/-! ## The errors returned by the calls of a run -/

/-- The error of a result, `none` for a nil error. -/
def errOf {α : Type} : Except Err α → Option Err
  | .error err => some err
  | .ok _ => none

/-- The error a call returns, the fetch counts and the store state it leaves, when it is
made in the store state `s`, `fetches c` fetches having been made on each session `c`. -/
def callOutcome {σ : Type} (conn : Connector) (store : Store σ) (fetches : ConnId → Nat)
    (s : σ) : Call → Option Err × (ConnId → Nat) × σ
  | .openCache => (store.openCache, fetches, s)
  | .connect c => (conn.connect c, fetches, s)
  | .selectMailbox c mailbox => (errOf (conn.selectMailbox c mailbox), fetches, s)
  | .getAllUIDs c => (errOf (conn.getAllUIDs c), fetches, s)
  | .fetchEnvelopesByUID c batch =>
    (errOf (conn.fetchEnvelopesByUID c (fetches c) batch),
      Function.update fetches c (fetches c + 1), s)
  | .getMailboxState mailbox => (errOf (store.getMailboxState mailbox s), fetches, s)
  | .clearMailbox mailbox =>
    ((store.clearMailbox mailbox s).1, fetches, (store.clearMailbox mailbox s).2)
  | .getCachedUIDs mailbox => (errOf (store.getCachedUIDs mailbox s), fetches, s)
  | .insertEnvelopes mailbox envelopes =>
    ((store.insertEnvelopes mailbox envelopes s).1, fetches,
      (store.insertEnvelopes mailbox envelopes s).2)
  | .updateMailboxState mailbox uidValidity lastUID =>
    ((store.updateMailboxState mailbox uidValidity lastUID s).1, fetches,
      (store.updateMailboxState mailbox uidValidity lastUID s).2)

/-- The calls of a log, each with the error it returns when the calls are made in this
order from the store state `s` and the fetch counts `fetches`. -/
def outcomes {σ : Type} (conn : Connector) (store : Store σ) :
    List Call → (ConnId → Nat) → σ → List (Call × Option Err)
  | [], _, _ => []
  | call :: rest, fetches, s =>
    (call, (callOutcome conn store fetches s call).1) ::
      outcomes conn store rest (callOutcome conn store fetches s call).2.1
        (callOutcome conn store fetches s call).2.2

/-- The fetch counts and the store state after the calls of a log have been made. -/
def stateAfter {σ : Type} (conn : Connector) (store : Store σ) :
    List Call → (ConnId → Nat) → σ → (ConnId → Nat) × σ
  | [], fetches, s => (fetches, s)
  | call :: rest, fetches, s =>
    stateAfter conn store rest (callOutcome conn store fetches s call).2.1
      (callOutcome conn store fetches s call).2.2

/-- Lines 64-66 and 92-95: the error `Sync` returns for the error `err` of a call of the
main goroutine: the error of `ClearMailbox` and the error of `GetAllUIDs` are wrapped, any
other error is returned as it is. -/
def surfaced : Call → Err → Err
  | .clearMailbox _, err => .wrap "clearing stale cache" err
  | .getAllUIDs _, err => .wrap "getting server UIDs" err
  | _, err => err

/-- Lines 266-289: the error a worker sends over the channel for the error `err` of a call
on its session. -/
def sentBy : Call → Err → Err
  | .connect _, err => .wrap "connect" err
  | .selectMailbox _ _, err => .wrap "select" err
  | .fetchEnvelopesByUID _ _, err => .wrap "fetch" err
  | _, err => err

/-- The error `e` is the error sent by a worker: some call made by a worker on its session
returned an error, and `e` is that error as the worker sends it. -/
def SentByWorker {σ : Type} (conn : Connector) (store : Store σ) (mailbox : String) (s : σ)
    (e : Err) : Prop :=
  ∃ (j : Nat) (share : List Nat) (call : Call) (e0 : Err),
    (call, some e0) ∈ outcomes conn store (workerRun conn (.worker j) mailbox share).2
        (fun _ => 0) s
      ∧ e = sentBy call e0

/-- The errors returned by the calls of a run, `O`, against the error the run returns,
`res`: a call that fails before the last call is one of `dropped`; when the last call fails,
`res` is its error as `surfaced` gives it, or an error of `sent`; and an error in `res` is
the error of the last call as `surfaced` gives it, or an error of `sent`. -/
def Surfaces (dropped : Call → Prop) (sent : Err → Prop) (O : List (Call × Option Err))
    (res : Option Err) : Prop :=
  (∀ p ∈ O.dropLast, p.2 ≠ none → dropped p.1)
    ∧ (∀ c e0, O.getLast? = some (c, some e0) →
        res = some (surfaced c e0) ∨ ∃ e, res = some e ∧ sent e)
    ∧ (∀ e, res = some e →
        (∃ c e0, O.getLast? = some (c, some e0) ∧ e = surfaced c e0) ∨ sent e)

/-- The errors returned by the calls of a worker, `O`, against the items it sends: no call
but the last one fails; when the last call fails, the last item sent is its error as
`sentBy` gives it; an item that carries an error carries the error of the last call as
`sentBy` gives it; and no item but the last one carries an error. -/
def WorkerSends (O : List (Call × Option Err)) (items : List Batch) : Prop :=
  (∀ p ∈ O.dropLast, p.2 = none)
    ∧ (∀ call e0, O.getLast? = some (call, some e0) →
        items.getLast? = some ⟨[], some (sentBy call e0)⟩)
    ∧ (∀ b ∈ items, ∀ e, b.err = some e →
        ∃ call e0, O.getLast? = some (call, some e0) ∧ e = sentBy call e0)
    ∧ (∀ b ∈ items.dropLast, b.err = none)

/-! ## Concrete connectors and caches -/

/-- A connector all of whose calls succeed: the mailbox has epoch `uidValidity` and holds
the messages `serverUIDs`, and a fetch returns one envelope per requested UID. -/
def idealConn (uidValidity : Nat) (serverUIDs : List Nat) : Connector where
  connect := fun _ => none
  selectMailbox := fun _ _ => .ok ⟨uidValidity, serverUIDs.length⟩
  getAllUIDs := fun _ => .ok serverUIDs
  fetchEnvelopesByUID := fun _ _ batch => .ok (batch.map (fun u => ⟨u, ""⟩))

/-- A connector like `idealConn` whose fetches return no envelope, as when the listed
messages have been expunged before they are fetched. -/
def expungedConn (uidValidity : Nat) (serverUIDs : List Nat) : Connector where
  connect := fun _ => none
  selectMailbox := fun _ _ => .ok ⟨uidValidity, serverUIDs.length⟩
  getAllUIDs := fun _ => .ok serverUIDs
  fetchEnvelopesByUID := fun _ _ _ => .ok []

/-- The cache before the first sync: no envelope, no state. -/
def emptyDB : CacheDB := fun _ => ⟨[], none⟩

/-- A cache that holds, for every mailbox, envelopes with the UIDs `uids` and the state
`(uidValidity, lastUID)`. -/
def cachedDB (uidValidity lastUID : Nat) (uids : List Nat) : CacheDB :=
  fun _ => ⟨uids.map (fun u => ⟨u, ""⟩), some ⟨uidValidity, lastUID⟩⟩

/-- A store like `specStore` whose `InsertEnvelopes` fails and leaves the cache as it is,
as when the disk is full. -/
def fullDiskStore : Store CacheDB :=
  { specStore with insertEnvelopes := fun _ _ db => (some (.base "disk full"), db) }

/-- A connector like `idealConn` on which only the session of `Sync` can be opened: `Connect`
fails on the session of the sequential strategy and on the sessions of the workers, with a
different error for the first worker and for the later ones. -/
def refusingConn (uidValidity : Nat) (serverUIDs : List Nat) : Connector :=
  { idealConn uidValidity serverUIDs with
    connect := fun c => match c with
      | .main => none
      | .sequential => some (.base "refused")
      | .worker j => some (.base (if j = 0 then "refused first" else "refused later")) }

/-- A connector like `idealConn` on which the fetch number `failAt` of every session
(counted from 0) fails. -/
def flakyConn (uidValidity : Nat) (serverUIDs : List Nat) (failAt : Nat) : Connector :=
  { idealConn uidValidity serverUIDs with
    fetchEnvelopesByUID := fun _ k batch =>
      if k = failAt then .error (.base "connection reset")
      else .ok (batch.map (fun u => ⟨u, ""⟩)) }

/-- A store like `specStore` whose `ClearMailbox` fails and leaves the cache as it is. -/
def lockedStore : Store CacheDB :=
  { specStore with clearMailbox := fun _ db => (some (.base "locked"), db) }

/-- A connector like `idealConn` whose mailbox reports 3 messages and then lists no UID, as
when the messages are expunged between the two calls. -/
def vanishedConn (uidValidity : Nat) : Connector where
  connect := fun _ => none
  selectMailbox := fun _ _ => .ok ⟨uidValidity, 3⟩
  getAllUIDs := fun _ => .ok []
  fetchEnvelopesByUID := fun _ _ batch => .ok (batch.map (fun u => ⟨u, ""⟩))

end Mail

namespace Scopes

/-! ## Scope checks (`scopes/validator.go`) -/

/-- The library function `strings.Split(s, " ")` on the characters of `s`: the pieces of `s`
between its spaces, in order.  A space ends the current piece and starts the next one, so
`n` spaces give `n + 1` pieces, some of which may be empty.  The space is a single byte
that occurs in no multi-byte character, so cutting the characters and cutting the bytes
give the same pieces. -/
def splitSpace : List Char → List (List Char)
  | [] => [[]]
  | c :: cs =>
    if c = ' ' then [] :: splitSpace cs
    else
      match splitSpace cs with
      | [] => [[c]]
      | p :: ps => (c :: p) :: ps

/-- The call `strings.Split(granted, " ")` of line 7. -/
def Split (s : String) : List String :=
  (splitSpace s.data).map String.mk

/-- Lines 8-13: the loop `for _, s := range grantedScopes { if s == required { return true } }`
followed by `return false`. -/
def scopeLoop (required : String) : List String → Bool
  | [] => false
  | s :: rest => if s == required then true else scopeLoop required rest

/-- The function `CheckScope`. -/
def CheckScope (required : String) (granted : String) : Bool :=
  scopeLoop required (Split granted)

/-- Modelled from the spec: a scope group.  Its declaration is not among the translated
sources; `CheckScopeGroup` reads only the field `Scopes`. -/
structure ScopeGroup where
  Scopes : List String
  deriving DecidableEq, Repr

/-- Lines 24-29: the loop that appends to `missing` every scope of the group that is not
granted. -/
def missingScopes (scopes : List String) (granted : String) : List String :=
  scopes.foldl
    (fun missing scope => if !CheckScope scope granted then missing ++ [scope] else missing) []

/-- The function `CheckScopeGroup`.  `Groups` is the table of the groups, a Go map, whose
declaration is not among the translated sources; the second component is `none` for the nil
slice. -/
def CheckScopeGroup (Groups : String → Option ScopeGroup) (groupName : String)
    (granted : String) : Bool × Option (List String) :=
  match Groups groupName with
  | none => (false, none)
  | some group =>
    let missing := missingScopes group.Scopes granted
    (missing.length == 0, some missing)

/-- The struct `ValidationError`. -/
structure ValidationError where
  Group : String
  Missing : Option (List String)
  deriving DecidableEq, Repr

/-- The function `ValidateForGroup`; `none` is the nil error. -/
def ValidateForGroup (Groups : String → Option ScopeGroup) (groupName : String)
    (granted : String) : Option ValidationError :=
  let r := CheckScopeGroup Groups groupName granted
  if r.1 then none else some ⟨groupName, r.2⟩

/-- A table with two groups. -/
def sampleGroups : String → Option ScopeGroup := fun name =>
  if name = "mail" then some ⟨["mail:read", "mail:send"]⟩
  else if name = "calendar" then some ⟨["calendar:read"]⟩
  else none

end Scopes

namespace Auth

/-! ## Token validity (`auth/token.go`) -/

/-- The constant `time.Second`: a `time.Duration` counts nanoseconds. -/
def Second : Int := 1000000000

/-- The constant `time.Minute`. -/
def Minute : Int := 60 * Second

/-- The method `Time.Add` of the library.  An instant is modelled by its distance in
nanoseconds from a fixed origin, without bound. -/
def timeAdd (t : Int) (d : Int) : Int := t + d

/-- The method `Time.Before` of the library: `t` is strictly earlier than `u`. -/
def timeBefore (t : Int) (u : Int) : Bool := decide (t < u)

/-- The method `Time.After` of the library: `t` is strictly later than `u`. -/
def timeAfter (t : Int) (u : Int) : Bool := decide (t > u)

/-- The struct `TokenStore`, without its mutex. -/
structure TokenStore where
  AccessToken : String
  RefreshToken : String
  ExpiresAt : Int
  RefreshTokenExpiresAt : Int
  Scope : String
  UserID : String
  deriving DecidableEq, Repr

/-- The struct `TenantTokenStore`, without its mutex. -/
structure TenantTokenStore where
  AccessToken : String
  ExpiresAt : Int
  deriving DecidableEq, Repr

/-- The method `TokenStore.IsValid`; `now` is the value of `time.Now()`. -/
def TokenStore.IsValid (t : TokenStore) (now : Int) : Bool :=
  if t.AccessToken == "" then false
  else timeBefore (timeAdd now (5 * Minute)) t.ExpiresAt

/-- The method `TokenStore.NeedsRefresh`; `now` is the value of `time.Now()`. -/
def TokenStore.NeedsRefresh (t : TokenStore) (now : Int) : Bool :=
  if t.AccessToken == "" then false
  else timeAfter (timeAdd now (10 * Minute)) t.ExpiresAt

/-- The method `TenantTokenStore.IsValid`; `now` is the value of `time.Now()`. -/
def TenantTokenStore.IsValid (t : TenantTokenStore) (now : Int) : Bool :=
  if t.AccessToken == "" then false
  else timeBefore (timeAdd now (5 * Minute)) t.ExpiresAt

end Auth

namespace Cmd

/-! ## The chat search command (`cmd/chat.go`) -/

/-- Modelled from the spec: the struct `api.SearchChatsOptions`, whose declaration is not
among the translated sources; the command sets these three fields. -/
structure SearchChatsOptions where
  Query : String
  PageSize : Int
  PageToken : String
  deriving DecidableEq, Repr

/-- What one call of `client.SearchChats` returns when its error is nil: the chats of the
page, whether there are more, and the token of the next page. -/
structure Page (χ : Type) where
  chats : List χ
  more : Bool
  nextToken : String

/-- What a run of the pagination leaves behind: the list `allChats` at the end, or the error
passed to `output.Fatal`; the requests made, in order; and the pages received, in order. -/
structure SearchRun (χ : Type) (ε : Type) where
  result : Except ε (List χ)
  requests : List SearchChatsOptions
  pages : List (Page χ)

/-- The concatenation of the chats of a list of pages. -/
def chatsOf {χ : Type} (pages : List (Page χ)) : List χ :=
  (pages.map (fun p => p.chats)).flatten

/-- Lines 55-78: the loop `for hasMore`, entered with `hasMore` true.  `SearchChats k opts`
is the answer of the server to the request `opts` when `k` requests were made before.
`fuel` bounds the number of iterations; `none` means that the bound was reached. -/
def searchLoop {χ ε : Type} (SearchChats : Nat → SearchChatsOptions → Except ε (Page χ))
    (query : String) (chatSearchLimit : Int) :
    Nat → Nat → List χ → String → Int → Option (SearchRun χ ε)
  | 0, _, _, _, _ => none
  | fuel + 1, k, allChats, pageToken, remaining =>
    let pageSize : Int := if remaining > 0 ∧ remaining < 50 then remaining else 50
    let opts : SearchChatsOptions := ⟨query, pageSize, pageToken⟩
    match SearchChats k opts with
    | .error err => some ⟨.error err, [opts], []⟩
    | .ok page =>
      let allChats1 := allChats ++ page.chats
      if chatSearchLimit > 0 then
        let remaining1 := chatSearchLimit - (allChats1.length : Int)
        if remaining1 ≤ 0 then some ⟨.ok allChats1, [opts], [page]⟩
        else if page.more then
          (searchLoop SearchChats query chatSearchLimit fuel (k + 1) allChats1 page.nextToken
            remaining1).map (fun r => ⟨r.result, opts :: r.requests, page :: r.pages⟩)
        else some ⟨.ok allChats1, [opts], [page]⟩
      else if page.more then
        (searchLoop SearchChats query chatSearchLimit fuel (k + 1) allChats1 page.nextToken
          remaining).map (fun r => ⟨r.result, opts :: r.requests, page :: r.pages⟩)
      else some ⟨.ok allChats1, [opts], [page]⟩

/-- Lines 80-83: `allChats[:chatSearchLimit]` when the limit is positive and exceeded. -/
def trimToLimit {χ : Type} (chatSearchLimit : Int) (allChats : List χ) : List χ :=
  if chatSearchLimit > 0 ∧ (allChats.length : Int) > chatSearchLimit then
    allChats.take chatSearchLimit.toNat
  else allChats

/-- Lines 41-83 of the command `chat search`: the query is the first argument if there is
one, the pagination runs, and the list is trimmed.  The conversion of lines 85-101 copies
each chat field by field and is not modelled. -/
def chatSearch {χ ε : Type} (SearchChats : Nat → SearchChatsOptions → Except ε (Page χ))
    (args : List String) (chatSearchLimit : Int) (fuel : Nat) : Option (SearchRun χ ε) :=
  (searchLoop SearchChats (args.headD "") chatSearchLimit fuel 0 [] "" chatSearchLimit).map
    (fun r => ⟨r.result.map (trimToLimit chatSearchLimit), r.requests, r.pages⟩)

/-! ## The duration of a recording (`cmd/minutes.go`) -/

/-- The function `formatDuration`.  Go's `/` and `%` on `int` truncate towards zero;
`fmt.Sprintf` with `%d` writes the decimal digits. -/
def formatDuration (seconds : Int) : String :=
  let h := seconds.tdiv 3600
  let m := (seconds.tmod 3600).tdiv 60
  let s := seconds.tmod 60
  if h > 0 then
    toString h ++ "h " ++ toString m ++ "m " ++ toString s ++ "s"
  else if m > 0 then
    toString m ++ "m " ++ toString s ++ "s"
  else
    toString s ++ "s"

/-- A server with 120 chats, numbered from 0, that answers the `k`-th request with the next
`PageSize` chats. -/
def countingServer : Nat → SearchChatsOptions → Except String (Page Nat) := fun k opts =>
  .ok ⟨List.range' (50 * k) (min opts.PageSize.toNat (120 - 50 * k)), decide (50 * (k + 1) < 120),
    toString (k + 1)⟩

end Cmd

namespace Mail

/-! # Theorems -/

/-! ## The diff (C1) -/

theorem missingUIDs_foldl (cachedUIDs : Finset Nat) (serverUIDs acc : List Nat) :
    serverUIDs.foldl
      (fun missing uid => if !(decide (uid ∈ cachedUIDs)) then missing ++ [uid] else missing) acc
      = acc ++ serverUIDs.filter (fun uid => decide (uid ∉ cachedUIDs)) := by
  induction serverUIDs generalizing acc with
  | nil => simp
  | cons u us ih =>
    rw [List.foldl_cons, ih]
    by_cases h : u ∈ cachedUIDs <;> simp [h]

theorem missingUIDs_eq_filter (serverUIDs : List Nat) (cachedUIDs : Finset Nat) :
    missingUIDs serverUIDs cachedUIDs
      = serverUIDs.filter (fun uid => decide (uid ∉ cachedUIDs)) := by
  unfold missingUIDs
  rw [missingUIDs_foldl]
  simp

/-- C1: the list computed by the diff loop of `Sync` is the sublist of `serverUIDs`, in the
same order and with the same multiplicities, of the UIDs that are not in the cached set:
its members are exactly the remote UIDs that are not cached. -/
theorem missingUIDs_is_ordered_difference (serverUIDs : List Nat) (cachedUIDs : Finset Nat) :
    missingUIDs serverUIDs cachedUIDs
        = serverUIDs.filter (fun uid => decide (uid ∉ cachedUIDs))
      ∧ (missingUIDs serverUIDs cachedUIDs).Sublist serverUIDs
      ∧ (∀ uid, uid ∈ missingUIDs serverUIDs cachedUIDs ↔ uid ∈ serverUIDs ∧ uid ∉ cachedUIDs)
      ∧ (∀ uid, uid ∉ cachedUIDs →
          (missingUIDs serverUIDs cachedUIDs).count uid = serverUIDs.count uid) := by
  refine ⟨missingUIDs_eq_filter _ _, ?_, ?_, ?_⟩
  · rw [missingUIDs_eq_filter]; exact List.filter_sublist _
  · intro uid; rw [missingUIDs_eq_filter]; simp
  · intro uid h
    rw [missingUIDs_eq_filter, List.count_filter]
    simpa using h


/-! ## The partition among the workers (C2) -/

theorem slice_append {α : Type} (xs : List α) (a b c : Nat) (hab : a ≤ b) (hbc : b ≤ c) :
    slice xs a b ++ slice xs b c = slice xs a c := by
  unfold slice
  have h1 : c - a = (b - a) + (c - b) := by omega
  have h2 : List.drop b xs = List.drop (b - a) (List.drop a xs) := by
    rw [List.drop_drop]; congr 1; omega
  rw [h1, List.take_add, h2]

theorem slice_length {α : Type} (xs : List α) (a b : Nat) (hb : b ≤ xs.length) :
    (slice xs a b).length = b - a := by
  unfold slice
  simp
  omega

theorem slice_full {α : Type} (xs : List α) : slice xs 0 xs.length = xs := by
  simp [slice]

theorem shareStart_succ (q r i : Nat) :
    (i + 1) * q + min (i + 1) r = (i * q + min i r) + (q + (if i < r then 1 else 0)) := by
  split_ifs <;> simp [Nat.succ_mul] <;> omega

theorem shareRanges_closed (q r W : Nat) : ∀ (k i : Nat), W - i = k →
    shareRanges q r W i (i * q + min i r) =
      ((List.range' i (W - i)).filter (fun j => decide (q + (if j < r then 1 else 0) ≠ 0))).map
        (fun j => (j * q + min j r, q + (if j < r then 1 else 0))) := by
  intro k
  induction k with
  | zero =>
    intro i h
    rw [shareRanges]
    have : ¬ i < W := by omega
    simp [this, h]
  | succ k ih =>
    intro i h
    rw [shareRanges]
    have hi : i < W := by omega
    have hW : W - i = (W - (i + 1)) + 1 := by omega
    have hc : (if i < r then q + 1 else q) = q + (if i < r then 1 else 0) := by
      split_ifs <;> rfl
    simp only [hi, if_true, hc]
    rw [hW, List.range'_succ, List.filter_cons]
    by_cases h0 : q + (if i < r then 1 else 0) = 0
    · have hs : (i + 1) * q + min (i + 1) r = i * q + min i r := by
        rw [shareStart_succ, h0]; rfl
      simp only [h0, if_true, ne_eq, not_true_eq_false, decide_False]
      rw [← hs]
      simpa using ih (i + 1) (by omega)
    · simp only [h0, if_false, ne_eq, not_false_eq_true, decide_True, if_true, List.map_cons]
      rw [← shareStart_succ]
      congr 1
      simpa using ih (i + 1) (by omega)

theorem shareRanges_flatten (uids : List Nat) (q r W : Nat) : ∀ (k i : Nat), W - i = k → i ≤ W →
    ((shareRanges q r W i (i * q + min i r)).map
        (fun p => slice uids p.1 (p.1 + p.2))).flatten
      = slice uids (i * q + min i r) (W * q + min W r) := by
  intro k
  induction k with
  | zero =>
    intro i h hle
    have : i = W := by omega
    subst this
    rw [shareRanges]
    simp [slice]
  | succ k ih =>
    intro i h hle
    rw [shareRanges]
    have hi : i < W := by omega
    have hc : (if i < r then q + 1 else q) = q + (if i < r then 1 else 0) := by
      split_ifs <;> rfl
    simp only [hi, if_true, hc]
    have hmono : (i + 1) * q + min (i + 1) r ≤ W * q + min W r := by
      have h1 : (i + 1) * q ≤ W * q := Nat.mul_le_mul_right q hi
      have h2 : min (i + 1) r ≤ min W r := by omega
      omega
    by_cases h0 : q + (if i < r then 1 else 0) = 0
    · have hs : (i + 1) * q + min (i + 1) r = i * q + min i r := by
        rw [shareStart_succ, h0]; rfl
      simp only [h0, if_true]
      rw [← hs]
      exact ih (i + 1) (by omega) (by omega)
    · simp only [h0, if_false, List.map_cons, List.flatten_cons]
      rw [← shareStart_succ, ih (i + 1) (by omega) (by omega)]
      apply slice_append
      · rw [shareStart_succ]; omega
      · exact hmono

theorem shareStart_last (n W : Nat) (hW : 1 ≤ W) :
    W * (n / W) + min W (n % W) = n := by
  have h1 : n % W < W := Nat.mod_lt _ (by omega)
  rw [Nat.min_eq_right (le_of_lt h1)]
  exact Nat.div_add_mod n W

theorem workerShares_flatten (uids : List Nat) (W : Nat) (hW : 1 ≤ W) :
    (workerShares uids W).flatten = uids := by
  unfold workerShares
  have := shareRanges_flatten uids (uids.length / W) (uids.length % W) W W 0 (by omega) (by omega)
  simp only [Nat.zero_mul, Nat.zero_min, Nat.add_zero] at this
  rw [this, shareStart_last uids.length W hW]
  exact slice_full uids

/-- C2: for `W ≥ 1` workers and `n` UIDs, worker `i` has the index range that starts at
`shareStart n W i` and holds `shareCount n W i` elements, where the first `n mod W`
workers count `n / W + 1` and the others `n / W`.  The shares handed out are the slices of
`uids` on these ranges, in worker order (a worker whose count is 0 is not started);
consecutive ranges touch, so they are contiguous, pairwise disjoint and inside `uids`; the
shares concatenate to `uids`; any two counts differ by at most 1. -/
theorem workerShares_partition (uids : List Nat) (W : Nat) (hW : 1 ≤ W) :
    workerShares uids W
        = ((List.range W).filter (fun i => decide (shareCount uids.length W i ≠ 0))).map
            (fun i => slice uids (shareStart uids.length W i)
              (shareStart uids.length W i + shareCount uids.length W i))
      ∧ shareStart uids.length W 0 = 0 ∧ shareStart uids.length W W = uids.length
      ∧ (∀ i, i < W →
          shareStart uids.length W (i + 1)
            = shareStart uids.length W i + shareCount uids.length W i)
      ∧ (∀ i j, i < j → j < W →
          shareStart uids.length W i + shareCount uids.length W i ≤ shareStart uids.length W j)
      ∧ (∀ i, i < W →
          shareStart uids.length W i + shareCount uids.length W i ≤ uids.length
            ∧ (slice uids (shareStart uids.length W i)
                (shareStart uids.length W i + shareCount uids.length W i)).length
              = shareCount uids.length W i)
      ∧ (workerShares uids W).flatten = uids
      ∧ (∀ i, i < W → shareCount uids.length W i
          = if i < uids.length % W then uids.length / W + 1 else uids.length / W)
      ∧ (∀ i j, i < W → j < W → shareCount uids.length W i ≤ shareCount uids.length W j + 1)
      ∧ (W ≤ uids.length → (workerShares uids W).length = W) := by
  have hlast : shareStart uids.length W W = uids.length := shareStart_last uids.length W hW
  have hsucc : ∀ i, shareStart uids.length W (i + 1)
      = shareStart uids.length W i + shareCount uids.length W i :=
    fun i => shareStart_succ _ _ i
  have hmono : ∀ i j, i ≤ j → shareStart uids.length W i ≤ shareStart uids.length W j := by
    intro i j hij
    have h1 : i * (uids.length / W) ≤ j * (uids.length / W) := Nat.mul_le_mul_right _ hij
    have h2 : min i (uids.length % W) ≤ min j (uids.length % W) := by omega
    show i * (uids.length / W) + min i (uids.length % W)
      ≤ j * (uids.length / W) + min j (uids.length % W)
    omega
  have hclosed : workerShares uids W
      = ((List.range W).filter (fun i => decide (shareCount uids.length W i ≠ 0))).map
          (fun i => slice uids (shareStart uids.length W i)
            (shareStart uids.length W i + shareCount uids.length W i)) := by
    unfold workerShares
    have := shareRanges_closed (uids.length / W) (uids.length % W) W W 0 (by omega)
    simp only [Nat.zero_mul, Nat.zero_min, Nat.add_zero, Nat.sub_zero] at this
    rw [this, List.map_map, List.range_eq_range']
    rfl
  refine ⟨hclosed, by simp [shareStart], hlast, fun i _ => hsucc i, ?_, ?_,
    workerShares_flatten uids W hW, ?_, ?_, ?_⟩
  · intro i j hij _
    rw [← hsucc i]
    exact hmono _ _ hij
  · intro i hi
    have hb : shareStart uids.length W i + shareCount uids.length W i ≤ uids.length := by
      have h := hmono (i + 1) W hi
      rw [hsucc i, hlast] at h
      exact h
    refine ⟨hb, ?_⟩
    rw [slice_length _ _ _ hb]
    omega
  · intro i _
    unfold shareCount
    split_ifs <;> rfl
  · intro i j _ _
    unfold shareCount
    split_ifs <;> omega
  · intro hle
    rw [hclosed, List.length_map]
    have hq : 1 ≤ uids.length / W := (Nat.one_le_div_iff (by omega)).mpr hle
    have : (List.range W).filter (fun i => decide (shareCount uids.length W i ≠ 0))
        = List.range W := by
      rw [List.filter_eq_self]
      intro a _
      have : shareCount uids.length W a ≠ 0 := by
        unfold shareCount
        omega
      simpa using this
    rw [this, List.length_range]

/-! ## The shape of the log of the sequential loop -/

theorem updateMaxUID_append (m : Nat) (xs ys : List Envelope) :
    updateMaxUID m (xs ++ ys) = updateMaxUID (updateMaxUID m xs) ys := by
  simp [updateMaxUID, List.foldl_append]

theorem le_updateMaxUID (envs : List Envelope) : ∀ m : Nat, m ≤ updateMaxUID m envs := by
  induction envs with
  | nil => intro m; simp [updateMaxUID]
  | cons e es ih =>
    intro m
    have h := ih (if e.uid > m then e.uid else m)
    simp only [updateMaxUID, List.foldl_cons] at h ⊢
    by_cases hx : e.uid > m <;> simp only [hx, if_true, if_false] at h ⊢ <;> omega

theorem uid_le_updateMaxUID (envs : List Envelope) : ∀ (m : Nat) (e : Envelope), e ∈ envs →
    e.uid ≤ updateMaxUID m envs := by
  induction envs with
  | nil => intro m e h; simp at h
  | cons x xs ih =>
    intro m e h
    simp only [updateMaxUID, List.foldl_cons]
    rcases List.mem_cons.mp h with rfl | h
    · refine le_trans ?_ (le_updateMaxUID xs _)
      by_cases hx : e.uid > m <;> simp only [hx, if_true, if_false] <;> omega
    · exact ih _ e h

theorem updateMaxUID_attained (envs : List Envelope) : ∀ (m : Nat),
    updateMaxUID m envs = m ∨ ∃ e ∈ envs, e.uid = updateMaxUID m envs := by
  induction envs with
  | nil => intro m; left; rfl
  | cons x xs ih =>
    intro m
    simp only [updateMaxUID, List.foldl_cons]
    rcases ih (if x.uid > m then x.uid else m) with h | ⟨e, he, h⟩
    · simp only [updateMaxUID] at h
      rw [h]
      by_cases hx : x.uid > m
      · right; exact ⟨x, List.mem_cons_self _ _, by simp [hx]⟩
      · left; simp [hx]
    · right; exact ⟨e, List.mem_cons_of_mem _ he, h⟩

theorem updateMaxUID_zero_attained (envs : List Envelope) (hne : envs ≠ []) :
    ∃ e ∈ envs, e.uid = updateMaxUID 0 envs := by
  rcases updateMaxUID_attained envs 0 with h | h
  · cases envs with
    | nil => exact absurd rfl hne
    | cons x xs =>
      refine ⟨x, List.mem_cons_self _ _, ?_⟩
      have := uid_le_updateMaxUID (x :: xs) 0 x (List.mem_cons_self _ _)
      omega
  · exact h

theorem inserted_append (xs ys : List Call) : inserted (xs ++ ys) = inserted xs ++ inserted ys := by
  induction xs with
  | nil => rfl
  | cons c cs ih => cases c <;> simp [inserted, ih]

theorem fetchCount_append (xs ys : List Call) :
    fetchCount (xs ++ ys) = fetchCount xs + fetchCount ys := by
  induction xs with
  | nil => simp [fetchCount]
  | cons c cs ih => cases c <;> simp [fetchCount, ih]; omega

theorem checkpoints_append (xs ys : List Call) :
    checkpoints (xs ++ ys) = checkpoints xs ++ checkpoints ys := by
  induction xs with
  | nil => rfl
  | cons c cs ih => cases c <;> simp [checkpoints, ih]

theorem BatchLog.head {conn : Connector} {mailbox : String} {v k : Nat} {m : Nat}
    {log : List Call} {ok : Bool} (h : BatchLog conn mailbox v k m log ok) :
    log = [] ∨ ∃ b rest, log = .fetchEnvelopesByUID .sequential b :: rest := by
  cases h <;> simp

theorem BatchLog.calls {conn : Connector} {mailbox : String} {v k : Nat} {m : Nat}
    {log : List Call} {ok : Bool} (h : BatchLog conn mailbox v k m log ok) :
    ∀ c ∈ log, (∃ b, c = .fetchEnvelopesByUID .sequential b) ∨ (∃ envs, c = .insertEnvelopes mailbox envs)
      ∨ (∃ x, c = .updateMailboxState mailbox v x) := by
  induction h with
  | done => simp
  | fetchFailed => simp
  | skipped k m batch rest ok hf hrest ih =>
    intro c hc
    rcases List.mem_cons.mp hc with rfl | hc
    · simp
    · exact ih c hc
  | insertFailed => simp
  | updateFailed => simp
  | committed k m batch envs rest ok hf hne hrest ih =>
    intro c hc
    simp only [List.mem_cons] at hc
    rcases hc with rfl | rfl | rfl | hc
    · simp
    · simp
    · simp
    · exact ih c hc

theorem BatchLog.at_update {conn : Connector} {mailbox : String} {v k : Nat} {m : Nat}
    {log : List Call} {ok : Bool} (h : BatchLog conn mailbox v k m log ok) :
    ∀ pre post mb w x, log = pre ++ Call.updateMailboxState mb w x :: post →
      mb = mailbox ∧ w = v ∧ x = updateMaxUID m (inserted pre)
        ∧ ∃ pre1 envs, envs ≠ [] ∧ pre = pre1 ++ [Call.insertEnvelopes mailbox envs] := by
  induction h with
  | done => intro pre post mb w x h; simp at h
  | fetchFailed =>
    intro pre post mb w x h
    rcases pre with _ | ⟨a, pre⟩ <;> simp at h
  | skipped k m batch rest ok hf hrest ih =>
    intro pre post mb w x h
    rcases pre with _ | ⟨a, pre⟩
    · simp at h
    · simp only [List.cons_append, List.cons.injEq] at h
      obtain ⟨rfl, h⟩ := h
      obtain ⟨h1, h2, h3, pre1, envs, h4, h5⟩ := ih pre post mb w x h
      exact ⟨h1, h2, by simpa [inserted] using h3,
        Call.fetchEnvelopesByUID .sequential batch :: pre1, envs, h4, by simp [h5]⟩
  | insertFailed =>
    intro pre post mb w x h
    rcases pre with _ | ⟨a, _ | ⟨b, pre⟩⟩ <;> simp at h
  | updateFailed k m batch envs hf hne =>
    intro pre post mb w x h
    rcases pre with _ | ⟨a, _ | ⟨b, _ | ⟨c, pre⟩⟩⟩ <;> simp at h
    obtain ⟨rfl, rfl, ⟨rfl, rfl, rfl⟩, _⟩ := h
    exact ⟨rfl, rfl, by simp [inserted], [_], envs, hne, rfl⟩
  | committed k m batch envs rest ok hf hne hrest ih =>
    intro pre post mb w x h
    rcases pre with _ | ⟨a, _ | ⟨b, _ | ⟨c, pre⟩⟩⟩
    · simp at h
    · simp at h
    · simp only [List.cons_append, List.nil_append, List.cons.injEq] at h
      obtain ⟨rfl, rfl, h, _⟩ := h
      simp only [Call.updateMailboxState.injEq] at h
      obtain ⟨rfl, rfl, rfl⟩ := h
      exact ⟨rfl, rfl, by simp [inserted], [_], envs, hne, rfl⟩
    · simp only [List.cons_append, List.cons.injEq] at h
      obtain ⟨rfl, rfl, rfl, h⟩ := h
      obtain ⟨h1, h2, h3, pre1, envs1, h4, h5⟩ := ih pre post mb w x h
      refine ⟨h1, h2, ?_, Call.fetchEnvelopesByUID .sequential batch ::
        Call.insertEnvelopes mailbox envs ::
        Call.updateMailboxState mailbox v (updateMaxUID m envs) :: pre1, envs1, h4, by simp [h5]⟩
      simp only [inserted]
      rw [updateMaxUID_append]
      exact h3

theorem BatchLog.at_insert {conn : Connector} {mailbox : String} {v k : Nat} {m : Nat}
    {log : List Call} {ok : Bool} (h : BatchLog conn mailbox v k m log ok) :
    ∀ pre post mb envs, log = pre ++ Call.insertEnvelopes mb envs :: post →
      (post = [] ∧ ok = false) ∨
        ∃ post1, post = Call.updateMailboxState mailbox v
          (updateMaxUID m (inserted pre ++ envs)) :: post1 := by
  induction h with
  | done => intro pre post mb envs h; simp at h
  | fetchFailed =>
    intro pre post mb envs h
    rcases pre with _ | ⟨a, pre⟩ <;> simp at h
  | skipped k m batch rest ok hf hrest ih =>
    intro pre post mb envs h
    rcases pre with _ | ⟨a, pre⟩
    · simp at h
    · simp only [List.cons_append, List.cons.injEq] at h
      obtain ⟨rfl, h⟩ := h
      simpa [inserted] using ih pre post mb envs h
  | insertFailed =>
    intro pre post mb envs h
    rcases pre with _ | ⟨a, _ | ⟨b, pre⟩⟩ <;> simp at h
    left; exact ⟨h.2.2, rfl⟩
  | updateFailed k m batch envs0 hf hne =>
    intro pre post mb envs h
    rcases pre with _ | ⟨a, _ | ⟨b, _ | ⟨c, pre⟩⟩⟩ <;> simp at h
    obtain ⟨rfl, ⟨rfl, rfl⟩, h⟩ := h
    right; exact ⟨[], by simp [inserted, ← h]⟩
  | committed k m batch envs0 rest ok hf hne hrest ih =>
    intro pre post mb envs h
    rcases pre with _ | ⟨a, _ | ⟨b, _ | ⟨c, pre⟩⟩⟩
    · simp at h
    · simp only [List.cons_append, List.nil_append, List.cons.injEq] at h
      obtain ⟨rfl, h, h2⟩ := h
      simp only [Call.insertEnvelopes.injEq] at h
      obtain ⟨rfl, rfl⟩ := h
      right; exact ⟨rest, by simp [inserted, ← h2]⟩
    · simp at h
    · simp only [List.cons_append, List.cons.injEq] at h
      obtain ⟨rfl, rfl, rfl, h⟩ := h
      rcases ih pre post mb envs h with h1 | ⟨post1, h1⟩
      · left; exact h1
      · right
        refine ⟨post1, ?_⟩
        rw [h1]
        simp only [inserted, List.append_assoc, updateMaxUID_append]

theorem BatchLog.at_fetch {conn : Connector} {mailbox : String} {v k : Nat} {m : Nat}
    {log : List Call} {ok : Bool} (h : BatchLog conn mailbox v k m log ok) :
    ∀ pre post c batch envs, log = pre ++ Call.fetchEnvelopesByUID c batch :: post →
      conn.fetchEnvelopesByUID .sequential (k + fetchCount pre) batch = .ok envs →
      (envs ≠ [] → ∃ post1, post = Call.insertEnvelopes mailbox envs :: post1)
      ∧ (envs = [] → post = [] ∨ ∃ b post1, post = Call.fetchEnvelopesByUID .sequential b :: post1) := by
  induction h with
  | done => intro pre post c batch envs h; simp at h
  | fetchFailed k m batch0 err hf =>
    intro pre post c batch envs h hok
    rcases pre with _ | ⟨a, pre⟩ <;> simp at h
    obtain ⟨⟨rfl, rfl⟩, _⟩ := h
    simp [fetchCount, hf] at hok
  | skipped k m batch0 rest ok hf hrest ih =>
    intro pre post c batch envs h hok
    rcases pre with _ | ⟨a, pre⟩
    · simp only [List.nil_append, List.cons.injEq, Call.fetchEnvelopesByUID.injEq] at h
      obtain ⟨⟨rfl, rfl⟩, rfl⟩ := h
      simp only [fetchCount, Nat.add_zero, hf, Except.ok.injEq] at hok
      subst hok
      exact ⟨fun h => absurd rfl h, fun _ => hrest.head⟩
    · simp only [List.cons_append, List.cons.injEq] at h
      obtain ⟨rfl, h⟩ := h
      apply ih pre post c batch envs h
      simpa [fetchCount, Nat.add_assoc, Nat.add_comm 1] using hok
  | insertFailed k m batch0 envs0 hf hne =>
    intro pre post c batch envs h hok
    rcases pre with _ | ⟨a, _ | ⟨b, pre⟩⟩ <;> simp at h
    obtain ⟨⟨rfl, rfl⟩, rfl⟩ := h
    simp only [fetchCount, Nat.add_zero, hf, Except.ok.injEq] at hok
    subst hok
    exact ⟨fun _ => ⟨[], rfl⟩, fun h => absurd h hne⟩
  | updateFailed k m batch0 envs0 hf hne =>
    intro pre post c batch envs h hok
    rcases pre with _ | ⟨a, _ | ⟨b, _ | ⟨c, pre⟩⟩⟩ <;> simp at h
    obtain ⟨⟨rfl, rfl⟩, rfl⟩ := h
    simp only [fetchCount, Nat.add_zero, hf, Except.ok.injEq] at hok
    subst hok
    exact ⟨fun _ => ⟨_, rfl⟩, fun h => absurd h hne⟩
  | committed k m batch0 envs0 rest ok hf hne hrest ih =>
    intro pre post c batch envs h hok
    rcases pre with _ | ⟨a, _ | ⟨b, _ | ⟨c, pre⟩⟩⟩
    · simp only [List.nil_append, List.cons.injEq, Call.fetchEnvelopesByUID.injEq] at h
      obtain ⟨⟨rfl, rfl⟩, rfl⟩ := h
      simp only [fetchCount, Nat.add_zero, hf, Except.ok.injEq] at hok
      subst hok
      exact ⟨fun _ => ⟨_, rfl⟩, fun h => absurd h hne⟩
    · simp at h
    · simp at h
    · simp only [List.cons_append, List.cons.injEq] at h
      obtain ⟨rfl, rfl, rfl, h⟩ := h
      apply ih pre post c batch envs h
      simpa [fetchCount, Nat.add_assoc, Nat.add_comm 1] using hok

theorem BatchLog.checkpoints_sorted {conn : Connector} {mailbox : String} {v k : Nat} {m : Nat}
    {log : List Call} {ok : Bool} (h : BatchLog conn mailbox v k m log ok) :
    (∀ x ∈ checkpoints log, m ≤ x) ∧ (checkpoints log).Pairwise (· ≤ ·) := by
  induction h with
  | done => simp [checkpoints]
  | fetchFailed => simp [checkpoints]
  | skipped k m batch rest ok hf hrest ih => simpa [checkpoints] using ih
  | insertFailed => simp [checkpoints]
  | updateFailed k m batch envs hf hne => simpa [checkpoints] using le_updateMaxUID envs m
  | committed k m batch envs rest ok hf hne hrest ih =>
    simp only [checkpoints, List.mem_cons, List.pairwise_cons]
    refine ⟨?_, ih.1, ih.2⟩
    intro x hx
    rcases hx with rfl | hx
    · exact le_updateMaxUID envs m
    · exact le_trans (le_updateMaxUID envs m) (ih.1 x hx)

theorem fetchLoop_log {σ : Type} (conn : Connector) (store : Store σ) (mailbox : String)
    (uidValidity : Nat) (uids : List Nat) : ∀ (n i k totalFetched : Nat) (maxUID : Nat) (s : σ),
    uids.length - i = n →
    BatchLog conn mailbox uidValidity k maxUID
      (fetchLoop conn store mailbox uidValidity uids i k totalFetched maxUID s).log
      (fetchLoop conn store mailbox uidValidity uids i k totalFetched maxUID s).result.2.isNone := by
  intro n
  induction n using Nat.strong_induction_on with
  | _ n ih =>
    intro i k tf m s hn
    rw [fetchLoop]
    by_cases hi : i < uids.length
    · simp only [hi, if_true]
      have hrec : ∀ tf2 m2 (s2 : σ), BatchLog conn mailbox uidValidity (k + 1) m2
          (fetchLoop conn store mailbox uidValidity uids (i + batchSize) (k + 1) tf2 m2 s2).log
          (fetchLoop conn store mailbox uidValidity uids (i + batchSize) (k + 1) tf2 m2 s2).result.2.isNone :=
        fun tf2 m2 s2 => ih (uids.length - (i + batchSize)) (by simp only [batchSize]; omega) _ _ _ _ _ rfl
      split
      · next err hf => exact BatchLog.fetchFailed _ _ _ err hf
      · next envelopes hf =>
        by_cases he : envelopes.length > 0
        · have hne : envelopes ≠ [] := by intro h; simp [h] at he
          simp only [he, if_true]
          split
          · exact BatchLog.insertFailed _ _ _ _ hf hne
          · split
            · exact BatchLog.updateFailed _ _ _ _ hf hne
            · exact BatchLog.committed _ _ _ _ _ _ hf hne (hrec _ _ _)
        · have hnil : envelopes = [] := by
            cases envelopes with
            | nil => rfl
            | cons a l => simp at he
          subst hnil
          simp only [he, if_false]
          exact BatchLog.skipped _ _ _ _ _ hf (hrec _ _ _)
    · simp only [hi, if_false]
      exact BatchLog.done _ _

/-! ## The number of workers (C3) -/

/-- C3, counterexample: for 1000 missing UIDs and 4 configured workers the code computes 3
workers, not `max(1, min(4, ceil(1000/500))) = 2`. -/
theorem effectiveWorkers_scenario_A_is_three :
    effectiveWorkers 4 1000 = 3
      ∧ effectiveWorkers 4 1000 ≠ max 1 (min 4 (((1000 + 499) / 500 : Nat) : Int)) := by
  decide

/-- C3, amended: the number of workers is `max(1, min(configured, len/500 + 1))`, with the
rounded-down quotient; for 1000 missing UIDs and 4 configured workers it is 3. -/
theorem effectiveWorkers_eq (workers : Int) (n : Nat) :
    effectiveWorkers workers n = max 1 (min workers ((n / 500 + 1 : Nat) : Int))
      ∧ effectiveWorkers 4 1000 = 3 := by
  refine ⟨?_, by decide⟩
  unfold effectiveWorkers batchSize
  simp only []
  split_ifs <;> omega

/-! ## The writer loop of the parallel strategy -/

theorem writerStep_log {σ : Type} (store : Store σ) (mailbox : String) (v : Nat)
    (st : WriterState σ) (b : Batch) :
    (writerStep store mailbox v st b).log = st.log
      ∨ ((writerStep store mailbox v st b).log = st.log ++ [.insertEnvelopes mailbox b.envelopes]
          ∧ st.maxUID ≤ (writerStep store mailbox v st b).maxUID)
      ∨ ((writerStep store mailbox v st b).log = st.log ++ [.insertEnvelopes mailbox b.envelopes,
            .updateMailboxState mailbox v (writerStep store mailbox v st b).maxUID]
          ∧ st.maxUID ≤ (writerStep store mailbox v st b).maxUID) := by
  have hmax := le_updateMaxUID b.envelopes st.maxUID
  unfold writerStep
  cases hb : b.err <;> cases hw : st.writeErr <;> by_cases hl : b.envelopes.length > 0 <;>
    cases hi : (store.insertEnvelopes mailbox b.envelopes st.store).1 <;>
    by_cases hc : (st.batchesSinceStateUpdate + 1 ≥ 10 ∧ updateMaxUID st.maxUID b.envelopes > 0) <;>
    simp only [hl, hi, hc, if_true, if_false, true_or, and_self, hmax, le_refl, and_true, or_true]

theorem writerStep_maxUID_le {σ : Type} (store : Store σ) (mailbox : String) (v : Nat)
    (st : WriterState σ) (b : Batch) :
    st.maxUID ≤ (writerStep store mailbox v st b).maxUID := by
  have hmax := le_updateMaxUID b.envelopes st.maxUID
  unfold writerStep
  cases hb : b.err <;> cases hw : st.writeErr <;> by_cases hl : b.envelopes.length > 0 <;>
    cases hi : (store.insertEnvelopes mailbox b.envelopes st.store).1 <;>
    by_cases hc : (st.batchesSinceStateUpdate + 1 ≥ 10 ∧ updateMaxUID st.maxUID b.envelopes > 0) <;>
    simp only [hl, hi, hc, and_self, if_true, if_false, hmax, le_refl]

theorem writerLoop_calls {σ : Type} (store : Store σ) (mailbox : String) (v : Nat)
    (items : List Batch) : ∀ (st : WriterState σ) (c : Call),
    c ∈ (writerLoop store mailbox v items st).log →
      c ∈ st.log ∨ (∃ envs, c = .insertEnvelopes mailbox envs)
        ∨ (∃ x, c = .updateMailboxState mailbox v x) := by
  induction items with
  | nil => intro st c h; left; exact h
  | cons b bs ih =>
    intro st c h
    simp only [writerLoop, List.foldl_cons] at h
    rcases ih (writerStep store mailbox v st b) c h with h1 | h1 | h1
    · rcases writerStep_log store mailbox v st b with h2 | ⟨h2, _⟩ | ⟨h2, _⟩
      · rw [h2] at h1; left; exact h1
      · rw [h2] at h1
        rcases List.mem_append.mp h1 with h3 | h3
        · left; exact h3
        · right; left; exact ⟨_, by simpa using h3⟩
      · rw [h2] at h1
        rcases List.mem_append.mp h1 with h3 | h3
        · left; exact h3
        · simp only [List.mem_cons, List.mem_singleton, List.not_mem_nil, or_false] at h3
          rcases h3 with h3 | h3
          · right; left; exact ⟨_, h3⟩
          · right; right; exact ⟨_, h3⟩
    · right; left; exact h1
    · right; right; exact h1

theorem writerLoop_checkpoints {σ : Type} (store : Store σ) (mailbox : String) (v : Nat)
    (items : List Batch) : ∀ (st : WriterState σ),
    (checkpoints st.log).Pairwise (· ≤ ·) → (∀ x ∈ checkpoints st.log, x ≤ st.maxUID) →
    (checkpoints (writerLoop store mailbox v items st).log).Pairwise (· ≤ ·)
      ∧ (∀ x ∈ checkpoints (writerLoop store mailbox v items st).log,
          x ≤ (writerLoop store mailbox v items st).maxUID) := by
  induction items with
  | nil => intro st h1 h2; exact ⟨h1, h2⟩
  | cons b bs ih =>
    intro st h1 h2
    simp only [writerLoop, List.foldl_cons]
    apply ih
    · rcases writerStep_log store mailbox v st b with h3 | ⟨h3, _⟩ | ⟨h3, h4⟩
      · rw [h3]; exact h1
      · rw [h3, checkpoints_append]; simpa [checkpoints] using h1
      · rw [h3, checkpoints_append]
        simp only [checkpoints, List.pairwise_append, List.pairwise_cons, List.mem_singleton,
          List.not_mem_nil, false_implies, implies_true, List.Pairwise.nil, and_self, true_and]
        refine ⟨h1, ?_⟩
        intro a ha b hb
        subst hb
        exact le_trans (h2 a ha) h4
    · have hle := writerStep_maxUID_le store mailbox v st b
      rcases writerStep_log store mailbox v st b with h3 | ⟨h3, _⟩ | ⟨h3, h4⟩
      · rw [h3]; intro x hx; exact le_trans (h2 x hx) hle
      · rw [h3, checkpoints_append]
        intro x hx
        simp only [checkpoints, List.append_nil] at hx
        exact le_trans (h2 x hx) hle
      · rw [h3, checkpoints_append]
        intro x hx
        simp only [checkpoints, List.mem_append, List.mem_singleton] at hx
        rcases hx with hx | hx
        · exact le_trans (h2 x hx) hle
        · rw [hx]

theorem writerFinish_log {σ : Type} (store : Store σ) (mailbox : String) (v : Nat)
    (st : WriterState σ) :
    (writerFinish store mailbox v st).log = st.log
      ∨ (writerFinish store mailbox v st).log
          = st.log ++ [.updateMailboxState mailbox v st.maxUID] := by
  unfold writerFinish
  cases hw : st.writeErr <;> by_cases hm : st.maxUID > 0 <;>
    cases hu : (store.updateMailboxState mailbox v st.maxUID st.store).1 <;>
    simp only [hm, hu, if_true, if_false, true_or, or_true]

theorem fetchMissingUIDs_log {σ : Type} (conn : Connector) (store : Store σ) (mailbox : String)
    (v : Nat) (uids : List Nat) (opts : SyncOptions) (s : σ) :
    (fetchMissingUIDs conn store mailbox v uids opts s).log = [.connect .sequential]
      ∨ (fetchMissingUIDs conn store mailbox v uids opts s).log
          = [.connect .sequential, .selectMailbox .sequential mailbox]
      ∨ ∃ log, (fetchMissingUIDs conn store mailbox v uids opts s).log
            = .connect .sequential :: .selectMailbox .sequential mailbox :: log
          ∧ BatchLog conn mailbox v 0 0 log
              (fetchMissingUIDs conn store mailbox v uids opts s).result.2.isNone := by
  unfold fetchMissingUIDs
  split
  · left; rfl
  · split
    · right; left; rfl
    · right; right
      exact ⟨_, rfl, fetchLoop_log conn store mailbox v uids _ 0 0 0 0 s rfl⟩

/-! ## Checkpoints never decrease within a run of a strategy (C6) -/

/-- C6, amended: within one run of `fetchMissingUIDs`, and within one run of
`fetchMissingUIDsParallel` for every arrival order, the values written by the successive
`UpdateMailboxState` calls never decrease. -/
theorem checkpoints_nondecreasing_within_run {σ : Type} (conn : Connector) (store : Store σ)
    (sched : List Nat) (mailbox : String) (v : Nat) (uids : List Nat) (opts : SyncOptions)
    (s : σ) :
    (checkpoints (fetchMissingUIDs conn store mailbox v uids opts s).log).Pairwise (· ≤ ·)
      ∧ (checkpoints
          (fetchMissingUIDsParallel conn store sched mailbox v uids opts s).log).Pairwise
            (· ≤ ·) := by
  constructor
  · rcases fetchMissingUIDs_log conn store mailbox v uids opts s with h | h | ⟨log, h, hl⟩
    · rw [h]; simp [checkpoints]
    · rw [h]; simp [checkpoints]
    · rw [h]; simpa [checkpoints] using hl.checkpoints_sorted.2
  · unfold fetchMissingUIDsParallel
    simp only []
    generalize arrivalOrder sched _ = items
    have h := writerLoop_checkpoints store mailbox v items ⟨0, 0, none, 0, s, []⟩
      (by simp [checkpoints]) (by simp [checkpoints])
    rcases writerFinish_log store mailbox v
        (writerLoop store mailbox v items ⟨0, 0, none, 0, s, []⟩) with h1 | h1
    · rw [h1]; exact h.1
    · rw [h1, checkpoints_append]
      simp only [checkpoints, List.pairwise_append, List.pairwise_cons, List.mem_singleton,
          List.not_mem_nil, false_implies, implies_true, List.Pairwise.nil, and_self, true_and]
      refine ⟨h.1, ?_⟩
      intro a ha b hb
      subst hb
      exact h.2 a ha

/-! ## The calls of `Sync` -/

theorem syncResult_log {σ : Type} (mailbox : String) (cachedLen : Nat)
    (r : Run σ (Nat × Option Err)) : (syncResult mailbox cachedLen r).log = r.log := by
  unfold syncResult
  split <;> rfl

theorem syncResult_store {σ : Type} (mailbox : String) (cachedLen : Nat)
    (r : Run σ (Nat × Option Err)) : (syncResult mailbox cachedLen r).store = r.store := by
  unfold syncResult
  split <;> rfl

theorem fetchMissingUIDs_no_clear {σ : Type} (conn : Connector) (store : Store σ)
    (mailbox : String) (v : Nat) (uids : List Nat) (opts : SyncOptions) (s : σ) (mb : String) :
    Call.clearMailbox mb ∉ (fetchMissingUIDs conn store mailbox v uids opts s).log := by
  intro hmem
  rcases fetchMissingUIDs_log conn store mailbox v uids opts s with h | h | ⟨log, h, hl⟩
  · rw [h] at hmem; simp at hmem
  · rw [h] at hmem; simp at hmem
  · rw [h] at hmem
    simp only [List.mem_cons, reduceCtorEq, false_or] at hmem
    rcases hl.calls _ hmem with ⟨_, h1⟩ | ⟨_, h1⟩ | ⟨_, h1⟩ <;> simp at h1

theorem fetchMissingUIDsParallel_no_clear {σ : Type} (conn : Connector) (store : Store σ)
    (sched : List Nat) (mailbox : String) (v : Nat) (uids : List Nat) (opts : SyncOptions)
    (s : σ) (mb : String) :
    Call.clearMailbox mb ∉
      (fetchMissingUIDsParallel conn store sched mailbox v uids opts s).log := by
  unfold fetchMissingUIDsParallel
  simp only []
  generalize arrivalOrder sched _ = items
  have hw : Call.clearMailbox mb ∉
      (writerLoop store mailbox v items ⟨0, 0, none, 0, s, []⟩).log := by
    intro hmem
    rcases writerLoop_calls store mailbox v items _ _ hmem with h1 | ⟨_, h1⟩ | ⟨_, h1⟩
    · simp at h1
    · simp at h1
    · simp at h1
  rcases writerFinish_log store mailbox v
      (writerLoop store mailbox v items ⟨0, 0, none, 0, s, []⟩) with h1 | h1
  · rw [h1]; exact hw
  · rw [h1]
    simp only [List.mem_append, List.mem_singleton, reduceCtorEq, or_false]
    exact hw

theorem syncBody_no_clear {σ : Type} (conn : Connector) (store : Store σ) (sched : List Nat)
    (mailbox : String) (opts : SyncOptions) (mbox : MailboxInfo) (s : σ) (mb : String) :
    Call.clearMailbox mb ∉ (syncBody conn store sched mailbox opts mbox s).log := by
  unfold syncBody
  by_cases h0 : mbox.numMessages = 0
  · cases hu : (store.updateMailboxState mailbox mbox.uidValidity 0 s).1 <;> simp [h0, hu]
  · cases hg : store.getCachedUIDs mailbox s with
    | error e => simp [h0, hg]
    | ok cachedUIDs =>
      cases ha : conn.getAllUIDs .main with
      | error e => simp [h0, hg, ha]
      | ok serverUIDs =>
        by_cases hm : (missingUIDs serverUIDs cachedUIDs).length = 0
        · by_cases hl : serverUIDs.length > 0
          · cases hu : (store.updateMailboxState mailbox mbox.uidValidity
                (serverUIDs.getD (serverUIDs.length - 1) 0) s).1 <;>
              simp only [h0, hg, ha, hm, hl, hu, if_true, if_false] <;> simp
          · simp only [h0, hg, ha, hm, hl, if_true, if_false]; simp
        · simp only [h0, hg, ha, hm, if_false, List.mem_cons, reduceCtorEq, false_or]
          unfold syncFetch
          rw [syncResult_log]
          split
          · exact fetchMissingUIDsParallel_no_clear _ _ _ _ _ _ _ _ _
          · exact fetchMissingUIDs_no_clear _ _ _ _ _ _ _ _

/-! ## Epoch invalidation (C5) -/

/-- C5: in a run of `Sync` that reads a stored state, if that state exists and its
`uid_validity` differs from the one the server reports, then `ClearMailbox(mailbox)` is
called once, and no `InsertEnvelopes` or `UpdateMailboxState` call comes before it: the
only calls before it are `OpenCache`, `Connect`, `SelectMailbox` and `GetMailboxState`;
if `ClearMailbox` fails, it is the last call of the run and `Sync` returns an error.  If
the stored state is absent or has the server's `uid_validity`, `ClearMailbox` is never
called. -/
theorem epoch_invalidation_precedes_writes {σ : Type} (conn : Connector) (store : Store σ)
    (sched : List Nat) (mailbox : String) (opts : Option SyncOptions) (s : σ)
    (mbox : MailboxInfo) (state : Option MailboxState)
    (hopen : store.openCache = none) (hconn : conn.connect .main = none)
    (hsel : conn.selectMailbox .main mailbox = .ok mbox)
    (hstate : store.getMailboxState mailbox s = .ok state) :
    ((∃ st, state = some st ∧ st.uidValidity ≠ mbox.uidValidity) →
        ∃ post, (Sync conn store sched mailbox opts s).log
            = [.openCache, .connect .main, .selectMailbox .main mailbox,
                .getMailboxState mailbox, .clearMailbox mailbox] ++ post
          ∧ (∀ mb, Call.clearMailbox mb ∉ post)
          ∧ ((store.clearMailbox mailbox s).1 ≠ none →
              post = [] ∧ (∃ e, (Sync conn store sched mailbox opts s).result = .error e)
                ∧ (Sync conn store sched mailbox opts s).store = (store.clearMailbox mailbox s).2))
      ∧ ((state = none ∨ ∃ st, state = some st ∧ st.uidValidity = mbox.uidValidity) →
          ∀ mb, Call.clearMailbox mb ∉ (Sync conn store sched mailbox opts s).log) := by
  constructor
  · rintro ⟨st, rfl, hne⟩
    have hstale : staleState (some st) mbox = true := by simp [staleState, hne]
    cases hc : (store.clearMailbox mailbox s).1 with
    | some e =>
      refine ⟨[], ?_, by simp, ?_⟩
      · simp [Sync, hopen, hconn, hsel, hstate, hstale, hc]
      · intro _
        simp [Sync, hopen, hconn, hsel, hstate, hstale, hc]
    | none =>
      refine ⟨(syncBody conn store sched mailbox (normalizeOpts opts) mbox
        (store.clearMailbox mailbox s).2).log, ?_, ?_, ?_⟩
      · simp [Sync, hopen, hconn, hsel, hstate, hstale, hc]
      · intro mb; exact syncBody_no_clear _ _ _ _ _ _ _ _
      · intro h; exact absurd rfl h
  · intro h mb
    have hstale : staleState state mbox = false := by
      rcases h with rfl | ⟨st, rfl, he⟩
      · rfl
      · simp [staleState, he]
    have hb := syncBody_no_clear conn store sched mailbox (normalizeOpts opts) mbox s mb
    simp [Sync, hopen, hconn, hsel, hstate, hstale, hb]

/-! ## The empty mailbox (C8) -/

/-- C8: when the server reports `message_count = 0` and the store operations succeed,
`Sync` returns `{0, 0, "mailbox is empty"}`; after the optional epoch invalidation its only
further call is `UpdateMailboxState(mailbox, uid_validity, 0)`, whose effect is the final
store; it makes no fetch and no `InsertEnvelopes` call. -/
theorem empty_mailbox_sync {σ : Type} (conn : Connector) (store : Store σ)
    (sched : List Nat) (mailbox : String) (opts : Option SyncOptions) (s s1 : σ)
    (uidValidity : Nat) (state : Option MailboxState)
    (hopen : store.openCache = none) (hconn : conn.connect .main = none)
    (hsel : conn.selectMailbox .main mailbox = .ok ⟨uidValidity, 0⟩)
    (hstate : store.getMailboxState mailbox s = .ok state)
    (hclear : (store.clearMailbox mailbox s).1 = none)
    (hs1 : s1 = if staleState state ⟨uidValidity, 0⟩ then (store.clearMailbox mailbox s).2 else s)
    (hupd : (store.updateMailboxState mailbox uidValidity 0 s1).1 = none) :
    (Sync conn store sched mailbox opts s).result = .ok ⟨mailbox, 0, 0, "mailbox is empty"⟩
      ∧ (Sync conn store sched mailbox opts s).store
          = (store.updateMailboxState mailbox uidValidity 0 s1).2
      ∧ (Sync conn store sched mailbox opts s).log
          = [.openCache, .connect .main, .selectMailbox .main mailbox, .getMailboxState mailbox]
            ++ (if staleState state ⟨uidValidity, 0⟩ then [.clearMailbox mailbox] else [])
            ++ [.updateMailboxState mailbox uidValidity 0]
      ∧ (∀ c batch, Call.fetchEnvelopesByUID c batch ∉ (Sync conn store sched mailbox opts s).log)
      ∧ (∀ mb envs, Call.insertEnvelopes mb envs ∉ (Sync conn store sched mailbox opts s).log) := by
  have hlog : (Sync conn store sched mailbox opts s).log
          = [.openCache, .connect .main, .selectMailbox .main mailbox, .getMailboxState mailbox]
            ++ (if staleState state ⟨uidValidity, 0⟩ then [.clearMailbox mailbox] else [])
            ++ [.updateMailboxState mailbox uidValidity 0] := by
    cases hst : staleState state ⟨uidValidity, 0⟩
    · simp only [hst] at hs1; subst hs1
      simp [Sync, syncBody, hopen, hconn, hsel, hstate, hst, hupd]
    · simp only [hst, if_true] at hs1; subst hs1
      simp [Sync, syncBody, hopen, hconn, hsel, hstate, hst, hupd, hclear]
  refine ⟨?_, ?_, hlog, ?_, ?_⟩
  · cases hst : staleState state ⟨uidValidity, 0⟩
    · simp only [hst] at hs1; subst hs1
      simp [Sync, syncBody, hopen, hconn, hsel, hstate, hst, hupd]
    · simp only [hst, if_true] at hs1; subst hs1
      simp [Sync, syncBody, hopen, hconn, hsel, hstate, hst, hupd, hclear]
  · cases hst : staleState state ⟨uidValidity, 0⟩
    · simp only [hst] at hs1; subst hs1
      simp [Sync, syncBody, hopen, hconn, hsel, hstate, hst, hupd]
    · simp only [hst, if_true] at hs1; subst hs1
      simp [Sync, syncBody, hopen, hconn, hsel, hstate, hst, hupd, hclear]
  · intro c batch
    rw [hlog]
    split <;> simp
  · intro mb envs
    rw [hlog]
    split <;> simp

/-! ## The checkpoints of the sequential strategy (C10) -/

theorem strip_two {a b c : Call} {pre post log : List Call}
    (h : a :: b :: log = pre ++ c :: post) (ha : a ≠ c) (hb : b ≠ c) :
    ∃ pre1, pre = a :: b :: pre1 ∧ log = pre1 ++ c :: post := by
  rcases pre with _ | ⟨x, _ | ⟨y, pre⟩⟩
  · simp at h; exact absurd h.1 ha
  · simp at h; exact absurd h.2.1 hb
  · simp only [List.cons_append, List.cons.injEq] at h
    obtain ⟨rfl, rfl, h⟩ := h
    exact ⟨pre, rfl, h⟩

/-- C10, counterexample: a batch whose fetch returns no envelope is followed by no
`UpdateMailboxState` call; the run ends without any checkpoint. -/
theorem empty_batch_writes_no_checkpoint :
    (fetchMissingUIDs (expungedConn 7 [1, 2]) specStore "INBOX" 7 [1, 2] ⟨1, false⟩ emptyDB).log
        = [.connect .sequential, .selectMailbox .sequential "INBOX",
            .fetchEnvelopesByUID .sequential [1, 2]]
      ∧ (fetchMissingUIDs (expungedConn 7 [1, 2]) specStore "INBOX" 7 [1, 2] ⟨1, false⟩
          emptyDB).result = (0, none)
      ∧ checkpoints (fetchMissingUIDs (expungedConn 7 [1, 2]) specStore "INBOX" 7 [1, 2]
          ⟨1, false⟩ emptyDB).log = [] := by
  simp [fetchMissingUIDs, expungedConn, fetchLoop, slice, batchSize, checkpoints]

/-- C10, amended: in every run of `fetchMissingUIDs`,
(1) every `UpdateMailboxState` call comes right after an `InsertEnvelopes` call and writes
the maximum UID over all envelopes inserted so far in the run;
(2) every `InsertEnvelopes` call is followed at once by such an `UpdateMailboxState` call,
unless it is the last call of a run that returns an error;
(3) every fetch that returns at least one envelope is followed at once by the
`InsertEnvelopes` call for these envelopes, and a fetch that returns no envelope is
followed by the next fetch, with no insert and no checkpoint. -/
theorem sequential_checkpoints {σ : Type} (conn : Connector) (store : Store σ)
    (mailbox : String) (v : Nat) (uids : List Nat) (opts : SyncOptions) (s : σ) :
    (∀ pre post mb w x,
        (fetchMissingUIDs conn store mailbox v uids opts s).log
            = pre ++ Call.updateMailboxState mb w x :: post →
          mb = mailbox ∧ w = v ∧ x = updateMaxUID 0 (inserted pre)
            ∧ (∀ e ∈ inserted pre, e.uid ≤ x) ∧ (∃ e ∈ inserted pre, e.uid = x)
            ∧ ∃ pre1 envs, pre = pre1 ++ [Call.insertEnvelopes mailbox envs])
      ∧ (∀ pre post mb envs,
          (fetchMissingUIDs conn store mailbox v uids opts s).log
              = pre ++ Call.insertEnvelopes mb envs :: post →
            (post = [] ∧ (fetchMissingUIDs conn store mailbox v uids opts s).result.2 ≠ none)
              ∨ ∃ post1, post = Call.updateMailboxState mailbox v
                  (updateMaxUID 0 (inserted pre ++ envs)) :: post1)
      ∧ (∀ pre post c batch envs,
          (fetchMissingUIDs conn store mailbox v uids opts s).log
              = pre ++ Call.fetchEnvelopesByUID c batch :: post →
            conn.fetchEnvelopesByUID .sequential (fetchCount pre) batch = .ok envs →
              (envs ≠ [] → ∃ post1, post = Call.insertEnvelopes mailbox envs :: post1)
                ∧ (envs = [] → post = [] ∨
                    ∃ b post1, post = Call.fetchEnvelopesByUID .sequential b :: post1)) := by
  rcases fetchMissingUIDs_log conn store mailbox v uids opts s with h | h | ⟨log, h, hl⟩
  · rw [h]
    refine ⟨?_, ?_, ?_⟩
    · intro pre post mb w x hd
      rcases pre with _ | ⟨a, pre⟩ <;> simp at hd
    · intro pre post mb envs hd
      rcases pre with _ | ⟨a, pre⟩ <;> simp at hd
    · intro pre post c batch envs hd
      rcases pre with _ | ⟨a, pre⟩ <;> simp at hd
  · rw [h]
    refine ⟨?_, ?_, ?_⟩
    · intro pre post mb w x hd
      rcases pre with _ | ⟨a, _ | ⟨b, pre⟩⟩ <;> simp at hd
    · intro pre post mb envs hd
      rcases pre with _ | ⟨a, _ | ⟨b, pre⟩⟩ <;> simp at hd
    · intro pre post c batch envs hd
      rcases pre with _ | ⟨a, _ | ⟨b, pre⟩⟩ <;> simp at hd
  · rw [h]
    refine ⟨?_, ?_, ?_⟩
    · intro pre post mb w x hd
      obtain ⟨pre1, rfl, hd2⟩ := strip_two hd (by simp) (by simp)
      obtain ⟨h1, h2, h3, pre2, envs, hne, h4⟩ := hl.at_update pre1 post mb w x hd2
      have hins : inserted (Call.connect .sequential ::
          Call.selectMailbox .sequential mailbox :: pre1) = inserted pre1 := by
        simp [inserted]
      rw [hins]
      have hne2 : inserted pre1 ≠ [] := by
        rw [h4, inserted_append]
        simp [inserted, hne]
      refine ⟨h1, h2, h3, ?_, ?_, ?_⟩
      · intro e he; rw [h3]; exact uid_le_updateMaxUID _ _ _ he
      · rw [h3]; exact updateMaxUID_zero_attained _ hne2
      · exact ⟨Call.connect .sequential :: Call.selectMailbox .sequential mailbox :: pre2,
          envs, by simp [h4]⟩
    · intro pre post mb envs hd
      obtain ⟨pre1, rfl, hd2⟩ := strip_two hd (by simp) (by simp)
      have hins : inserted (Call.connect .sequential ::
          Call.selectMailbox .sequential mailbox :: pre1) = inserted pre1 := by
        simp [inserted]
      rw [hins]
      rcases hl.at_insert pre1 post mb envs hd2 with ⟨h1, h2⟩ | h1
      · left
        refine ⟨h1, ?_⟩
        intro hnone
        rw [hnone] at h2
        simp at h2
      · right; exact h1
    · intro pre post c batch envs hd hok
      obtain ⟨pre1, rfl, hd2⟩ := strip_two hd (by simp) (by simp)
      have hcnt : fetchCount (Call.connect .sequential ::
          Call.selectMailbox .sequential mailbox :: pre1) = fetchCount pre1 := by
        simp [fetchCount]
      rw [hcnt] at hok
      exact hl.at_fetch pre1 post c batch envs hd2 (by simpa using hok)

theorem getD_last_of_sorted (xs : List Nat) (hne : xs ≠ []) (hs : xs.Sorted (· ≤ ·)) :
    xs.getD (xs.length - 1) 0 ∈ xs ∧ ∀ u ∈ xs, u ≤ xs.getD (xs.length - 1) 0 := by
  have hlast : xs.getD (xs.length - 1) 0 = xs.getLast hne := by
    rw [List.getLast_eq_getElem]
    have : xs.length - 1 < xs.length := by
      have := List.length_pos.mpr hne
      omega
    simp [List.getD_eq_getElem?_getD, List.getElem?_eq_getElem this]
  rw [hlast]
  refine ⟨List.getLast_mem hne, ?_⟩
  intro u hu
  have hsplit := List.dropLast_append_getLast hne
  rw [← hsplit] at hs hu
  have hp := List.pairwise_append.mp hs
  rcases List.mem_append.mp hu with h | h
  · exact hp.2.2 u h _ (List.mem_singleton_self _)
  · rw [List.mem_singleton.mp h]

theorem normalizeOpts_workers (opts : Option SyncOptions) :
    (normalizeOpts opts).workers = normalizedWorkers opts := by
  unfold normalizeOpts normalizedWorkers
  cases opts with
  | none => simp
  | some o => by_cases h : o.workers ≤ 0 <;> simp [h]

theorem Sync_reaches_body {σ : Type} (conn : Connector) (store : Store σ)
    (sched : List Nat) (mailbox : String) (opts : Option SyncOptions) (s s1 : σ)
    (mbox : MailboxInfo) (state : Option MailboxState)
    (hopen : store.openCache = none) (hconn : conn.connect .main = none)
    (hsel : conn.selectMailbox .main mailbox = .ok mbox)
    (hstate : store.getMailboxState mailbox s = .ok state)
    (hclear : (store.clearMailbox mailbox s).1 = none)
    (hs1 : s1 = if staleState state mbox then (store.clearMailbox mailbox s).2 else s) :
    (Sync conn store sched mailbox opts s).result
        = (syncBody conn store sched mailbox (normalizeOpts opts) mbox s1).result
      ∧ (Sync conn store sched mailbox opts s).store
        = (syncBody conn store sched mailbox (normalizeOpts opts) mbox s1).store
      ∧ (Sync conn store sched mailbox opts s).log
        = [.openCache, .connect .main, .selectMailbox .main mailbox, .getMailboxState mailbox]
          ++ (if staleState state mbox then [.clearMailbox mailbox] else [])
          ++ (syncBody conn store sched mailbox (normalizeOpts opts) mbox s1).log := by
  cases hst : staleState state mbox
  · simp only [hst] at hs1; subst hs1
    simp [Sync, hopen, hconn, hsel, hstate, hst]
  · simp only [hst, if_true] at hs1; subst hs1
    simp [Sync, hopen, hconn, hsel, hstate, hst, hclear]

/-! ## The choice of the strategy (C4) -/

/-- C4: in a run of `Sync` that reaches the choice with a non-empty missing list, the worker
count the code uses is `normalizedWorkers opts`, the count after a nil options value or a
count `<= 0` has become 1.  What `Sync` returns, the store it leaves and the calls it makes
are those of the parallel strategy if that count is `> 1` and `len(missing) > 100`, and
those of the sequential strategy otherwise; with exactly 100 missing UIDs it is the
sequential strategy for every worker count. -/
theorem strategy_choice {σ : Type} (conn : Connector) (store : Store σ)
    (sched : List Nat) (mailbox : String) (opts : Option SyncOptions) (s s1 : σ)
    (mbox : MailboxInfo) (state : Option MailboxState) (cachedUIDs : Finset Nat)
    (serverUIDs : List Nat)
    (hopen : store.openCache = none) (hconn : conn.connect .main = none)
    (hsel : conn.selectMailbox .main mailbox = .ok mbox) (hnum : mbox.numMessages ≠ 0)
    (hstate : store.getMailboxState mailbox s = .ok state)
    (hclear : (store.clearMailbox mailbox s).1 = none)
    (hs1 : s1 = if staleState state mbox then (store.clearMailbox mailbox s).2 else s)
    (hcached : store.getCachedUIDs mailbox s1 = .ok cachedUIDs)
    (hall : conn.getAllUIDs .main = .ok serverUIDs)
    (hmissing : missingUIDs serverUIDs cachedUIDs ≠ []) :
    (normalizeOpts opts).workers = normalizedWorkers opts
      ∧ ∃ strategy : Run σ (Nat × Option Err),
        strategy
            = (if normalizedWorkers opts > 1 ∧ (missingUIDs serverUIDs cachedUIDs).length > 100
              then fetchMissingUIDsParallel conn store sched mailbox mbox.uidValidity
                (missingUIDs serverUIDs cachedUIDs) (normalizeOpts opts) s1
              else fetchMissingUIDs conn store mailbox mbox.uidValidity
                (missingUIDs serverUIDs cachedUIDs) (normalizeOpts opts) s1)
          ∧ (Sync conn store sched mailbox opts s).result
              = (syncResult mailbox cachedUIDs.card strategy).result
          ∧ (Sync conn store sched mailbox opts s).store = strategy.store
          ∧ (Sync conn store sched mailbox opts s).log
              = [.openCache, .connect .main, .selectMailbox .main mailbox,
                  .getMailboxState mailbox]
                ++ (if staleState state mbox then [.clearMailbox mailbox] else [])
                ++ [.getCachedUIDs mailbox, .getAllUIDs .main] ++ strategy.log
          ∧ ((missingUIDs serverUIDs cachedUIDs).length = 100 →
              strategy = fetchMissingUIDs conn store mailbox mbox.uidValidity
                (missingUIDs serverUIDs cachedUIDs) (normalizeOpts opts) s1) := by
  obtain ⟨hr, hs, hl⟩ := Sync_reaches_body conn store sched mailbox opts s s1 mbox state
    hopen hconn hsel hstate hclear hs1
  have hw : (normalizeOpts opts).workers = normalizedWorkers opts := normalizeOpts_workers opts
  have hlen : ¬ (missingUIDs serverUIDs cachedUIDs).length = 0 := by
    intro h; exact hmissing (List.length_eq_zero.mp h)
  refine ⟨hw, _, rfl, ?_⟩
  have hfetch : syncFetch conn store sched mailbox (normalizeOpts opts) mbox cachedUIDs.card
      (missingUIDs serverUIDs cachedUIDs) s1
      = syncResult mailbox cachedUIDs.card
        (if normalizedWorkers opts > 1 ∧ (missingUIDs serverUIDs cachedUIDs).length > 100
          then fetchMissingUIDsParallel conn store sched mailbox mbox.uidValidity
            (missingUIDs serverUIDs cachedUIDs) (normalizeOpts opts) s1
          else fetchMissingUIDs conn store mailbox mbox.uidValidity
            (missingUIDs serverUIDs cachedUIDs) (normalizeOpts opts) s1) := by
    unfold syncFetch
    congr 1
    rw [hw]
    by_cases h1 : normalizedWorkers opts > 1 <;>
      by_cases h2 : (missingUIDs serverUIDs cachedUIDs).length > 100 <;> simp [h1, h2]
  have hbody : syncBody conn store sched mailbox (normalizeOpts opts) mbox s1
      = ⟨(syncFetch conn store sched mailbox (normalizeOpts opts) mbox cachedUIDs.card
            (missingUIDs serverUIDs cachedUIDs) s1).result,
          (syncFetch conn store sched mailbox (normalizeOpts opts) mbox cachedUIDs.card
            (missingUIDs serverUIDs cachedUIDs) s1).store,
          .getCachedUIDs mailbox :: .getAllUIDs .main ::
            (syncFetch conn store sched mailbox (normalizeOpts opts) mbox cachedUIDs.card
              (missingUIDs serverUIDs cachedUIDs) s1).log⟩ := by
    unfold syncBody
    simp only [hnum, if_false, hcached, hall, hlen]
  rw [hbody, hfetch] at hr hs hl
  refine ⟨hr, ?_, ?_, ?_⟩
  · rw [hs]; exact syncResult_store _ _ _
  · rw [hl]; simp [syncResult_log]
  · intro h100
    rw [if_neg]
    omega

/-! ## A full run on a connector that returns one envelope per UID (C7) -/

theorem updateMaxUID_eq_foldl_max (envs : List Envelope) : ∀ m : Nat,
    updateMaxUID m envs = (envs.map (fun e => e.uid)).foldl max m := by
  induction envs with
  | nil => intro m; rfl
  | cons e es ih =>
    intro m
    simp only [updateMaxUID, List.foldl_cons, List.map_cons] at ih ⊢
    rw [ih]
    congr 1
    by_cases h : e.uid > m
    · simp only [h, if_true]; omega
    · simp only [h, if_false]; omega

theorem foldl_max_ge (xs : List Nat) : ∀ m : Nat, m ≤ xs.foldl max m := by
  induction xs with
  | nil => intro m; exact le_refl _
  | cons x xs ih => intro m; exact le_trans (le_max_left m x) (ih _)

theorem foldl_max_upper (xs : List Nat) : ∀ (m u : Nat), u ∈ xs → u ≤ xs.foldl max m := by
  induction xs with
  | nil => intro m u h; simp at h
  | cons x xs ih =>
    intro m u h
    rcases List.mem_cons.mp h with rfl | h
    · exact le_trans (le_max_right m u) (foldl_max_ge xs _)
    · exact ih _ u h

theorem foldl_max_mem (xs : List Nat) : ∀ m : Nat, xs.foldl max m = m ∨ xs.foldl max m ∈ xs := by
  induction xs with
  | nil => intro m; left; rfl
  | cons x xs ih =>
    intro m
    rcases ih (max m x) with h | h
    · rw [List.foldl_cons, h]
      rcases le_total m x with hx | hx
      · right; rw [max_eq_right hx]; exact List.mem_cons_self _ _
      · left; exact max_eq_left hx
    · right; exact List.mem_cons_of_mem _ h

theorem foldl_max_zero_mem (xs : List Nat) (hne : xs ≠ []) : xs.foldl max 0 ∈ xs := by
  rcases foldl_max_mem xs 0 with h | h
  · cases xs with
    | nil => exact absurd rfl hne
    | cons x xs =>
      have := foldl_max_upper (x :: xs) 0 x (List.mem_cons_self _ _)
      have hx : x = 0 := by omega
      rw [h, ← hx]; exact List.mem_cons_self _ _
  · exact h

theorem fetchLoop_done {σ : Type} (conn : Connector) (store : Store σ) (mailbox : String)
    (v : Nat) (uids : List Nat) (i k tf m : Nat) (s : σ) (h : ¬ i < uids.length) :
    fetchLoop conn store mailbox v uids i k tf m s = ⟨(tf, none), s, []⟩ := by
  rw [fetchLoop]
  simp only [h, if_false]

theorem specStore_state_after_update (mailbox : String) (v x : Nat) (db : CacheDB) :
    (((specStore.updateMailboxState mailbox v x db).2) mailbox).state = some ⟨v, x⟩ := by
  simp [specStore]

theorem slice_batch_length (uids : List Nat) (i : Nat) (hi : i < uids.length) :
    (slice uids i (if i + batchSize > uids.length then uids.length else i + batchSize)).length
      + (uids.length - (i + batchSize)) = uids.length - i := by
  unfold slice batchSize
  split_ifs <;> simp <;> omega

theorem slice_append_drop (uids : List Nat) (i : Nat) :
    slice uids i (if i + batchSize > uids.length then uids.length else i + batchSize)
      ++ uids.drop (i + batchSize) = uids.drop i := by
  unfold slice
  by_cases h : i + batchSize > uids.length
  · simp only [h, if_true]
    rw [List.drop_eq_nil_of_le (Nat.le_of_lt h), List.append_nil]
    apply List.take_of_length_le
    simp
  · simp only [h, if_false]
    have h1 : i + batchSize - i = batchSize := by omega
    have h2 : List.drop (i + batchSize) uids = List.drop batchSize (List.drop i uids) := by
      rw [List.drop_drop]
    rw [h1, h2, List.take_append_drop]

theorem foldl_max_slice (uids : List Nat) (i m : Nat) :
    (uids.drop (i + batchSize)).foldl max
        ((slice uids i (if i + batchSize > uids.length then uids.length else i + batchSize)).foldl
          max m)
      = (uids.drop i).foldl max m := by
  rw [← List.foldl_append, slice_append_drop]

theorem fetchLoop_ideal {σ : Type} (conn : Connector) (store : Store σ) (mailbox : String)
    (v : Nat) (uids : List Nat)
    (hfetch : ∀ c k batch, ∃ envs, conn.fetchEnvelopesByUID c k batch = .ok envs
      ∧ envs.map (fun e => e.uid) = batch)
    (hins : ∀ envs t, (store.insertEnvelopes mailbox envs t).1 = none)
    (hupd : ∀ x t, (store.updateMailboxState mailbox v x t).1 = none)
    (hread : ∀ x t, store.getMailboxState mailbox (store.updateMailboxState mailbox v x t).2
      = .ok (some ⟨v, x⟩)) :
    ∀ (n i k tf m : Nat) (s : σ), uids.length - i = n →
      (fetchLoop conn store mailbox v uids i k tf m s).result
          = (tf + (uids.length - i), none)
        ∧ (i < uids.length →
            store.getMailboxState mailbox (fetchLoop conn store mailbox v uids i k tf m s).store
              = .ok (some ⟨v, (uids.drop i).foldl max m⟩)) := by
  intro n
  induction n using Nat.strong_induction_on with
  | _ n ih =>
    intro i k tf m s hn
    by_cases hi : i < uids.length
    · obtain ⟨envs, hf, hmap⟩ := hfetch .sequential k
        (slice uids i (if i + batchSize > uids.length then uids.length else i + batchSize))
      have hblen := slice_batch_length uids i hi
      have hlen : envs.length = (slice uids i
          (if i + batchSize > uids.length then uids.length else i + batchSize)).length := by
        rw [← hmap, List.length_map]
      have hpos : envs.length > 0 := by
        rw [hlen]; simp only [batchSize] at hblen ⊢; omega
      have hmax : updateMaxUID m envs = (slice uids i
          (if i + batchSize > uids.length then uids.length else i + batchSize)).foldl max m := by
        rw [updateMaxUID_eq_foldl_max, hmap]
      rw [fetchLoop]
      simp only [hi, if_true, hf, hpos, hins, hupd]
      have hrec := ih (uids.length - (i + batchSize)) (by simp only [batchSize]; omega)
        (i + batchSize) (k + 1) (tf + envs.length) (updateMaxUID m envs)
        (store.updateMailboxState mailbox v (updateMaxUID m envs)
          (store.insertEnvelopes mailbox envs s).2).2 rfl
      refine ⟨?_, fun _ => ?_⟩
      · rw [hrec.1, hlen, Nat.add_assoc, hblen]
      · by_cases hnext : i + batchSize < uids.length
        · rw [hrec.2 hnext, hmax, foldl_max_slice]
        · rw [fetchLoop_done _ _ _ _ _ _ _ _ _ _ hnext]
          simp only []
          rw [hread, hmax, ← foldl_max_slice uids i m,
            List.drop_eq_nil_of_le (by omega)]
          rfl
    · rw [fetchLoop_done _ _ _ _ _ _ _ _ _ _ hi]
      refine ⟨?_, fun h => absurd h hi⟩
      have : uids.length - i = 0 := by omega
      simp [this]

theorem fetchMissingUIDs_ideal {σ : Type} (conn : Connector) (store : Store σ)
    (mailbox : String) (v : Nat) (uids : List Nat) (opts : SyncOptions) (s : σ)
    (hconn : ∀ c, conn.connect c = none)
    (hsel : ∀ c, ∃ info, conn.selectMailbox c mailbox = .ok info)
    (hfetch : ∀ c k batch, ∃ envs, conn.fetchEnvelopesByUID c k batch = .ok envs
      ∧ envs.map (fun e => e.uid) = batch)
    (hins : ∀ envs t, (store.insertEnvelopes mailbox envs t).1 = none)
    (hupd : ∀ x t, (store.updateMailboxState mailbox v x t).1 = none)
    (hread : ∀ x t, store.getMailboxState mailbox (store.updateMailboxState mailbox v x t).2
      = .ok (some ⟨v, x⟩))
    (hne : uids ≠ []) :
    (fetchMissingUIDs conn store mailbox v uids opts s).result = (uids.length, none)
      ∧ store.getMailboxState mailbox (fetchMissingUIDs conn store mailbox v uids opts s).store
          = .ok (some ⟨v, uids.foldl max 0⟩) := by
  obtain ⟨info, hinfo⟩ := hsel .sequential
  have h := fetchLoop_ideal conn store mailbox v uids hfetch hins hupd hread _ 0 0 0 0 s rfl
  have hpos : 0 < uids.length := List.length_pos.mpr hne
  unfold fetchMissingUIDs
  simp only [hconn, hinfo]
  refine ⟨?_, ?_⟩
  · rw [h.1]; simp
  · rw [h.2 hpos]; simp

theorem itemUIDs_cons (b : Batch) (bs : List Batch) :
    itemUIDs (b :: bs) = b.envelopes.map (fun e => e.uid) ++ itemUIDs bs := by
  simp [itemUIDs]

theorem itemUIDs_perm {xs ys : List Batch} (h : xs.Perm ys) :
    (itemUIDs xs).Perm (itemUIDs ys) :=
  (h.map _).flatten

/-! ### The channel delivers every item -/

theorem popAt_perm {α : Type} : ∀ (k : Nat) (qs : List (List α)), k < qs.length →
    (∀ q ∈ qs, q ≠ []) →
    ∃ x rest, popAt k qs = some (x, rest) ∧ (x :: rest.flatten).Perm qs.flatten
      ∧ (rest.map List.length).sum + 1 = (qs.map List.length).sum := by
  intro k qs
  induction qs generalizing k with
  | nil => intro h; simp at h
  | cons q qs ih =>
    intro hk hne
    cases k with
    | zero =>
      cases q with
      | nil => exact absurd rfl (hne [] (List.mem_cons_self _ _))
      | cons x q =>
        refine ⟨x, q :: qs, rfl, ?_, ?_⟩
        · simp
        · simp; omega
    | succ k =>
      obtain ⟨x, rest, h1, h2, h3⟩ := ih k (by simpa using hk)
        (fun q' hq' => hne q' (List.mem_cons_of_mem _ hq'))
      refine ⟨x, q :: rest, ?_, ?_, ?_⟩
      · simp [popAt, h1]
      · simp only [List.flatten_cons]
        have : (x :: (q ++ rest.flatten)).Perm (q ++ x :: rest.flatten) :=
          List.perm_middle.symm
        exact this.trans (List.Perm.append_left q h2)
      · simp only [List.map_cons, List.sum_cons]; omega

theorem filter_live_flatten {α : Type} (qs : List (List α)) :
    (qs.filter (fun q => !q.isEmpty)).flatten = qs.flatten := by
  induction qs with
  | nil => rfl
  | cons q qs ih =>
    cases q with
    | nil => simpa [List.filter_cons] using ih
    | cons x q => simp [List.filter_cons, ih]

theorem sum_length_eq_flatten {α : Type} (qs : List (List α)) :
    (qs.map List.length).sum = qs.flatten.length := (List.length_flatten qs).symm

theorem arrival_perm {α : Type} : ∀ (fuel : Nat) (sched : List Nat) (queues : List (List α)),
    (queues.map List.length).sum = fuel → (arrival fuel sched queues).Perm queues.flatten := by
  intro fuel
  induction fuel with
  | zero =>
    intro sched queues h
    rw [sum_length_eq_flatten] at h
    rw [List.length_eq_zero.mp h]
    exact List.Perm.refl _
  | succ fuel ih =>
    intro sched queues h
    have hlive := filter_live_flatten queues
    have hsum : ((queues.filter (fun q => !q.isEmpty)).map List.length).sum = fuel + 1 := by
      rw [sum_length_eq_flatten, hlive, ← sum_length_eq_flatten, h]
    have hne : queues.filter (fun q => !q.isEmpty) ≠ [] := by
      intro hnil; rw [hnil] at hsum; simp at hsum
    have hlt : sched.headD 0 % (queues.filter (fun q => !q.isEmpty)).length
        < (queues.filter (fun q => !q.isEmpty)).length :=
      Nat.mod_lt _ (List.length_pos.mpr hne)
    have hall : ∀ q ∈ queues.filter (fun q => !q.isEmpty), q ≠ [] := by
      intro q hq hnil
      rw [List.mem_filter] at hq
      rw [hnil] at hq
      simp at hq
    obtain ⟨x, rest, h1, h2, h3⟩ := popAt_perm _ _ hlt hall
    simp only [arrival, h1]
    rw [← hlive]
    exact (List.Perm.cons x (ih sched.tail rest (by omega))).trans h2

theorem arrivalOrder_perm {α : Type} (sched : List Nat) (queues : List (List α)) :
    (arrivalOrder sched queues).Perm queues.flatten :=
  arrival_perm _ sched queues rfl

/-! ### Workers on an ideal connector -/

theorem workerLoop_ideal (conn : Connector) (c : ConnId) (uids : List Nat)
    (hfetch : ∀ c k batch, ∃ envs, conn.fetchEnvelopesByUID c k batch = .ok envs
      ∧ envs.map (fun e => e.uid) = batch) :
    ∀ (n i k : Nat), uids.length - i = n →
      (∀ b ∈ (workerLoop conn c uids i k).1, b.err = none)
        ∧ itemUIDs (workerLoop conn c uids i k).1 = uids.drop i := by
  intro n
  induction n using Nat.strong_induction_on with
  | _ n ih =>
    intro i k hn
    rw [workerLoop]
    by_cases hi : i < uids.length
    · obtain ⟨envs, hf, hmap⟩ := hfetch c k
        (slice uids i (if i + batchSize > uids.length then uids.length else i + batchSize))
      have hrec := ih (uids.length - (i + batchSize)) (by simp only [batchSize]; omega)
        (i + batchSize) (k + 1) rfl
      simp only [hi, if_true, hf]
      refine ⟨?_, ?_⟩
      · intro b hb
        rcases List.mem_cons.mp hb with rfl | hb
        · rfl
        · exact hrec.1 b hb
      · rw [itemUIDs_cons, hrec.2]
        simp only [hmap]
        exact slice_append_drop uids i
    · simp only [hi, if_false]
      refine ⟨by simp, ?_⟩
      rw [List.drop_eq_nil_of_le (by omega)]
      rfl

theorem workerRun_ideal (conn : Connector) (c : ConnId) (mailbox : String) (uids : List Nat)
    (hconn : ∀ c, conn.connect c = none)
    (hsel : ∀ c, ∃ info, conn.selectMailbox c mailbox = .ok info)
    (hfetch : ∀ c k batch, ∃ envs, conn.fetchEnvelopesByUID c k batch = .ok envs
      ∧ envs.map (fun e => e.uid) = batch) :
    (∀ b ∈ (workerRun conn c mailbox uids).1, b.err = none)
      ∧ itemUIDs (workerRun conn c mailbox uids).1 = uids := by
  obtain ⟨info, hinfo⟩ := hsel c
  have h := workerLoop_ideal conn c uids hfetch _ 0 0 rfl
  unfold workerRun
  simp only [hconn, hinfo]
  simpa using h

theorem workerQueues_ideal (conn : Connector) (mailbox : String)
    (hconn : ∀ c, conn.connect c = none)
    (hsel : ∀ c, ∃ info, conn.selectMailbox c mailbox = .ok info)
    (hfetch : ∀ c k batch, ∃ envs, conn.fetchEnvelopesByUID c k batch = .ok envs
      ∧ envs.map (fun e => e.uid) = batch) :
    ∀ (shares : List (List Nat)) (j : Nat),
      (∀ b ∈ (workerQueues conn mailbox j shares).flatten, b.err = none)
        ∧ itemUIDs (workerQueues conn mailbox j shares).flatten = shares.flatten := by
  intro shares
  induction shares with
  | nil => intro j; simp [workerQueues, itemUIDs]
  | cons share rest ih =>
    intro j
    have h1 := workerRun_ideal conn (.worker j) mailbox share hconn hsel hfetch
    have h2 := ih (j + 1)
    simp only [workerQueues, List.flatten_cons]
    refine ⟨?_, ?_⟩
    · intro b hb
      rcases List.mem_append.mp hb with hb | hb
      · exact h1.1 b hb
      · exact h2.1 b hb
    · have : itemUIDs ((workerRun conn (.worker j) mailbox share).1
          ++ (workerQueues conn mailbox (j + 1) rest).flatten)
          = itemUIDs (workerRun conn (.worker j) mailbox share).1
            ++ itemUIDs (workerQueues conn mailbox (j + 1) rest).flatten := by
        simp [itemUIDs]
      rw [this, h1.2, h2.2]

/-! ### The writer on the spec store -/

theorem writerLoop_ideal {σ : Type} (store : Store σ) (mailbox : String) (v : Nat)
    (hins : ∀ envs t, (store.insertEnvelopes mailbox envs t).1 = none)
    (items : List Batch) :
    ∀ (st : WriterState σ), st.writeErr = none → (∀ b ∈ items, b.err = none) →
      (writerLoop store mailbox v items st).writeErr = none
        ∧ (writerLoop store mailbox v items st).totalFetched
            = st.totalFetched + (itemUIDs items).length
        ∧ (writerLoop store mailbox v items st).maxUID
            = (itemUIDs items).foldl max st.maxUID := by
  induction items with
  | nil => intro st h _; simp [writerLoop, itemUIDs, h]
  | cons b bs ih =>
    intro st hw hall
    have hb : b.err = none := hall b (List.mem_cons_self _ _)
    have hstep : (writerStep store mailbox v st b).writeErr = none
        ∧ (writerStep store mailbox v st b).totalFetched
            = st.totalFetched + b.envelopes.length
        ∧ (writerStep store mailbox v st b).maxUID
            = (b.envelopes.map (fun e => e.uid)).foldl max st.maxUID := by
      unfold writerStep
      by_cases hl : b.envelopes.length > 0
      · by_cases hc : (st.batchesSinceStateUpdate + 1 ≥ 10
            ∧ updateMaxUID st.maxUID b.envelopes > 0)
        · simp only [hb, hw, hl, hins, hc, and_self, if_true]
          exact ⟨trivial, trivial, updateMaxUID_eq_foldl_max _ _⟩
        · simp only [hb, hw, hl, hins, hc, if_true, if_false]
          exact ⟨trivial, trivial, updateMaxUID_eq_foldl_max _ _⟩
      · have hnil : b.envelopes = [] := by
          cases hbe : b.envelopes with
          | nil => rfl
          | cons a l => rw [hbe] at hl; simp at hl
        simp [hb, hw, hnil]
    have hrec := ih (writerStep store mailbox v st b) hstep.1
      (fun b' hb' => hall b' (List.mem_cons_of_mem _ hb'))
    simp only [writerLoop, List.foldl_cons] at hrec ⊢
    refine ⟨hrec.1, ?_, ?_⟩
    · rw [hrec.2.1, hstep.2.1, itemUIDs_cons, List.length_append, List.length_map]
      omega
    · rw [hrec.2.2, hstep.2.2, itemUIDs_cons, List.foldl_append]

theorem effectiveWorkers_pos (workers : Int) (n : Nat) : 1 ≤ (effectiveWorkers workers n).toNat := by
  unfold effectiveWorkers
  simp only []
  split_ifs <;> omega

theorem two_distinct_of_nodup (uids : List Nat) (hnodup : uids.Nodup) (hlen : 2 ≤ uids.length) :
    ∃ u ∈ uids, 0 < u := by
  match uids, hnodup, hlen with
  | a :: b :: rest, hnodup, _ =>
    have hab : a ≠ b := by
      intro h; subst h
      simp at hnodup
    by_cases ha : 0 < a
    · exact ⟨a, by simp, ha⟩
    · exact ⟨b, by simp, by omega⟩

theorem fetchMissingUIDsParallel_ideal {σ : Type} (conn : Connector) (store : Store σ)
    (sched : List Nat) (mailbox : String) (v : Nat) (uids : List Nat) (opts : SyncOptions)
    (s : σ)
    (hconn : ∀ c, conn.connect c = none)
    (hsel : ∀ c, ∃ info, conn.selectMailbox c mailbox = .ok info)
    (hfetch : ∀ c k batch, ∃ envs, conn.fetchEnvelopesByUID c k batch = .ok envs
      ∧ envs.map (fun e => e.uid) = batch)
    (hins : ∀ envs t, (store.insertEnvelopes mailbox envs t).1 = none)
    (hupd : ∀ x t, (store.updateMailboxState mailbox v x t).1 = none)
    (hread : ∀ x t, store.getMailboxState mailbox (store.updateMailboxState mailbox v x t).2
      = .ok (some ⟨v, x⟩))
    (hnodup : uids.Nodup) (hlen : 2 ≤ uids.length) :
    (fetchMissingUIDsParallel conn store sched mailbox v uids opts s).result
        = (uids.length, none)
      ∧ ∃ maxUID, maxUID ∈ uids ∧ (∀ u ∈ uids, u ≤ maxUID)
        ∧ store.getMailboxState mailbox
            (fetchMissingUIDsParallel conn store sched mailbox v uids opts s).store
          = .ok (some ⟨v, maxUID⟩) := by
  have hW := effectiveWorkers_pos opts.workers uids.length
  have hflat := workerShares_flatten uids _ hW
  have hq := workerQueues_ideal conn mailbox hconn hsel hfetch
    (workerShares uids (effectiveWorkers opts.workers uids.length).toNat) 0
  have hperm := arrivalOrder_perm sched (workerQueues conn mailbox 0
    (workerShares uids (effectiveWorkers opts.workers uids.length).toNat))
  have huids : (itemUIDs (arrivalOrder sched (workerQueues conn mailbox 0
      (workerShares uids (effectiveWorkers opts.workers uids.length).toNat)))).Perm uids := by
    have := itemUIDs_perm hperm
    rw [hq.2, hflat] at this
    exact this
  have hw := writerLoop_ideal store mailbox v hins (arrivalOrder sched
      (workerQueues conn mailbox 0
        (workerShares uids (effectiveWorkers opts.workers uids.length).toNat)))
    ⟨0, 0, none, 0, s, []⟩ rfl (fun b hb => hq.1 b (hperm.mem_iff.mp hb))
  unfold fetchMissingUIDsParallel
  simp only []
  generalize arrivalOrder sched (workerQueues conn mailbox 0
      (workerShares uids (effectiveWorkers opts.workers uids.length).toNat)) = items
    at huids hw
  generalize writerLoop store mailbox v items ⟨0, 0, none, 0, s, []⟩ = st at hw
  obtain ⟨hw1, hw2, hw3⟩ := hw
  simp only [Nat.zero_add] at hw2
  have hne : itemUIDs items ≠ [] := by
    intro h
    have := huids.length_eq
    rw [h] at this
    simp at this
    omega
  have hmem : st.maxUID ∈ uids := by
    rw [hw3]; exact huids.mem_iff.mp (foldl_max_zero_mem _ hne)
  have hub : ∀ u ∈ uids, u ≤ st.maxUID := by
    intro u hu
    rw [hw3]
    exact foldl_max_upper _ 0 u (huids.mem_iff.mpr hu)
  have hpos : st.maxUID > 0 := by
    obtain ⟨u, hu, hu0⟩ := two_distinct_of_nodup uids hnodup hlen
    have := hub u hu
    omega
  unfold writerFinish
  simp only [hw1, hpos, if_true, hupd]
  refine ⟨?_, st.maxUID, hmem, hub, hread _ _⟩
  rw [hw2, huids.length_eq]

/-- C7: on a store all of whose operations succeed and which reads back the state it was
last given, and a connector whose calls succeed and which returns exactly one envelope per
requested UID: for every cached-UID set, every strictly ascending remote UID list whose
missing part is not empty, every worker count and every arrival order, `Sync` succeeds
with `NewMessages = len(missing)` and `TotalCached = len(cached) + len(missing)`, and the
state persisted for the mailbox is the server's `uid_validity` with the maximum missing
UID. -/
theorem sync_fetches_all_missing {σ : Type} (conn : Connector) (store : Store σ)
    (sched : List Nat) (mailbox : String) (opts : Option SyncOptions) (s s1 : σ)
    (mbox : MailboxInfo) (state : Option MailboxState) (serverUIDs : List Nat)
    (cached : Finset Nat)
    (hopen : store.openCache = none)
    (hconn : ∀ c, conn.connect c = none)
    (hmain : conn.selectMailbox .main mailbox = .ok mbox)
    (hsel : ∀ c, ∃ info, conn.selectMailbox c mailbox = .ok info)
    (hnum : mbox.numMessages ≠ 0)
    (hall : conn.getAllUIDs .main = .ok serverUIDs)
    (hfetch : ∀ c k batch, ∃ envs, conn.fetchEnvelopesByUID c k batch = .ok envs
      ∧ envs.map (fun e => e.uid) = batch)
    (hasc : serverUIDs.Sorted (· < ·))
    (hstate : store.getMailboxState mailbox s = .ok state)
    (hclear : (store.clearMailbox mailbox s).1 = none)
    (hs1 : s1 = if staleState state mbox then (store.clearMailbox mailbox s).2 else s)
    (hcached : store.getCachedUIDs mailbox s1 = .ok cached)
    (hins : ∀ envs t, (store.insertEnvelopes mailbox envs t).1 = none)
    (hupd : ∀ x t, (store.updateMailboxState mailbox mbox.uidValidity x t).1 = none)
    (hread : ∀ x t, store.getMailboxState mailbox
      (store.updateMailboxState mailbox mbox.uidValidity x t).2
        = .ok (some ⟨mbox.uidValidity, x⟩))
    (hmissing : missingUIDs serverUIDs cached ≠ []) :
    ∃ maxUID, maxUID ∈ missingUIDs serverUIDs cached
      ∧ (∀ u ∈ missingUIDs serverUIDs cached, u ≤ maxUID)
      ∧ (Sync conn store sched mailbox opts s).result
          = .ok ⟨mailbox, (missingUIDs serverUIDs cached).length,
              cached.card + (missingUIDs serverUIDs cached).length,
              "synced " ++ toString (missingUIDs serverUIDs cached).length ++ " new messages"⟩
      ∧ store.getMailboxState mailbox (Sync conn store sched mailbox opts s).store
          = .ok (some ⟨mbox.uidValidity, maxUID⟩) := by
  obtain ⟨hr, hs, _⟩ := Sync_reaches_body conn store sched mailbox opts s s1 mbox
    state hopen (hconn _) hmain hstate hclear hs1
  have hnodup : (missingUIDs serverUIDs cached).Nodup := by
    rw [missingUIDs_eq_filter]
    exact (List.Sorted.nodup hasc).sublist (List.filter_sublist _)
  have hlen0 : ¬ (missingUIDs serverUIDs cached).length = 0 := by
    intro h; exact hmissing (List.length_eq_zero.mp h)
  have hstrategy : ∃ maxUID, maxUID ∈ missingUIDs serverUIDs cached
      ∧ (∀ u ∈ missingUIDs serverUIDs cached, u ≤ maxUID)
      ∧ ∃ r : Run σ (Nat × Option Err),
        syncFetch conn store sched mailbox (normalizeOpts opts) mbox cached.card
            (missingUIDs serverUIDs cached) s1
          = syncResult mailbox cached.card r
        ∧ r.result = ((missingUIDs serverUIDs cached).length, none)
        ∧ store.getMailboxState mailbox r.store = .ok (some ⟨mbox.uidValidity, maxUID⟩) := by
    unfold syncFetch
    by_cases hc : ((normalizeOpts opts).workers > 1
        && (missingUIDs serverUIDs cached).length > 100) = true
    · have h100 : (missingUIDs serverUIDs cached).length > 100 := by
        simp only [Bool.and_eq_true, decide_eq_true_eq] at hc
        exact hc.2
      obtain ⟨h1, m, h2, h3, h4⟩ := fetchMissingUIDsParallel_ideal conn store sched mailbox
        mbox.uidValidity (missingUIDs serverUIDs cached) (normalizeOpts opts) s1
        hconn hsel hfetch hins hupd hread hnodup (by omega)
      exact ⟨m, h2, h3, _, by rw [if_pos hc], h1, h4⟩
    · obtain ⟨h1, h4⟩ := fetchMissingUIDs_ideal conn store mailbox mbox.uidValidity
        (missingUIDs serverUIDs cached) (normalizeOpts opts) s1 hconn hsel hfetch hins hupd
        hread hmissing
      exact ⟨_, foldl_max_zero_mem _ hmissing, fun u hu => foldl_max_upper _ 0 u hu, _,
        by rw [if_neg hc], h1, h4⟩
  obtain ⟨m, hm1, hm2, r, hr1, hr2, hr3⟩ := hstrategy
  have hbody : syncBody conn store sched mailbox (normalizeOpts opts) mbox s1
      = ⟨(syncResult mailbox cached.card r).result, (syncResult mailbox cached.card r).store,
          .getCachedUIDs mailbox :: .getAllUIDs .main ::
            (syncResult mailbox cached.card r).log⟩ := by
    unfold syncBody
    simp only [hnum, if_false, hcached, hall, hlen0]
    rw [hr1]
  rw [hbody] at hr hs
  refine ⟨m, hm1, hm2, ?_, ?_⟩
  · rw [hr]
    unfold syncResult
    simp only [hr2, hlen0, if_false]
  · rw [hs, syncResult_store, hr3]

theorem idealConn_fetch (v : Nat) (serverUIDs : List Nat) (c : ConnId) (k : Nat)
    (batch : List Nat) :
    ∃ envs, (idealConn v serverUIDs).fetchEnvelopesByUID c k batch = .ok envs
      ∧ envs.map (fun e => e.uid) = batch :=
  ⟨batch.map (fun u => ⟨u, ""⟩), rfl, by simp [List.map_map, Function.comp_def]⟩

theorem missingUIDs_scenario_A :
    missingUIDs (List.range' 1 1000) ∅ = List.range' 1 1000 := by
  rw [missingUIDs_eq_filter]
  simp

theorem missingUIDs_scenario_C :
    missingUIDs (List.range' 1 600) (List.range' 1 500).toFinset = List.range' 501 100 := by
  rw [missingUIDs_eq_filter]
  have hsplit : List.range' 1 600 = List.range' 1 500 ++ List.range' 501 100 := by
    rw [List.range'_append_1]
  rw [hsplit, List.filter_append]
  have h1 : List.filter (fun uid => decide (uid ∉ (List.range' 1 500).toFinset))
      (List.range' 1 500) = [] := by
    rw [List.filter_eq_nil_iff]
    intro a ha
    simp only [List.mem_range'_1] at ha
    simp only [List.mem_toFinset, List.mem_range'_1, decide_eq_true_eq, not_not]
    omega
  have h2 : List.filter (fun uid => decide (uid ∉ (List.range' 1 500).toFinset))
      (List.range' 501 100) = List.range' 501 100 := by
    rw [List.filter_eq_self]
    intro a ha
    simp only [List.mem_range'_1] at ha
    simp only [List.mem_toFinset, List.mem_range'_1, decide_eq_true_eq]
    omega
  rw [h1, h2, List.nil_append]

theorem specStore_read_back (mailbox : String) (v x : Nat) (db : CacheDB) :
    specStore.getMailboxState mailbox (specStore.updateMailboxState mailbox v x db).2
      = .ok (some ⟨v, x⟩) := by
  simp [specStore]

/-- C7, witness: on the store of the spec, Scenario A (empty cache, server UIDs 1..1000,
4 workers) gives `{1000, 1000}` and `last_synced_uid = 1000`; Scenario C (cached 1..500,
server UIDs 1..600) gives `missing = [501..600]`, `{100, 600}` and
`last_synced_uid = 600`. -/
theorem sync_scenarios_A_and_C :
    ((Sync (idealConn 7 (List.range' 1 1000)) specStore [2, 0, 1] "INBOX" (some ⟨4, false⟩)
          emptyDB).result = .ok ⟨"INBOX", 1000, 1000, "synced 1000 new messages"⟩
      ∧ ((Sync (idealConn 7 (List.range' 1 1000)) specStore [2, 0, 1] "INBOX"
          (some ⟨4, false⟩) emptyDB).store "INBOX").state = some ⟨7, 1000⟩)
    ∧ (missingUIDs (List.range' 1 600) (List.range' 1 500).toFinset = List.range' 501 100
      ∧ (Sync (idealConn 7 (List.range' 1 600)) specStore [] "INBOX" none
          (cachedDB 7 500 (List.range' 1 500))).result
            = .ok ⟨"INBOX", 100, 600, "synced 100 new messages"⟩
      ∧ ((Sync (idealConn 7 (List.range' 1 600)) specStore [] "INBOX" none
          (cachedDB 7 500 (List.range' 1 500))).store "INBOX").state = some ⟨7, 600⟩) := by
  constructor
  · obtain ⟨m, hm, hub, hres, hst⟩ := sync_fetches_all_missing
      (idealConn 7 (List.range' 1 1000)) specStore [2, 0, 1] "INBOX" (some ⟨4, false⟩)
      emptyDB emptyDB ⟨7, (List.range' 1 1000).length⟩ none (List.range' 1 1000) ∅
      rfl (fun _ => rfl) rfl (fun _ => ⟨_, rfl⟩) (by simp) rfl (idealConn_fetch _ _)
      (List.pairwise_lt_range' 1 1000) rfl rfl rfl rfl (fun _ _ => rfl) (fun _ _ => rfl)
      (fun _ _ => specStore_read_back _ _ _ _) (by rw [missingUIDs_scenario_A]; simp)
    rw [missingUIDs_scenario_A] at hm hub hres
    have h1 : m = 1000 := by
      have := hub 1000 (by simp [List.mem_range'_1])
      simp only [List.mem_range'_1] at hm
      omega
    subst h1
    refine ⟨?_, Except.ok.inj hst⟩
    rw [hres]
    have hmsg : "synced " ++ toString 1000 ++ " new messages" = "synced 1000 new messages" := by
      decide
    simp only [List.length_range', Finset.card_empty, Nat.zero_add, hmsg]
  · have hcached : specStore.getCachedUIDs "INBOX" (cachedDB 7 500 (List.range' 1 500))
        = .ok (List.range' 1 500).toFinset := by
      simp [specStore, cachedDB, List.map_map, Function.comp_def]
    obtain ⟨m, hm, hub, hres, hst⟩ := sync_fetches_all_missing
      (idealConn 7 (List.range' 1 600)) specStore [] "INBOX" none
      (cachedDB 7 500 (List.range' 1 500)) (cachedDB 7 500 (List.range' 1 500))
      ⟨7, (List.range' 1 600).length⟩ (some ⟨7, 500⟩) (List.range' 1 600)
      (List.range' 1 500).toFinset
      rfl (fun _ => rfl) rfl (fun _ => ⟨_, rfl⟩) (by simp) rfl (idealConn_fetch _ _)
      (List.pairwise_lt_range' 1 600) rfl rfl (by simp [staleState]) hcached
      (fun _ _ => rfl) (fun _ _ => rfl)
      (fun _ _ => specStore_read_back _ _ _ _) (by rw [missingUIDs_scenario_C]; simp)
    rw [missingUIDs_scenario_C] at hm hub hres
    have h1 : m = 600 := by
      have := hub 600 (by simp [List.mem_range'_1])
      simp only [List.mem_range'_1] at hm
      omega
    subst h1
    refine ⟨missingUIDs_scenario_C, ?_, Except.ok.inj hst⟩
    rw [hres]
    have hcard : (List.range' 1 500).toFinset.card = 500 := by
      rw [List.toFinset_card_of_nodup (List.nodup_range' 1 500)]
      simp
    have hmsg : "synced " ++ toString 100 ++ " new messages" = "synced 100 new messages" := by
      decide
    simp only [List.length_range', hcard, hmsg]

/-! ## Counterexamples and witnesses -/

/-- C6, counterexample: with the server's `uid_validity` unchanged (7) and
`last_synced_uid = 500` stored, `Sync` on a mailbox that reports no message writes
`last_synced_uid = 0`; and `Sync` on a mailbox whose only missing UID is 1 writes
`last_synced_uid = 1` from `fetchMissingUIDs`.  Both values are below the stored 500. -/
theorem last_synced_uid_can_decrease :
    ((cachedDB 7 500 [] "INBOX").state = some ⟨7, 500⟩
      ∧ (Sync (idealConn 7 []) specStore [] "INBOX" none (cachedDB 7 500 [])).log
        = [.openCache, .connect .main, .selectMailbox .main "INBOX", .getMailboxState "INBOX",
            .updateMailboxState "INBOX" 7 0]
      ∧ ((Sync (idealConn 7 []) specStore [] "INBOX" none (cachedDB 7 500 [])).store
          "INBOX").state = some ⟨7, 0⟩)
    ∧ ((cachedDB 7 500 [500] "INBOX").state = some ⟨7, 500⟩
      ∧ checkpoints (Sync (idealConn 7 [1, 500]) specStore [] "INBOX" none
          (cachedDB 7 500 [500])).log = [1]
      ∧ ((Sync (idealConn 7 [1, 500]) specStore [] "INBOX" none
          (cachedDB 7 500 [500])).store "INBOX").state = some ⟨7, 1⟩) := by
  refine ⟨⟨rfl, by decide, by decide⟩, rfl, ?_, ?_⟩
  · simp [Sync, syncBody, syncFetch, syncResult, fetchMissingUIDs, idealConn, fetchLoop, slice,
      batchSize, specStore, cachedDB, normalizeOpts, staleState, missingUIDs, updateMaxUID,
      checkpoints]
  · simp [Sync, syncBody, syncFetch, syncResult, fetchMissingUIDs, idealConn, fetchLoop, slice,
      batchSize, specStore, cachedDB, normalizeOpts, staleState, missingUIDs, updateMaxUID]

/-- C2, witness: seven UIDs among three workers. -/
theorem workerShares_partition_witness :
    workerShares [1, 2, 3, 4, 5, 6, 7] 3 = [[1, 2, 3], [4, 5], [6, 7]]
      ∧ (workerShares [1, 2, 3, 4, 5, 6, 7] 3).flatten = [1, 2, 3, 4, 5, 6, 7] := by
  have h := workerShares_partition [1, 2, 3, 4, 5, 6, 7] 3 (by decide)
  refine ⟨?_, h.2.2.2.2.2.2.1⟩
  rw [h.1]
  decide

/-- C5, witness: the cache holds the state of epoch 7, the server reports epoch 8. -/
theorem epoch_invalidation_witness :
    ∃ post, (Sync (idealConn 8 []) specStore [] "INBOX" none (cachedDB 7 500 [1, 2])).log
        = [.openCache, .connect .main, .selectMailbox .main "INBOX",
            .getMailboxState "INBOX", .clearMailbox "INBOX"] ++ post
      ∧ (∀ mb, Call.clearMailbox mb ∉ post) := by
  obtain ⟨post, h1, h2, _⟩ := (epoch_invalidation_precedes_writes (idealConn 8 []) specStore []
    "INBOX" none (cachedDB 7 500 [1, 2]) ⟨8, 0⟩ (some ⟨7, 500⟩) rfl rfl rfl rfl).1
    ⟨⟨7, 500⟩, rfl, by decide⟩
  exact ⟨post, h1, h2⟩

/-- C8, witness: an empty mailbox of epoch 7 and the empty cache of the spec; the state
persisted is `(7, 0)`. -/
theorem empty_mailbox_sync_witness :
    (Sync (idealConn 7 []) specStore [] "INBOX" none emptyDB).result
        = .ok ⟨"INBOX", 0, 0, "mailbox is empty"⟩
      ∧ ((Sync (idealConn 7 []) specStore [] "INBOX" none emptyDB).store "INBOX").state
        = some ⟨7, 0⟩ := by
  have h := empty_mailbox_sync (idealConn 7 []) specStore [] "INBOX" none emptyDB emptyDB 7
    none rfl rfl rfl rfl rfl rfl rfl
  refine ⟨h.1, ?_⟩
  rw [h.2.1]
  exact specStore_state_after_update _ _ _ _

/-- C4, witness: two missing UIDs and four configured workers run the sequential
strategy. -/
theorem strategy_choice_witness :
    (Sync (idealConn 7 [1, 2]) specStore [] "INBOX" (some ⟨4, false⟩) emptyDB).store
      = (fetchMissingUIDs (idealConn 7 [1, 2]) specStore "INBOX" 7 [1, 2] ⟨4, false⟩
          emptyDB).store := by
  obtain ⟨_, strategy, h1, _, h3, _⟩ := strategy_choice (idealConn 7 [1, 2]) specStore []
    "INBOX" (some ⟨4, false⟩) emptyDB emptyDB ⟨7, 2⟩ none ∅ [1, 2] rfl rfl rfl (by decide)
    rfl rfl rfl rfl rfl (by decide)
  have hm : missingUIDs [1, 2] ∅ = [1, 2] := by decide
  rw [h3, h1, hm, if_neg (by decide)]
  rfl

/-! ## The batches of the two strategies (C11) -/

theorem batchesFrom_done (uids : List Nat) (i : Nat) (h : ¬ i < uids.length) :
    batchesFrom uids i = [] := by
  rw [batchesFrom]; simp only [h, if_false]

theorem batchesFrom_step (uids : List Nat) (i : Nat) (h : i < uids.length) :
    batchesFrom uids i
      = slice uids i (if i + batchSize > uids.length then uids.length else i + batchSize)
        :: batchesFrom uids (i + batchSize) := by
  rw [batchesFrom]; simp only [h, if_true]

theorem slice_batch_bounds (uids : List Nat) (i : Nat) (hi : i < uids.length) :
    0 < (slice uids i
        (if i + batchSize > uids.length then uids.length else i + batchSize)).length
      ∧ (slice uids i
        (if i + batchSize > uids.length then uids.length else i + batchSize)).length
          ≤ batchSize
      ∧ (i + batchSize < uids.length →
          (slice uids i
            (if i + batchSize > uids.length then uids.length else i + batchSize)).length
              = batchSize) := by
  unfold slice batchSize
  split_ifs <;> simp <;> omega

theorem batchesFrom_spec (uids : List Nat) : ∀ (n i : Nat), uids.length - i = n →
    (batchesFrom uids i).flatten = uids.drop i
      ∧ (∀ b ∈ batchesFrom uids i, b ≠ [] ∧ b.length ≤ batchSize)
      ∧ (∀ b ∈ (batchesFrom uids i).dropLast, b.length = batchSize)
      ∧ (batchesFrom uids i).length = (uids.length - i + (batchSize - 1)) / batchSize := by
  intro n
  induction n using Nat.strong_induction_on with
  | _ n ih =>
    intro i hn
    by_cases hi : i < uids.length
    · obtain ⟨h1, h2, h3, h4⟩ := ih (uids.length - (i + batchSize))
        (by simp only [batchSize]; omega) (i + batchSize) rfl
      obtain ⟨hb1, hb2, hb3⟩ := slice_batch_bounds uids i hi
      rw [batchesFrom_step uids i hi]
      refine ⟨?_, ?_, ?_, ?_⟩
      · rw [List.flatten_cons, h1]; exact slice_append_drop uids i
      · intro b hb
        rcases List.mem_cons.mp hb with rfl | hb
        · exact ⟨fun h => by rw [h] at hb1; simp at hb1, hb2⟩
        · exact h2 b hb
      · intro b hb
        by_cases hnext : i + batchSize < uids.length
        · rw [batchesFrom_step uids _ hnext] at hb h3
          rw [List.dropLast_cons₂] at hb
          rcases List.mem_cons.mp hb with rfl | hb
          · exact hb3 hnext
          · exact h3 b hb
        · rw [batchesFrom_done uids _ hnext] at hb
          simp at hb
      · rw [List.length_cons, h4]
        simp only [batchSize] at hi ⊢
        omega
    · rw [batchesFrom_done uids i hi]
      refine ⟨?_, by simp, by simp, ?_⟩
      · rw [List.drop_eq_nil_of_le (by omega)]; rfl
      · simp only [batchSize, List.length_nil]
        omega

theorem fetchLoop_batches {σ : Type} (conn : Connector) (store : Store σ) (mailbox : String)
    (v : Nat) (uids : List Nat) : ∀ (n i k tf m : Nat) (s : σ), uids.length - i = n →
    (∃ rest, batchesFrom uids i
        = fetchedBatches (fetchLoop conn store mailbox v uids i k tf m s).log ++ rest)
      ∧ ((fetchLoop conn store mailbox v uids i k tf m s).result.2 = none →
          fetchedBatches (fetchLoop conn store mailbox v uids i k tf m s).log
            = batchesFrom uids i) := by
  intro n
  induction n using Nat.strong_induction_on with
  | _ n ih =>
    intro i k tf m s hn
    by_cases hi : i < uids.length
    · have hrec : ∀ tf2 m2 (s2 : σ),
          (∃ rest, batchesFrom uids (i + batchSize)
            = fetchedBatches (fetchLoop conn store mailbox v uids (i + batchSize) (k + 1)
                tf2 m2 s2).log ++ rest)
          ∧ ((fetchLoop conn store mailbox v uids (i + batchSize) (k + 1)
                tf2 m2 s2).result.2 = none →
              fetchedBatches (fetchLoop conn store mailbox v uids (i + batchSize) (k + 1)
                tf2 m2 s2).log = batchesFrom uids (i + batchSize)) :=
        fun tf2 m2 s2 => ih (uids.length - (i + batchSize))
          (by simp only [batchSize]; omega) _ _ _ _ _ rfl
      rw [batchesFrom_step uids i hi, fetchLoop]
      simp only [hi, if_true]
      cases hf : conn.fetchEnvelopesByUID .sequential k
          (slice uids i (if i + batchSize > uids.length then uids.length else i + batchSize)) with
      | error e =>
        simp only [fetchedBatches]
        exact ⟨⟨_, rfl⟩, fun h => by simp at h⟩
      | ok envelopes =>
        by_cases he : envelopes.length > 0
        · simp only [he, if_true]
          cases hins : (store.insertEnvelopes mailbox envelopes s).1 with
          | some e =>
            simp only [fetchedBatches]
            exact ⟨⟨_, rfl⟩, fun h => by simp at h⟩
          | none =>
            cases hupd : (store.updateMailboxState mailbox v (updateMaxUID m envelopes)
                (store.insertEnvelopes mailbox envelopes s).2).1 with
            | some e =>
              simp only [fetchedBatches]
              exact ⟨⟨_, rfl⟩, fun h => by simp at h⟩
            | none =>
              simp only [fetchedBatches]
              obtain ⟨⟨rest, h1⟩, h2⟩ := hrec (tf + envelopes.length) (updateMaxUID m envelopes)
                (store.updateMailboxState mailbox v (updateMaxUID m envelopes)
                  (store.insertEnvelopes mailbox envelopes s).2).2
              refine ⟨⟨rest, ?_⟩, fun h => ?_⟩
              · rw [h1]; rfl
              · rw [h2 h]
        · simp only [he, if_false, fetchedBatches]
          obtain ⟨⟨rest, h1⟩, h2⟩ := hrec (tf + envelopes.length) m s
          refine ⟨⟨rest, ?_⟩, fun h => ?_⟩
          · rw [h1]; rfl
          · rw [h2 h]
    · rw [batchesFrom_done uids i hi, fetchLoop_done _ _ _ _ _ _ _ _ _ _ hi]
      exact ⟨⟨[], rfl⟩, fun _ => rfl⟩

theorem workerLoop_batches (conn : Connector) (c : ConnId) (uids : List Nat) :
    ∀ (n i k : Nat), uids.length - i = n →
      (∀ b ∈ (workerLoop conn c uids i k).1, b.err = none) →
        fetchedBatches (workerLoop conn c uids i k).2 = batchesFrom uids i := by
  intro n
  induction n using Nat.strong_induction_on with
  | _ n ih =>
    intro i k hn
    by_cases hi : i < uids.length
    · rw [batchesFrom_step uids i hi, workerLoop]
      simp only [hi, if_true]
      cases hf : conn.fetchEnvelopesByUID c k
          (slice uids i (if i + batchSize > uids.length then uids.length else i + batchSize)) with
      | error e =>
        intro h
        have := h _ (List.mem_singleton_self _)
        simp at this
      | ok envs =>
        intro h
        simp only [fetchedBatches]
        rw [ih (uids.length - (i + batchSize)) (by simp only [batchSize]; omega)
          (i + batchSize) (k + 1) rfl
          (fun b hb => h b (List.mem_cons_of_mem _ hb))]
    · intro _
      rw [batchesFrom_done uids i hi, workerLoop]
      simp only [hi, if_false, fetchedBatches]

/-- C11, counterexample: on a store whose `InsertEnvelopes` fails, every fetch of the
sequential strategy succeeds, yet only the first batch of 500 of the 501 UIDs is passed to
`FetchEnvelopesByUID`; and when `Connect` fails no batch is passed at all. -/
theorem store_failure_cuts_batches_short :
    (∀ k batch, ∃ envs, (idealConn 7 (List.range' 1 501)).fetchEnvelopesByUID .sequential k
        batch = .ok envs)
      ∧ fetchedBatches (fetchMissingUIDs (idealConn 7 (List.range' 1 501)) fullDiskStore
          "INBOX" 7 (List.range' 1 501) ⟨1, false⟩ emptyDB).log
        = [(List.range' 1 501).take 500]
      ∧ (fetchedBatches (fetchMissingUIDs (idealConn 7 (List.range' 1 501)) fullDiskStore
          "INBOX" 7 (List.range' 1 501) ⟨1, false⟩ emptyDB).log).flatten
        ≠ List.range' 1 501
      ∧ fetchedBatches (fetchMissingUIDs (refusingConn 7 [1, 2]) specStore "INBOX" 7 [1, 2]
          ⟨1, false⟩ emptyDB).log = [] := by
  have h : fetchedBatches (fetchMissingUIDs (idealConn 7 (List.range' 1 501)) fullDiskStore
      "INBOX" 7 (List.range' 1 501) ⟨1, false⟩ emptyDB).log
      = [(List.range' 1 501).take 500] := by
    simp [fetchMissingUIDs, idealConn, fetchLoop, slice, batchSize, fullDiskStore,
      fetchedBatches]
  refine ⟨fun _ _ => ⟨_, rfl⟩, h, ?_, by decide⟩
  rw [h]
  intro hflat
  have := congrArg List.length hflat
  simp at this

/-- C11, amended: when the sequential strategy returns a nil error (its session is opened,
no fetch and no store write fails), and for a worker of the parallel strategy when none of
the items it sends is an error (its session is opened and no fetch fails), the batches
passed to `FetchEnvelopesByUID` are, in order, the batches `batchesFrom uids 0` cut by the
loop; these concatenate to the list, each is non-empty with at most 500 UIDs, each but the
last has exactly 500, and there are `ceil(n/500)` of them. -/
theorem batches_cover_the_list {σ : Type} (conn : Connector) (store : Store σ)
    (mailbox : String) (v : Nat) (uids : List Nat) (opts : SyncOptions) (s : σ) (c : ConnId) :
    ((fetchMissingUIDs conn store mailbox v uids opts s).result.2 = none →
        fetchedBatches (fetchMissingUIDs conn store mailbox v uids opts s).log
          = batchesFrom uids 0)
      ∧ ((∀ b ∈ (workerRun conn c mailbox uids).1, b.err = none) →
          fetchedBatches (workerRun conn c mailbox uids).2 = batchesFrom uids 0)
      ∧ (batchesFrom uids 0).flatten = uids
      ∧ (∀ b ∈ batchesFrom uids 0, b ≠ [] ∧ b.length ≤ 500)
      ∧ (∀ b ∈ (batchesFrom uids 0).dropLast, b.length = 500)
      ∧ (batchesFrom uids 0).length = (uids.length + 499) / 500 := by
  obtain ⟨h1, h2, h3, h4⟩ := batchesFrom_spec uids _ 0 rfl
  refine ⟨?_, ?_, by simpa using h1, h2, h3, by simpa [batchSize] using h4⟩
  · unfold fetchMissingUIDs
    cases hc : conn.connect .sequential with
    | some e => simp
    | none =>
      cases hs : conn.selectMailbox .sequential mailbox with
      | error e => simp
      | ok info =>
        simp only [fetchedBatches]
        exact (fetchLoop_batches conn store mailbox v uids _ 0 0 0 0 s rfl).2
  · unfold workerRun
    cases hc : conn.connect c with
    | some e =>
      intro h
      have := h _ (List.mem_singleton_self _)
      simp at this
    | none =>
      cases hs : conn.selectMailbox c mailbox with
      | error e =>
        intro h
        have := h _ (List.mem_singleton_self _)
        simp at this
      | ok info =>
        simp only [fetchedBatches]
        exact workerLoop_batches conn c uids _ 0 0 rfl

/-- C11, witness: three UIDs on a connector and a store that succeed are fetched in one
batch. -/
theorem batches_cover_the_list_witness :
    fetchedBatches (fetchMissingUIDs (idealConn 7 [1, 2, 3]) specStore "INBOX" 7 [1, 2, 3]
        ⟨1, false⟩ emptyDB).log = [[1, 2, 3]] := by
  have h := (batches_cover_the_list (idealConn 7 [1, 2, 3]) specStore "INBOX" 7 [1, 2, 3]
    ⟨1, false⟩ emptyDB .sequential).1
    (by simp [fetchMissingUIDs, idealConn, fetchLoop, slice, batchSize, specStore])
  rw [h]
  simp [batchesFrom, slice, batchSize]

/-! ## Errors in the writer of the parallel strategy (C13) -/

theorem writerLoop_append {σ : Type} (store : Store σ) (mailbox : String) (v : Nat)
    (pre rest : List Batch) (st : WriterState σ) :
    writerLoop store mailbox v (pre ++ rest) st
      = writerLoop store mailbox v rest (writerLoop store mailbox v pre st) := by
  simp [writerLoop, List.foldl_append]

theorem writerLoop_cons {σ : Type} (store : Store σ) (mailbox : String) (v : Nat)
    (b : Batch) (rest : List Batch) (st : WriterState σ) :
    writerLoop store mailbox v (b :: rest) st
      = writerLoop store mailbox v rest (writerStep store mailbox v st b) := rfl

theorem writerStep_frozen {σ : Type} (store : Store σ) (mailbox : String) (v : Nat)
    (st : WriterState σ) (b : Batch) (h : st.writeErr ≠ none) :
    (writerStep store mailbox v st b).writeErr ≠ none
      ∧ (writerStep store mailbox v st b).log = st.log
      ∧ (writerStep store mailbox v st b).store = st.store
      ∧ (writerStep store mailbox v st b).totalFetched = st.totalFetched
      ∧ (writerStep store mailbox v st b).maxUID = st.maxUID := by
  unfold writerStep
  cases hb : b.err with
  | some e => simp
  | none =>
    cases hw : st.writeErr with
    | none => exact absurd hw h
    | some e => simp [hw]

theorem writerLoop_frozen {σ : Type} (store : Store σ) (mailbox : String) (v : Nat)
    (items : List Batch) : ∀ (st : WriterState σ), st.writeErr ≠ none →
    (writerLoop store mailbox v items st).writeErr ≠ none
      ∧ (writerLoop store mailbox v items st).log = st.log
      ∧ (writerLoop store mailbox v items st).store = st.store
      ∧ (writerLoop store mailbox v items st).totalFetched = st.totalFetched
      ∧ (writerLoop store mailbox v items st).maxUID = st.maxUID := by
  induction items with
  | nil => intro st h; exact ⟨h, rfl, rfl, rfl, rfl⟩
  | cons b bs ih =>
    intro st h
    obtain ⟨h1, h2, h3, h4, h5⟩ := writerStep_frozen store mailbox v st b h
    obtain ⟨g1, g2, g3, g4, g5⟩ := ih (writerStep store mailbox v st b) h1
    rw [writerLoop_cons]
    exact ⟨g1, g2.trans h2, g3.trans h3, g4.trans h4, g5.trans h5⟩

theorem writerFinish_of_error {σ : Type} (store : Store σ) (mailbox : String) (v : Nat)
    (st : WriterState σ) (e : Err) (h : st.writeErr = some e) :
    writerFinish store mailbox v st = ⟨(st.totalFetched, some e), st.store, st.log⟩ := by
  unfold writerFinish
  simp [h]

theorem writerStep_error_item {σ : Type} (store : Store σ) (mailbox : String) (v : Nat)
    (st : WriterState σ) (envs : List Envelope) (e : Err) :
    (writerStep store mailbox v st ⟨envs, some e⟩).writeErr = some e := by
  simp [writerStep]

theorem writerLoop_keeps_error {σ : Type} (store : Store σ) (mailbox : String) (v : Nat)
    (items : List Batch) : ∀ (st : WriterState σ) (e : Err), st.writeErr = some e →
    (∀ b ∈ items, b.err = none) →
    (writerLoop store mailbox v items st).writeErr = some e := by
  induction items with
  | nil => intro st e h _; exact h
  | cons b bs ih =>
    intro st e h hall
    rw [writerLoop_cons]
    apply ih _ e _ (fun b' hb' => hall b' (List.mem_cons_of_mem _ hb'))
    have hb := hall b (List.mem_cons_self _ _)
    unfold writerStep
    simp [hb, h]

theorem fetchMissingUIDsParallel_eq_writerRun {σ : Type} (conn : Connector) (store : Store σ)
    (sched : List Nat) (mailbox : String) (v : Nat) (uids : List Nat) (opts : SyncOptions)
    (s : σ) :
    fetchMissingUIDsParallel conn store sched mailbox v uids opts s
      = writerRun store mailbox v
          (arrivalOrder sched (workerQueues conn mailbox 0
            (workerShares uids (effectiveWorkers opts.workers uids.length).toNat))) s := rfl

/-- C13: once the writer has recorded an error while it consumed the items `pre`, the items
`rest` that arrive later cause no call on the store: the calls and the store of the whole
run are those reached after `pre`, the count returned is the count reached after `pre`,
and the run returns an error. -/
theorem no_write_after_recorded_error {σ : Type} (store : Store σ) (mailbox : String)
    (v : Nat) (pre rest : List Batch) (s : σ)
    (herr : (writerLoop store mailbox v pre ⟨0, 0, none, 0, s, []⟩).writeErr ≠ none) :
    (writerRun store mailbox v (pre ++ rest) s).log
        = (writerLoop store mailbox v pre ⟨0, 0, none, 0, s, []⟩).log
      ∧ (writerRun store mailbox v (pre ++ rest) s).store
        = (writerLoop store mailbox v pre ⟨0, 0, none, 0, s, []⟩).store
      ∧ (writerRun store mailbox v (pre ++ rest) s).result.1
        = (writerLoop store mailbox v pre ⟨0, 0, none, 0, s, []⟩).totalFetched
      ∧ (writerRun store mailbox v (pre ++ rest) s).result.2 ≠ none := by
  obtain ⟨h1, h2, h3, h4, _⟩ := writerLoop_frozen store mailbox v rest _ herr
  unfold writerRun
  rw [writerLoop_append]
  cases he : (writerLoop store mailbox v rest
      (writerLoop store mailbox v pre ⟨0, 0, none, 0, s, []⟩)).writeErr with
  | none => exact absurd he h1
  | some e =>
    rw [writerFinish_of_error _ _ _ _ e he]
    exact ⟨h2, h3, h4, by simp⟩

/-- C13, witness: a batch that arrives after a worker error is not written. -/
theorem no_write_after_recorded_error_witness :
    (writerRun specStore "INBOX" 7
        ([⟨[], some (.base "fetch failed")⟩] ++ [⟨[⟨5, ""⟩], none⟩]) emptyDB).log = [] := by
  have h := (no_write_after_recorded_error specStore "INBOX" 7
    [⟨[], some (.base "fetch failed")⟩] [⟨[⟨5, ""⟩], none⟩] emptyDB (by decide)).1
  rw [h]
  decide

/-! ## The count returned by the parallel strategy (C17) -/

/-- One step of the writer on a state without a recorded error: either the item is written
(or is an empty batch), or it records the first error. -/
theorem writerStep_cases {σ : Type} (store : Store σ) (mailbox : String) (v : Nat)
    (st : WriterState σ) (b : Batch) (hw : st.writeErr = none) :
    ((b.err = none ∧ (b.envelopes ≠ [] →
          (store.insertEnvelopes mailbox b.envelopes st.store).1 = none))
        ∧ (writerStep store mailbox v st b).writeErr = none
        ∧ (writerStep store mailbox v st b).totalFetched
            = st.totalFetched + b.envelopes.length
        ∧ inserted (writerStep store mailbox v st b).log = inserted st.log ++ b.envelopes)
      ∨ ((b.err ≠ none ∨ (b.envelopes ≠ [] ∧
            (store.insertEnvelopes mailbox b.envelopes st.store).1 ≠ none))
        ∧ (writerStep store mailbox v st b).writeErr ≠ none
        ∧ (writerStep store mailbox v st b).totalFetched = st.totalFetched) := by
  unfold writerStep
  cases hb : b.err with
  | some e => right; simp
  | none =>
    by_cases hl : b.envelopes.length > 0
    · have hne : b.envelopes ≠ [] := by intro h; rw [h] at hl; simp at hl
      cases hi : (store.insertEnvelopes mailbox b.envelopes st.store).1 with
      | some e =>
        right
        simp only [hw, hl, if_true, hi]
        simp [hne]
      | none =>
        left
        by_cases hc : (st.batchesSinceStateUpdate + 1 ≥ 10
            ∧ updateMaxUID st.maxUID b.envelopes > 0)
        · simp only [hw, hl, if_true, hi, hc, and_self]
          simp [inserted_append, inserted]
        · simp only [hw, hl, if_true, hi, hc, if_false]
          simp [inserted_append, inserted]
    · have hnil : b.envelopes = [] := by
        cases hbe : b.envelopes with
        | nil => rfl
        | cons a l => rw [hbe] at hl; simp at hl
      left
      simp [hw, hnil]

theorem writer_committed_part {σ : Type} (store : Store σ) (mailbox : String) (v : Nat)
    (items : List Batch) : ∀ (st : WriterState σ), st.writeErr = none →
    ∃ pre rest, items = pre ++ rest
      ∧ (∀ a b c, pre = a ++ b :: c → b.err = none ∧ (b.envelopes ≠ [] →
          (store.insertEnvelopes mailbox b.envelopes
            (writerLoop store mailbox v a st).store).1 = none))
      ∧ (writerLoop store mailbox v pre st).writeErr = none
      ∧ inserted (writerLoop store mailbox v pre st).log
          = inserted st.log ++ (pre.map (fun b => b.envelopes)).flatten
      ∧ (rest = [] ∨ ∃ b rest1, rest = b :: rest1
          ∧ (b.err ≠ none ∨ (b.envelopes ≠ [] ∧
              (store.insertEnvelopes mailbox b.envelopes
                (writerLoop store mailbox v pre st).store).1 ≠ none))
          ∧ (writerLoop store mailbox v items st).writeErr ≠ none
          ∧ (writerLoop store mailbox v items st).log
              = (writerStep store mailbox v (writerLoop store mailbox v pre st) b).log)
      ∧ (writerLoop store mailbox v items st).totalFetched
          = st.totalFetched + ((pre.map (fun b => b.envelopes)).flatten).length := by
  induction items with
  | nil =>
    intro st hw
    exact ⟨[], [], rfl, by intro a b c h; simp at h, hw, by simp [writerLoop],
      Or.inl rfl, by simp [writerLoop]⟩
  | cons b bs ih =>
    intro st hw
    rcases writerStep_cases store mailbox v st b hw with ⟨hok, h1, h2, h3⟩ | ⟨hbad, h1, h2⟩
    · obtain ⟨pre, rest, e1, e2, e3, e4, e5, e6⟩ := ih (writerStep store mailbox v st b) h1
      refine ⟨b :: pre, rest, by rw [e1]; rfl, ?_, ?_, ?_, ?_, ?_⟩
      · intro a x c hd
        rcases a with _ | ⟨y, a⟩
        · simp only [List.nil_append, List.cons.injEq] at hd
          obtain ⟨rfl, _⟩ := hd
          exact hok
        · simp only [List.cons_append, List.cons.injEq] at hd
          obtain ⟨rfl, hd⟩ := hd
          exact e2 a x c hd
      · rw [writerLoop_cons]; exact e3
      · rw [writerLoop_cons, e4, h3]; simp
      · rcases e5 with e5 | ⟨x, rest1, g1, g2, g3, g4⟩
        · left; exact e5
        · right
          refine ⟨x, rest1, g1, ?_, ?_, ?_⟩
          · rw [writerLoop_cons]; exact g2
          · rw [writerLoop_cons]; exact g3
          · rw [writerLoop_cons, writerLoop_cons]; exact g4
      · rw [writerLoop_cons, e6, h2]
        simp only [List.map_cons, List.flatten_cons, List.length_append]
        omega
    · obtain ⟨g1, g2, _, g4, _⟩ := writerLoop_frozen store mailbox v bs _ h1
      refine ⟨[], b :: bs, rfl, by intro a x c h; simp at h, hw, by simp [writerLoop],
        Or.inr ⟨b, bs, rfl, hbad, ?_, ?_⟩, ?_⟩
      · rw [writerLoop_cons]; exact g1
      · rw [writerLoop_cons]; exact g2
      · rw [writerLoop_cons, g4, h2]; simp

theorem writerFinish_count {σ : Type} (store : Store σ) (mailbox : String) (v : Nat)
    (st : WriterState σ) : (writerFinish store mailbox v st).result.1 = st.totalFetched := by
  unfold writerFinish
  cases hw : st.writeErr <;> by_cases hm : st.maxUID > 0 <;>
    cases hu : (store.updateMailboxState mailbox v st.maxUID st.store).1 <;>
    simp only [hm, hu, if_true, if_false]

/-- C17: the items split into a first part `pre` and the rest.  Every item of `pre` is a
batch whose `InsertEnvelopes` call, if it has envelopes, succeeded, and the envelopes
inserted while consuming `pre` are exactly its envelopes.  The rest is empty, or starts
with the first recorded error (a worker error item, or a batch whose `InsertEnvelopes`
fails), after which no further call is made and the run returns an error.  On every path
the integer returned is the number of envelopes of `pre`. -/
theorem returned_count_is_committed {σ : Type} (store : Store σ) (mailbox : String)
    (v : Nat) (items : List Batch) (s : σ) :
    ∃ pre rest, items = pre ++ rest
      ∧ (∀ a b c, pre = a ++ b :: c → b.err = none ∧ (b.envelopes ≠ [] →
          (store.insertEnvelopes mailbox b.envelopes
            (writerLoop store mailbox v a ⟨0, 0, none, 0, s, []⟩).store).1 = none))
      ∧ inserted (writerLoop store mailbox v pre ⟨0, 0, none, 0, s, []⟩).log
          = (pre.map (fun b => b.envelopes)).flatten
      ∧ (rest = [] ∨ ∃ b rest1, rest = b :: rest1
          ∧ (b.err ≠ none ∨ (b.envelopes ≠ [] ∧
              (store.insertEnvelopes mailbox b.envelopes
                (writerLoop store mailbox v pre ⟨0, 0, none, 0, s, []⟩).store).1 ≠ none))
          ∧ (writerRun store mailbox v items s).result.2 ≠ none
          ∧ (writerRun store mailbox v items s).log
              = (writerStep store mailbox v
                  (writerLoop store mailbox v pre ⟨0, 0, none, 0, s, []⟩) b).log)
      ∧ (writerRun store mailbox v items s).result.1
          = ((pre.map (fun b => b.envelopes)).flatten).length := by
  obtain ⟨pre, rest, e1, e2, _, e4, e5, e6⟩ :=
    writer_committed_part store mailbox v items ⟨0, 0, none, 0, s, []⟩ rfl
  refine ⟨pre, rest, e1, e2, by simpa [inserted] using e4, ?_, ?_⟩
  · rcases e5 with e5 | ⟨b, rest1, g1, g2, g3, g4⟩
    · left; exact e5
    · right
      refine ⟨b, rest1, g1, g2, ?_, ?_⟩
      · unfold writerRun
        cases he : (writerLoop store mailbox v items ⟨0, 0, none, 0, s, []⟩).writeErr with
        | none => exact absurd he g3
        | some e => rw [writerFinish_of_error _ _ _ _ e he]; simp
      · unfold writerRun
        cases he : (writerLoop store mailbox v items ⟨0, 0, none, 0, s, []⟩).writeErr with
        | none => exact absurd he g3
        | some e => rw [writerFinish_of_error _ _ _ _ e he]; exact g4
  · unfold writerRun
    rw [writerFinish_count, e6]
    simp

/-! ## The error returned by the writer (C12) -/

theorem writerLoop_all_written {σ : Type} (store : Store σ) (mailbox : String) (v : Nat)
    (pre : List Batch) : ∀ (st : WriterState σ), st.writeErr = none →
    (∀ a b c, pre = a ++ b :: c → b.err = none ∧ (b.envelopes ≠ [] →
      (store.insertEnvelopes mailbox b.envelopes
        (writerLoop store mailbox v a st).store).1 = none)) →
    (writerLoop store mailbox v pre st).writeErr = none := by
  induction pre with
  | nil => intro st hw _; exact hw
  | cons x xs ih =>
    intro st hw hpre
    rw [writerLoop_cons]
    have hx := hpre [] x xs rfl
    have hstep : (writerStep store mailbox v st x).writeErr = none := by
      rcases writerStep_cases store mailbox v st x hw with ⟨_, h1, _⟩ | ⟨hbad, _, _⟩
      · exact h1
      · rcases hbad with hbad | ⟨hne, hbad⟩
        · exact absurd hx.1 hbad
        · exact absurd (hx.2 hne) hbad
    apply ih _ hstep
    intro a b c habc
    have := hpre (x :: a) b c (by rw [habc]; rfl)
    rw [writerLoop_cons] at this
    exact this

theorem writerStep_failed_insert {σ : Type} (store : Store σ) (mailbox : String) (v : Nat)
    (st : WriterState σ) (b : Batch) (e : Err) (hw : st.writeErr = none) (hb : b.err = none)
    (hne : b.envelopes ≠ [])
    (hfail : (store.insertEnvelopes mailbox b.envelopes st.store).1 = some e) :
    (writerStep store mailbox v st b).writeErr = some e
      ∧ (writerStep store mailbox v st b).log
        = st.log ++ [.insertEnvelopes mailbox b.envelopes]
      ∧ (writerStep store mailbox v st b).maxUID = st.maxUID := by
  have hlen : b.envelopes.length > 0 := List.length_pos.mpr hne
  unfold writerStep
  simp only [hb, hw, hlen, if_true, hfail]
  exact ⟨trivial, trivial, trivial⟩

/-- C12, counterexample: of two worker errors the writer returns the second; and a worker
error that arrives after a failed `InsertEnvelopes` replaces the error of the store. -/
theorem later_worker_error_is_returned :
    (writerRun specStore "INBOX" 7
        [⟨[], some (.base "first")⟩, ⟨[], some (.base "second")⟩] emptyDB).result
        = (0, some (.base "second"))
      ∧ (writerRun fullDiskStore "INBOX" 7
        [⟨[⟨5, ""⟩], none⟩, ⟨[], some (.base "worker")⟩] emptyDB).result
        = (0, some (.base "worker"))
      ∧ (fetchMissingUIDsParallel (refusingConn 7 (List.range' 1 500)) specStore [0, 0]
          "INBOX" 7 (List.range' 1 500) ⟨2, false⟩ emptyDB).result
        = (0, some (.wrap "connect" (.base "refused later"))) := by
  refine ⟨by decide, by decide, ?_⟩
  simp [fetchMissingUIDsParallel, effectiveWorkers, batchSize, workerShares, shareRanges,
    workerQueues, workerRun, refusingConn, arrivalOrder, arrival, popAt, writerLoop,
    writerStep, writerFinish]

/-- C12, amended: (1) when the sequence holds a worker error item, the error returned is the
error of the last such item, whatever errors (worker errors or a failed store write) were
recorded before it; (2) when the first error the writer observes is a failed
`InsertEnvelopes` and no worker error item arrives after it, the error returned is the
error of that call.  So the first error observed is the one returned whenever no worker
error item arrives after it. -/
theorem writer_returned_error {σ : Type} (store : Store σ) (mailbox : String)
    (v : Nat) (items : List Batch) (s : σ) :
    (∀ pre post envs e, items = pre ++ ⟨envs, some e⟩ :: post → (∀ b ∈ post, b.err = none) →
        (writerRun store mailbox v items s).result.2 = some e)
      ∧ (∀ pre b post e, items = pre ++ b :: post →
          (∀ a x c, pre = a ++ x :: c → x.err = none ∧ (x.envelopes ≠ [] →
            (store.insertEnvelopes mailbox x.envelopes
              (writerLoop store mailbox v a ⟨0, 0, none, 0, s, []⟩).store).1 = none)) →
          b.err = none → b.envelopes ≠ [] →
          (store.insertEnvelopes mailbox b.envelopes
            (writerLoop store mailbox v pre ⟨0, 0, none, 0, s, []⟩).store).1 = some e →
          (∀ x ∈ post, x.err = none) →
          (writerRun store mailbox v items s).result.2 = some e) := by
  refine ⟨?_, ?_⟩
  · intro pre post envs e hitems hpost
    subst hitems
    unfold writerRun
    rw [writerLoop_append, writerLoop_cons]
    have h := writerLoop_keeps_error store mailbox v post _ e
      (writerStep_error_item store mailbox v
        (writerLoop store mailbox v pre ⟨0, 0, none, 0, s, []⟩) envs e) hpost
    rw [writerFinish_of_error _ _ _ _ e h]
  · intro pre b post e hitems hpre hb hne hfail hpost
    subst hitems
    unfold writerRun
    rw [writerLoop_append, writerLoop_cons]
    have hw := writerLoop_all_written store mailbox v pre ⟨0, 0, none, 0, s, []⟩ rfl hpre
    have hstep := (writerStep_failed_insert store mailbox v _ b e hw hb hne hfail).1
    have h := writerLoop_keeps_error store mailbox v post _ e hstep hpost
    rw [writerFinish_of_error _ _ _ _ e h]

/-- C12, witness: of two worker errors around a batch the second is returned; and on a
store whose `InsertEnvelopes` fails, the error of the first insert is returned when only
batches follow. -/
theorem writer_returned_error_witness :
    (writerRun specStore "INBOX" 7
        [⟨[], some (.base "first")⟩, ⟨[], some (.base "second")⟩, ⟨[⟨5, ""⟩], none⟩]
        emptyDB).result.2 = some (.base "second")
      ∧ (writerRun fullDiskStore "INBOX" 7 [⟨[⟨5, ""⟩], none⟩, ⟨[⟨6, ""⟩], none⟩]
        emptyDB).result.2 = some (.base "disk full") :=
  ⟨(writer_returned_error specStore "INBOX" 7
      [⟨[], some (.base "first")⟩, ⟨[], some (.base "second")⟩, ⟨[⟨5, ""⟩], none⟩] emptyDB).1
      [⟨[], some (.base "first")⟩] [⟨[⟨5, ""⟩], none⟩] [] (.base "second") rfl (by decide),
    (writer_returned_error fullDiskStore "INBOX" 7 [⟨[⟨5, ""⟩], none⟩, ⟨[⟨6, ""⟩], none⟩]
      emptyDB).2 [] ⟨[⟨5, ""⟩], none⟩ [⟨[⟨6, ""⟩], none⟩] (.base "disk full") rfl
      (by intro a x c h; simp at h) rfl (by decide) rfl (by decide)⟩

/-! ## The checkpoints of the parallel strategy (C14) -/

theorem updateMaxUID_pos (m : Nat) (envs : List Envelope) (h : ∃ e ∈ envs, 0 < e.uid) :
    0 < updateMaxUID m envs := by
  obtain ⟨e, he, hpos⟩ := h
  have := uid_le_updateMaxUID envs m e he
  omega

theorem writerLoop_periodic {σ : Type} (store : Store σ) (mailbox : String) (v : Nat)
    (hins : ∀ envs t, (store.insertEnvelopes mailbox envs t).1 = none)
    (items : List Batch) : ∀ (st : WriterState σ) (n : Nat), st.writeErr = none →
    st.batchesSinceStateUpdate = n % 10 →
    (∀ b ∈ items, b.err = none ∧ ∃ e ∈ b.envelopes, 0 < e.uid) →
    (writerLoop store mailbox v items st).log
      = st.log ++ periodicLog mailbox v n st.maxUID items := by
  induction items with
  | nil => intro st n _ _ _; simp [writerLoop, periodicLog]
  | cons b bs ih =>
    intro st n hw hn hall
    obtain ⟨hb, hpos⟩ := hall b (List.mem_cons_self _ _)
    have hne : b.envelopes.length > 0 := by
      obtain ⟨e, he, _⟩ := hpos
      exact List.length_pos_of_mem he
    have hmax := updateMaxUID_pos st.maxUID b.envelopes hpos
    have hrest : ∀ b' ∈ bs, b'.err = none ∧ ∃ e ∈ b'.envelopes, 0 < e.uid :=
      fun b' hb' => hall b' (List.mem_cons_of_mem _ hb')
    rw [writerLoop_cons]
    by_cases hc : (n + 1) % 10 = 0
    · have hcond : st.batchesSinceStateUpdate + 1 ≥ 10
          ∧ updateMaxUID st.maxUID b.envelopes > 0 := ⟨by omega, hmax⟩
      have hstep : writerStep store mailbox v st b
          = ⟨st.totalFetched + b.envelopes.length, updateMaxUID st.maxUID b.envelopes, none, 0,
              (store.updateMailboxState mailbox v (updateMaxUID st.maxUID b.envelopes)
                (store.insertEnvelopes mailbox b.envelopes st.store).2).2,
              st.log ++ [.insertEnvelopes mailbox b.envelopes,
                .updateMailboxState mailbox v (updateMaxUID st.maxUID b.envelopes)]⟩ := by
        unfold writerStep
        simp only [hb, hw, hne, if_true, hins, hcond, and_self]
      rw [hstep, ih _ (n + 1) rfl (by simp only []; omega) hrest]
      simp [periodicLog, hc]
    · have hcond : ¬ (st.batchesSinceStateUpdate + 1 ≥ 10
          ∧ updateMaxUID st.maxUID b.envelopes > 0) := by
        intro h; omega
      have hstep : writerStep store mailbox v st b
          = ⟨st.totalFetched + b.envelopes.length, updateMaxUID st.maxUID b.envelopes, none,
              st.batchesSinceStateUpdate + 1,
              (store.insertEnvelopes mailbox b.envelopes st.store).2,
              st.log ++ [.insertEnvelopes mailbox b.envelopes]⟩ := by
        unfold writerStep
        simp only [hb, hw, hne, if_true, hins, hcond, if_false]
      rw [hstep, ih _ (n + 1) rfl (by simp only []; omega) hrest]
      simp [periodicLog, hc]

/-- C14, counterexample: when a worker error arrives after a committed batch the strategy
returns without any `UpdateMailboxState` call; and ten consumed batches that carry no
envelope are followed by no checkpoint. -/
theorem no_final_checkpoint_after_error :
    (writerRun specStore "INBOX" 7
        [⟨[⟨5, ""⟩], none⟩, ⟨[], some (.base "fetch failed")⟩] emptyDB).log
        = [.insertEnvelopes "INBOX" [⟨5, ""⟩]]
      ∧ checkpoints (writerRun specStore "INBOX" 7
        [⟨[⟨5, ""⟩], none⟩, ⟨[], some (.base "fetch failed")⟩] emptyDB).log = []
      ∧ checkpoints (writerRun specStore "INBOX" 7
        (List.replicate 10 ⟨[], none⟩) emptyDB).log = [] := by
  refine ⟨by decide, by decide, by decide⟩

theorem writerLoop_written_log {σ : Type} (store : Store σ) (mailbox : String) (v : Nat)
    (pre : List Batch) : ∀ (st : WriterState σ), st.writeErr = none →
    (∀ a b c, pre = a ++ b :: c → b.err = none ∧ (b.envelopes ≠ [] →
      (store.insertEnvelopes mailbox b.envelopes
        (writerLoop store mailbox v a st).store).1 = none)) →
    (writerLoop store mailbox v pre st).log
        = st.log ++ periodicCalls mailbox v st.batchesSinceStateUpdate st.maxUID
            (nonEmptyBatches pre)
      ∧ (writerLoop store mailbox v pre st).maxUID
        = updateMaxUID st.maxUID ((pre.map (fun b => b.envelopes)).flatten) := by
  induction pre with
  | nil => intro st _ _; simp [writerLoop, nonEmptyBatches, periodicCalls, updateMaxUID]
  | cons x xs ih =>
    intro st hw hpre
    rw [writerLoop_cons]
    obtain ⟨hxe, hxi⟩ := hpre [] x xs rfl
    have hrest : ∀ a b c, xs = a ++ b :: c → b.err = none ∧ (b.envelopes ≠ [] →
        (store.insertEnvelopes mailbox b.envelopes
          (writerLoop store mailbox v a (writerStep store mailbox v st x)).store).1
            = none) := by
      intro a b c habc
      have := hpre (x :: a) b c (by rw [habc]; rfl)
      rw [writerLoop_cons] at this
      exact this
    have hmaxsplit : updateMaxUID st.maxUID (((x :: xs).map (fun b => b.envelopes)).flatten)
        = updateMaxUID (updateMaxUID st.maxUID x.envelopes)
            ((xs.map (fun b => b.envelopes)).flatten) := by
      simp only [List.map_cons, List.flatten_cons]
      exact updateMaxUID_append _ _ _
    by_cases hlen : x.envelopes.length > 0
    · have hne : x.envelopes ≠ [] := by intro h; rw [h] at hlen; simp at hlen
      have hins : (store.insertEnvelopes mailbox x.envelopes st.store).1 = none := hxi hne
      have hfilter : nonEmptyBatches (x :: xs) = x :: nonEmptyBatches xs := by
        simp [nonEmptyBatches, hlen]
      by_cases hc : (st.batchesSinceStateUpdate + 1 ≥ 10
          ∧ updateMaxUID st.maxUID x.envelopes > 0)
      · have hstep : writerStep store mailbox v st x
            = ⟨st.totalFetched + x.envelopes.length, updateMaxUID st.maxUID x.envelopes, none,
                0, (store.updateMailboxState mailbox v (updateMaxUID st.maxUID x.envelopes)
                  (store.insertEnvelopes mailbox x.envelopes st.store).2).2,
                st.log ++ [.insertEnvelopes mailbox x.envelopes,
                  .updateMailboxState mailbox v (updateMaxUID st.maxUID x.envelopes)]⟩ := by
          unfold writerStep
          simp only [hxe, hw, hlen, if_true, hins, hc, and_self]
        rw [hstep] at hrest ⊢
        obtain ⟨h1, h2⟩ := ih _ rfl hrest
        rw [h1, h2, hfilter, hmaxsplit]
        refine ⟨?_, rfl⟩
        rw [periodicCalls, if_pos hc]
        simp
      · have hstep : writerStep store mailbox v st x
            = ⟨st.totalFetched + x.envelopes.length, updateMaxUID st.maxUID x.envelopes, none,
                st.batchesSinceStateUpdate + 1,
                (store.insertEnvelopes mailbox x.envelopes st.store).2,
                st.log ++ [.insertEnvelopes mailbox x.envelopes]⟩ := by
          unfold writerStep
          simp only [hxe, hw, hlen, if_true, hins, hc, if_false]
        rw [hstep] at hrest ⊢
        obtain ⟨h1, h2⟩ := ih _ rfl hrest
        rw [h1, h2, hfilter, hmaxsplit]
        refine ⟨?_, rfl⟩
        rw [periodicCalls, if_neg hc]
        simp
    · have hnil : x.envelopes = [] := by
        cases hbe : x.envelopes with
        | nil => rfl
        | cons a l => rw [hbe] at hlen; simp at hlen
      have hstep : writerStep store mailbox v st x = st := by
        unfold writerStep
        simp only [hxe, hw, hlen, if_false]
      have hfilter : nonEmptyBatches (x :: xs) = nonEmptyBatches xs := by
        simp [nonEmptyBatches, hlen]
      rw [hstep] at hrest ⊢
      obtain ⟨h1, h2⟩ := ih st hw hrest
      rw [h1, h2, hfilter, hmaxsplit, hnil]
      simp [updateMaxUID]

theorem periodicCalls_eq_periodicLog (mailbox : String) (v : Nat) (bs : List Batch) :
    ∀ (n m : Nat), (∀ b ∈ bs, ∃ e ∈ b.envelopes, 0 < e.uid) →
      periodicCalls mailbox v (n % 10) m bs = periodicLog mailbox v n m bs := by
  induction bs with
  | nil => intro n m _; rfl
  | cons b rest ih =>
    intro n m hall
    have hpos := updateMaxUID_pos m b.envelopes (hall b (List.mem_cons_self _ _))
    have hrest : ∀ b' ∈ rest, ∃ e ∈ b'.envelopes, 0 < e.uid :=
      fun b' hb' => hall b' (List.mem_cons_of_mem _ hb')
    rw [periodicCalls, periodicLog]
    by_cases hc : (n + 1) % 10 = 0
    · have hcond : n % 10 + 1 ≥ 10 ∧ updateMaxUID m b.envelopes > 0 := ⟨by omega, hpos⟩
      rw [if_pos hcond, if_pos hc]
      have := ih (n + 1) (updateMaxUID m b.envelopes) hrest
      rw [hc] at this
      rw [this]
      rfl
    · have hcond : ¬ (n % 10 + 1 ≥ 10 ∧ updateMaxUID m b.envelopes > 0) := by
        intro h; omega
      rw [if_neg hcond, if_neg hc]
      have := ih (n + 1) (updateMaxUID m b.envelopes) hrest
      rw [show (n + 1) % 10 = n % 10 + 1 by omega] at this
      rw [this]
      rfl

theorem writer_first_error_log {σ : Type} (store : Store σ) (mailbox : String) (v : Nat)
    (st : WriterState σ) (b : Batch) (hw : st.writeErr = none)
    (hbad : b.err ≠ none ∨ (b.envelopes ≠ [] ∧
      (store.insertEnvelopes mailbox b.envelopes st.store).1 ≠ none)) (rest1 : List Batch) :
    (writerStep store mailbox v st b).log = st.log ++ failedInsert mailbox (b :: rest1)
      ∧ (writerStep store mailbox v st b).maxUID = st.maxUID := by
  cases hb : b.err with
  | some e =>
    unfold writerStep
    simp [hb, failedInsert]
  | none =>
    rcases hbad with hbad | ⟨hne, hfail⟩
    · exact absurd hb hbad
    · cases hf : (store.insertEnvelopes mailbox b.envelopes st.store).1 with
      | none => exact absurd hf hfail
      | some e =>
        obtain ⟨_, h2, h3⟩ := writerStep_failed_insert store mailbox v st b e hw hb hne hf
        rw [h2, h3]
        simp [failedInsert, hb]

/-- C14, amended: every sequence of items splits into the items `pre` that are written
(batches whose `InsertEnvelopes`, if they hold envelopes, succeeds) and the items `rest`
from the first recorded error on, if any.  The calls of the writer loop are an
`InsertEnvelopes` for each batch of `pre` that holds envelopes, with a checkpoint of the
running maximum UID right after each such batch when at least 10 of them were inserted
since the previous periodic checkpoint and that maximum is `> 0` (after every 10th inserted
batch when the batches hold a UID `> 0`), followed by the failed `InsertEnvelopes` when the
first error is a store error; empty batches, worker error items and the items after the
first error are not counted and cause no call.  After the queue has been drained one more
checkpoint with the maximum UID of `pre` is written when no error has been recorded and
that maximum is `> 0`; when an error has been recorded or the maximum is 0, no checkpoint
is written after the loop. -/
theorem writer_checkpoints {σ : Type} (store : Store σ) (mailbox : String) (v : Nat)
    (items : List Batch) (s : σ) :
    (∃ pre rest, items = pre ++ rest
        ∧ (∀ a b c, pre = a ++ b :: c → b.err = none ∧ (b.envelopes ≠ [] →
            (store.insertEnvelopes mailbox b.envelopes
              (writerLoop store mailbox v a ⟨0, 0, none, 0, s, []⟩).store).1 = none))
        ∧ (rest = [] ∨ ∃ b rest1, rest = b :: rest1
            ∧ (b.err ≠ none ∨ (b.envelopes ≠ [] ∧
                (store.insertEnvelopes mailbox b.envelopes
                  (writerLoop store mailbox v pre ⟨0, 0, none, 0, s, []⟩).store).1 ≠ none))))
      ∧ (∀ pre rest, items = pre ++ rest →
          (∀ a b c, pre = a ++ b :: c → b.err = none ∧ (b.envelopes ≠ [] →
            (store.insertEnvelopes mailbox b.envelopes
              (writerLoop store mailbox v a ⟨0, 0, none, 0, s, []⟩).store).1 = none)) →
          (rest = [] ∨ ∃ b rest1, rest = b :: rest1
            ∧ (b.err ≠ none ∨ (b.envelopes ≠ [] ∧
                (store.insertEnvelopes mailbox b.envelopes
                  (writerLoop store mailbox v pre ⟨0, 0, none, 0, s, []⟩).store).1 ≠ none))) →
          (writerLoop store mailbox v items ⟨0, 0, none, 0, s, []⟩).log
              = periodicCalls mailbox v 0 0 (nonEmptyBatches pre) ++ failedInsert mailbox rest
            ∧ ((∀ b ∈ nonEmptyBatches pre, ∃ e ∈ b.envelopes, 0 < e.uid) →
                periodicCalls mailbox v 0 0 (nonEmptyBatches pre)
                  = periodicLog mailbox v 0 0 (nonEmptyBatches pre))
            ∧ ((rest = [] ∧ 0 < updateMaxUID 0 ((pre.map (fun b => b.envelopes)).flatten)) →
                (writerRun store mailbox v items s).log
                  = (writerLoop store mailbox v items ⟨0, 0, none, 0, s, []⟩).log
                    ++ [.updateMailboxState mailbox v
                        (updateMaxUID 0 ((pre.map (fun b => b.envelopes)).flatten))])
            ∧ ((rest ≠ [] ∨ updateMaxUID 0 ((pre.map (fun b => b.envelopes)).flatten) = 0) →
                (writerRun store mailbox v items s).log
                  = (writerLoop store mailbox v items ⟨0, 0, none, 0, s, []⟩).log))
      ∧ (((∀ envs t, (store.insertEnvelopes mailbox envs t).1 = none)
        ∧ (∀ b ∈ items, b.err = none ∧ ∃ e ∈ b.envelopes, 0 < e.uid)) →
        (writerLoop store mailbox v items ⟨0, 0, none, 0, s, []⟩).log
          = periodicLog mailbox v 0 0 items)
      ∧ (((writerLoop store mailbox v items ⟨0, 0, none, 0, s, []⟩).writeErr = none
          ∧ 0 < (writerLoop store mailbox v items ⟨0, 0, none, 0, s, []⟩).maxUID) →
        (writerRun store mailbox v items s).log
          = (writerLoop store mailbox v items ⟨0, 0, none, 0, s, []⟩).log
            ++ [.updateMailboxState mailbox v
                (writerLoop store mailbox v items ⟨0, 0, none, 0, s, []⟩).maxUID])
      ∧ (((writerLoop store mailbox v items ⟨0, 0, none, 0, s, []⟩).writeErr ≠ none
          ∨ (writerLoop store mailbox v items ⟨0, 0, none, 0, s, []⟩).maxUID = 0) →
        (writerRun store mailbox v items s).log
          = (writerLoop store mailbox v items ⟨0, 0, none, 0, s, []⟩).log) := by
  have hfinal : ((writerLoop store mailbox v items ⟨0, 0, none, 0, s, []⟩).writeErr = none
      ∧ 0 < (writerLoop store mailbox v items ⟨0, 0, none, 0, s, []⟩).maxUID) →
      (writerRun store mailbox v items s).log
        = (writerLoop store mailbox v items ⟨0, 0, none, 0, s, []⟩).log
          ++ [.updateMailboxState mailbox v
              (writerLoop store mailbox v items ⟨0, 0, none, 0, s, []⟩).maxUID] := by
    rintro ⟨hw, hm⟩
    unfold writerRun writerFinish
    cases hu : (store.updateMailboxState mailbox v
        (writerLoop store mailbox v items ⟨0, 0, none, 0, s, []⟩).maxUID
        (writerLoop store mailbox v items ⟨0, 0, none, 0, s, []⟩).store).1 <;>
      simp only [hw, hm, hu, gt_iff_lt, if_true]
  have hnone : ((writerLoop store mailbox v items ⟨0, 0, none, 0, s, []⟩).writeErr ≠ none
      ∨ (writerLoop store mailbox v items ⟨0, 0, none, 0, s, []⟩).maxUID = 0) →
      (writerRun store mailbox v items s).log
        = (writerLoop store mailbox v items ⟨0, 0, none, 0, s, []⟩).log := by
    intro h
    unfold writerRun writerFinish
    cases hw : (writerLoop store mailbox v items ⟨0, 0, none, 0, s, []⟩).writeErr with
    | some e => rfl
    | none =>
      rcases h with h | h
      · exact absurd hw h
      · simp only [h, gt_iff_lt, Nat.lt_irrefl, if_false]
  refine ⟨?_, ?_, ?_, hfinal, hnone⟩
  · obtain ⟨pre, rest, e1, e2, _, _, e5, _⟩ :=
      writer_committed_part store mailbox v items ⟨0, 0, none, 0, s, []⟩ rfl
    refine ⟨pre, rest, e1, e2, ?_⟩
    rcases e5 with e5 | ⟨b, rest1, g1, g2, _, _⟩
    · exact Or.inl e5
    · exact Or.inr ⟨b, rest1, g1, g2⟩
  · intro pre rest hsplit hpre hrest
    have hw := writerLoop_all_written store mailbox v pre ⟨0, 0, none, 0, s, []⟩ rfl hpre
    obtain ⟨hlog, hmax⟩ :=
      writerLoop_written_log store mailbox v pre ⟨0, 0, none, 0, s, []⟩ rfl hpre
    simp only [List.nil_append] at hlog
    have key : (writerLoop store mailbox v items ⟨0, 0, none, 0, s, []⟩).log
          = periodicCalls mailbox v 0 0 (nonEmptyBatches pre) ++ failedInsert mailbox rest
        ∧ (writerLoop store mailbox v items ⟨0, 0, none, 0, s, []⟩).maxUID
          = updateMaxUID 0 ((pre.map (fun b => b.envelopes)).flatten)
        ∧ ((writerLoop store mailbox v items ⟨0, 0, none, 0, s, []⟩).writeErr = none
          ↔ rest = []) := by
      rcases hrest with hr | ⟨b, rest1, hr, hbad⟩
      · rw [hsplit, hr, List.append_nil]
        exact ⟨by rw [hlog]; simp [failedInsert], hmax, by simp [hw]⟩
      · rw [hsplit, hr, writerLoop_append, writerLoop_cons]
        obtain ⟨h1, h2⟩ := writer_first_error_log store mailbox v _ b hw hbad rest1
        have hne : (writerStep store mailbox v
            (writerLoop store mailbox v pre ⟨0, 0, none, 0, s, []⟩) b).writeErr ≠ none := by
          rcases writerStep_cases store mailbox v _ b hw with ⟨hok, _⟩ | ⟨_, h, _⟩
          · rcases hbad with hb | ⟨hne, hf⟩
            · exact absurd hok.1 hb
            · exact absurd (hok.2 hne) hf
          · exact h
        obtain ⟨g1, g2, _, _, g5⟩ := writerLoop_frozen store mailbox v rest1 _ hne
        refine ⟨by rw [g2, h1, hlog], by rw [g5, h2, hmax], ?_⟩
        constructor
        · intro h; exact absurd h g1
        · intro h; simp at h
    refine ⟨key.1, ?_, ?_, ?_⟩
    · intro hpos
      have := periodicCalls_eq_periodicLog mailbox v (nonEmptyBatches pre) 0 0 hpos
      simpa using this
    · rintro ⟨hr, hm⟩
      rw [← key.2.1] at hm ⊢
      exact hfinal ⟨key.2.2.mpr hr, hm⟩
    · intro h
      apply hnone
      rcases h with h | h
      · exact Or.inl (fun hw2 => h (key.2.2.mp hw2))
      · exact Or.inr (by rw [key.2.1]; exact h)
  · rintro ⟨hins, hall⟩
    have := writerLoop_periodic store mailbox v hins items ⟨0, 0, none, 0, s, []⟩ 0 rfl rfl hall
    simpa using this

/-- C14, witness: nine batches, an empty batch and three more batches give the checkpoint
after the 10th inserted batch and the final one; ten batches followed by a worker error
give the periodic checkpoint and no final one. -/
theorem writer_checkpoints_witness :
    checkpoints (writerRun specStore "INBOX" 7
        (List.replicate 9 ⟨[⟨5, ""⟩], none⟩
          ++ [⟨[], none⟩, ⟨[⟨6, ""⟩], none⟩, ⟨[⟨7, ""⟩], none⟩, ⟨[⟨8, ""⟩], none⟩])
        emptyDB).log = [6, 8]
      ∧ checkpoints (writerRun specStore "INBOX" 7
        (List.replicate 10 ⟨[⟨5, ""⟩], none⟩ ++ [⟨[], some (.base "fetch failed")⟩])
        emptyDB).log = [5] := by
  constructor
  · obtain ⟨h1, _, h3, _⟩ := (writer_checkpoints specStore "INBOX" 7
      (List.replicate 9 ⟨[⟨5, ""⟩], none⟩
        ++ [⟨[], none⟩, ⟨[⟨6, ""⟩], none⟩, ⟨[⟨7, ""⟩], none⟩, ⟨[⟨8, ""⟩], none⟩])
      emptyDB).2.1
      (List.replicate 9 ⟨[⟨5, ""⟩], none⟩
        ++ [⟨[], none⟩, ⟨[⟨6, ""⟩], none⟩, ⟨[⟨7, ""⟩], none⟩, ⟨[⟨8, ""⟩], none⟩]) []
      (by simp)
      (by
        intro a b c habc
        have hb : b ∈ a ++ b :: c := by simp
        rw [← habc] at hb
        have hall : ∀ x ∈ (List.replicate 9 (⟨[⟨5, ""⟩], none⟩ : Batch)
            ++ [⟨[], none⟩, ⟨[⟨6, ""⟩], none⟩, ⟨[⟨7, ""⟩], none⟩, ⟨[⟨8, ""⟩], none⟩]),
            x.err = none := by decide
        exact ⟨hall b hb, fun _ => rfl⟩)
      (Or.inl rfl)
    rw [h3 ⟨rfl, by decide⟩, h1]
    decide
  · obtain ⟨h1, _, _, h4⟩ := (writer_checkpoints specStore "INBOX" 7
      (List.replicate 10 ⟨[⟨5, ""⟩], none⟩ ++ [⟨[], some (.base "fetch failed")⟩])
      emptyDB).2.1
      (List.replicate 10 ⟨[⟨5, ""⟩], none⟩) [⟨[], some (.base "fetch failed")⟩]
      rfl
      (by
        intro a b c habc
        have hb : b ∈ a ++ b :: c := by simp
        rw [← habc] at hb
        have hall : ∀ x ∈ List.replicate 10 (⟨[⟨5, ""⟩], none⟩ : Batch), x.err = none := by
          decide
        exact ⟨hall b hb, fun _ => rfl⟩)
      (Or.inr ⟨_, [], rfl, Or.inl (by decide)⟩)
    rw [h4 (Or.inl (by simp)), h1]
    decide

/-! ## The final checkpoint does not depend on the arrival order (C18) -/

theorem foldl_max_perm {xs ys : List Nat} (h : xs.Perm ys) (hne : xs ≠ []) :
    xs.foldl max 0 = ys.foldl max 0 := by
  have hne2 : ys ≠ [] := by
    intro h2; rw [h2] at h; exact hne (List.Perm.eq_nil h)
  have h1 := foldl_max_zero_mem xs hne
  have h2 := foldl_max_zero_mem ys hne2
  have a := foldl_max_upper ys 0 _ (h.mem_iff.mp h1)
  have b := foldl_max_upper xs 0 _ (h.mem_iff.mpr h2)
  omega

theorem writerRun_all_written {σ : Type} (store : Store σ) (mailbox : String) (v : Nat)
    (items : List Batch) (s : σ)
    (hok : ∀ b ∈ items, b.err = none)
    (hpos : ∃ u ∈ itemUIDs items, 0 < u)
    (hins : ∀ envs t, (store.insertEnvelopes mailbox envs t).1 = none)
    (hupd : ∀ x t, (store.updateMailboxState mailbox v x t).1 = none)
    (hread : ∀ x t, store.getMailboxState mailbox (store.updateMailboxState mailbox v x t).2
      = .ok (some ⟨v, x⟩)) :
    (writerRun store mailbox v items s).result = ((itemUIDs items).length, none)
      ∧ store.getMailboxState mailbox (writerRun store mailbox v items s).store
          = .ok (some ⟨v, (itemUIDs items).foldl max 0⟩) := by
  obtain ⟨h1, h2, h3⟩ := writerLoop_ideal store mailbox v hins items ⟨0, 0, none, 0, s, []⟩ rfl hok
  obtain ⟨u, hu, hu0⟩ := hpos
  have hm : (writerLoop store mailbox v items ⟨0, 0, none, 0, s, []⟩).maxUID > 0 := by
    rw [h3]
    have := foldl_max_upper (itemUIDs items) 0 u hu
    show 0 < List.foldl max 0 (itemUIDs items)
    omega
  unfold writerRun writerFinish
  simp only [h1, hm, if_true, hupd]
  refine ⟨?_, ?_⟩
  · rw [h2]; simp
  · rw [hread, h3]

/-- C18: let the same successfully fetched batches, with at least one envelope of UID
`> 0`, arrive in two orders, on a store whose writes succeed and which reads back the state
last written.  Both runs return a nil error and persist the same `last_synced_uid`, the
maximum UID over all envelopes of the batches. -/
theorem final_checkpoint_is_order_independent {σ : Type} (store : Store σ)
    (mailbox : String) (v : Nat) (items1 items2 : List Batch) (s : σ)
    (hperm : items1.Perm items2)
    (hok : ∀ b ∈ items1, b.err = none)
    (hpos : ∃ u ∈ itemUIDs items1, 0 < u)
    (hins : ∀ envs t, (store.insertEnvelopes mailbox envs t).1 = none)
    (hupd : ∀ x t, (store.updateMailboxState mailbox v x t).1 = none)
    (hread : ∀ x t, store.getMailboxState mailbox (store.updateMailboxState mailbox v x t).2
      = .ok (some ⟨v, x⟩)) :
    ∃ maxUID, maxUID ∈ itemUIDs items1 ∧ (∀ u ∈ itemUIDs items1, u ≤ maxUID)
      ∧ (writerRun store mailbox v items1 s).result.2 = none
      ∧ (writerRun store mailbox v items2 s).result.2 = none
      ∧ store.getMailboxState mailbox (writerRun store mailbox v items1 s).store
          = .ok (some ⟨v, maxUID⟩)
      ∧ store.getMailboxState mailbox (writerRun store mailbox v items2 s).store
          = .ok (some ⟨v, maxUID⟩) := by
  have hp := itemUIDs_perm hperm
  obtain ⟨u, hu, hu0⟩ := hpos
  have hne : itemUIDs items1 ≠ [] := by
    intro h; rw [h] at hu; simp at hu
  have hok2 : ∀ b ∈ items2, b.err = none := fun b hb => hok b (hperm.mem_iff.mpr hb)
  obtain ⟨a1, a2⟩ := writerRun_all_written store mailbox v items1 s hok ⟨u, hu, hu0⟩
    hins hupd hread
  obtain ⟨b1, b2⟩ := writerRun_all_written store mailbox v items2 s hok2
    ⟨u, hp.mem_iff.mp hu, hu0⟩ hins hupd hread
  refine ⟨(itemUIDs items1).foldl max 0, foldl_max_zero_mem _ hne,
    fun w hw => foldl_max_upper _ 0 w hw, ?_, ?_, a2, ?_⟩
  · rw [a1]
  · rw [b1]
  · rw [b2, foldl_max_perm hp hne]

/-- C18, witness: two batches in both orders persist `last_synced_uid = 9`. -/
theorem final_checkpoint_is_order_independent_witness :
    ((writerRun specStore "INBOX" 7 [⟨[⟨3, ""⟩, ⟨9, ""⟩], none⟩, ⟨[⟨4, ""⟩], none⟩]
        emptyDB).store "INBOX").state = some ⟨7, 9⟩
      ∧ ((writerRun specStore "INBOX" 7 [⟨[⟨4, ""⟩], none⟩, ⟨[⟨3, ""⟩, ⟨9, ""⟩], none⟩]
        emptyDB).store "INBOX").state = some ⟨7, 9⟩ := by
  obtain ⟨m, hm, hub, _, _, h1, h2⟩ := final_checkpoint_is_order_independent specStore
    "INBOX" 7 [⟨[⟨3, ""⟩, ⟨9, ""⟩], none⟩, ⟨[⟨4, ""⟩], none⟩]
    [⟨[⟨4, ""⟩], none⟩, ⟨[⟨3, ""⟩, ⟨9, ""⟩], none⟩] emptyDB
    (List.Perm.swap _ _ _) (by decide) ⟨9, by decide, by decide⟩ (fun _ _ => rfl)
    (fun _ _ => rfl) (fun _ _ => specStore_read_back _ _ _ _)
  have h9 : m = 9 := by
    have := hub 9 (by decide)
    have hm2 : m ∈ [3, 9, 4] := hm
    simp at hm2
    omega
  subst h9
  exact ⟨Except.ok.inj h1, Except.ok.inj h2⟩

/-! ## What `Sync` returns when the strategy fails (C16) -/

theorem Sync_reaches_fetch {σ : Type} (conn : Connector) (store : Store σ)
    (sched : List Nat) (mailbox : String) (opts : Option SyncOptions) (s s1 : σ)
    (mbox : MailboxInfo) (state : Option MailboxState) (cachedUIDs : Finset Nat)
    (serverUIDs : List Nat)
    (hopen : store.openCache = none) (hconn : conn.connect .main = none)
    (hsel : conn.selectMailbox .main mailbox = .ok mbox) (hnum : mbox.numMessages ≠ 0)
    (hstate : store.getMailboxState mailbox s = .ok state)
    (hclear : (store.clearMailbox mailbox s).1 = none)
    (hs1 : s1 = if staleState state mbox then (store.clearMailbox mailbox s).2 else s)
    (hcached : store.getCachedUIDs mailbox s1 = .ok cachedUIDs)
    (hall : conn.getAllUIDs .main = .ok serverUIDs)
    (hmissing : missingUIDs serverUIDs cachedUIDs ≠ []) :
    (Sync conn store sched mailbox opts s).result
        = (syncFetch conn store sched mailbox (normalizeOpts opts) mbox cachedUIDs.card
            (missingUIDs serverUIDs cachedUIDs) s1).result
      ∧ (Sync conn store sched mailbox opts s).store
        = (syncFetch conn store sched mailbox (normalizeOpts opts) mbox cachedUIDs.card
            (missingUIDs serverUIDs cachedUIDs) s1).store
      ∧ (Sync conn store sched mailbox opts s).log
        = [.openCache, .connect .main, .selectMailbox .main mailbox, .getMailboxState mailbox]
          ++ (if staleState state mbox then [.clearMailbox mailbox] else [])
          ++ [.getCachedUIDs mailbox, .getAllUIDs .main]
          ++ (syncFetch conn store sched mailbox (normalizeOpts opts) mbox cachedUIDs.card
            (missingUIDs serverUIDs cachedUIDs) s1).log := by
  obtain ⟨hr, hs, hl⟩ := Sync_reaches_body conn store sched mailbox opts s s1 mbox state
    hopen hconn hsel hstate hclear hs1
  have hlen : ¬ (missingUIDs serverUIDs cachedUIDs).length = 0 := by
    intro h; exact hmissing (List.length_eq_zero.mp h)
  have hbody : syncBody conn store sched mailbox (normalizeOpts opts) mbox s1
      = ⟨(syncFetch conn store sched mailbox (normalizeOpts opts) mbox cachedUIDs.card
            (missingUIDs serverUIDs cachedUIDs) s1).result,
          (syncFetch conn store sched mailbox (normalizeOpts opts) mbox cachedUIDs.card
            (missingUIDs serverUIDs cachedUIDs) s1).store,
          .getCachedUIDs mailbox :: .getAllUIDs .main ::
            (syncFetch conn store sched mailbox (normalizeOpts opts) mbox cachedUIDs.card
              (missingUIDs serverUIDs cachedUIDs) s1).log⟩ := by
    unfold syncBody
    simp only [hnum, if_false, hcached, hall, hlen]
  rw [hbody] at hr hs hl
  exact ⟨hr, hs, by rw [hl]; simp⟩

/-- C16, amended: in a run of `Sync` that reaches the fetch (the cache opens, the session of
`Sync` connects and selects, the state is read, a stale cache is cleared, the cached and the
server UIDs are read, and at least one UID is missing), the store is left as the chosen
strategy leaves it; when the strategy returns the count `k` with an error, `Sync` returns
that error and nothing else, whatever `k` is; when it returns `k` with a nil error, `Sync`
returns the complete result with `new_messages = k` and `total_cached = len(cached) + k`. -/
theorem sync_drops_partial_count {σ : Type} (conn : Connector) (store : Store σ)
    (sched : List Nat) (mailbox : String) (opts : Option SyncOptions) (s s1 : σ)
    (mbox : MailboxInfo) (state : Option MailboxState) (cachedUIDs : Finset Nat)
    (serverUIDs : List Nat)
    (hopen : store.openCache = none) (hconn : conn.connect .main = none)
    (hsel : conn.selectMailbox .main mailbox = .ok mbox) (hnum : mbox.numMessages ≠ 0)
    (hstate : store.getMailboxState mailbox s = .ok state)
    (hclear : (store.clearMailbox mailbox s).1 = none)
    (hs1 : s1 = if staleState state mbox then (store.clearMailbox mailbox s).2 else s)
    (hcached : store.getCachedUIDs mailbox s1 = .ok cachedUIDs)
    (hall : conn.getAllUIDs .main = .ok serverUIDs)
    (hmissing : missingUIDs serverUIDs cachedUIDs ≠ []) :
    ∃ strategy : Run σ (Nat × Option Err),
      strategy = (if (normalizeOpts opts).workers > 1
            ∧ (missingUIDs serverUIDs cachedUIDs).length > 100 then
          fetchMissingUIDsParallel conn store sched mailbox mbox.uidValidity
            (missingUIDs serverUIDs cachedUIDs) (normalizeOpts opts) s1
        else
          fetchMissingUIDs conn store mailbox mbox.uidValidity
            (missingUIDs serverUIDs cachedUIDs) (normalizeOpts opts) s1)
      ∧ (Sync conn store sched mailbox opts s).store = strategy.store
      ∧ (∀ k e, strategy.result = (k, some e) →
          (Sync conn store sched mailbox opts s).result = .error e)
      ∧ (∀ k, strategy.result = (k, none) →
          (Sync conn store sched mailbox opts s).result
            = .ok ⟨mailbox, k, cachedUIDs.card + k,
                if k = 0 then "already up to date"
                else "synced " ++ toString k ++ " new messages"⟩) := by
  obtain ⟨hr, hs, _⟩ := Sync_reaches_fetch conn store sched mailbox opts s s1 mbox state
    cachedUIDs serverUIDs hopen hconn hsel hnum hstate hclear hs1 hcached hall hmissing
  refine ⟨_, rfl, ?_, ?_, ?_⟩
  · rw [hs]
    unfold syncFetch
    rw [syncResult_store]
    by_cases h : (normalizeOpts opts).workers > 1
        ∧ (missingUIDs serverUIDs cachedUIDs).length > 100
    · simp [h]
    · rw [if_neg h]
      simp only [Bool.and_eq_true, decide_eq_true_eq, h, if_false]
  · intro k e hk
    rw [hr]
    unfold syncFetch syncResult
    by_cases h : (normalizeOpts opts).workers > 1
        ∧ (missingUIDs serverUIDs cachedUIDs).length > 100
    · rw [if_pos h] at hk
      simp [h, hk]
    · rw [if_neg h] at hk
      simp only [Bool.and_eq_true, decide_eq_true_eq, h, if_false, hk]
  · intro k hk
    rw [hr]
    unfold syncFetch syncResult
    by_cases h : (normalizeOpts opts).workers > 1
        ∧ (missingUIDs serverUIDs cachedUIDs).length > 100
    · rw [if_pos h] at hk
      simp [h, hk]
    · rw [if_neg h] at hk
      simp only [Bool.and_eq_true, decide_eq_true_eq, h, if_false, hk]

theorem flaky_first_batch (failAt : Nat) :
    (fetchMissingUIDs (flakyConn 7 (List.range' 1 501) failAt) specStore "INBOX" 7
      (List.range' 1 501) ⟨1, false⟩ emptyDB).result
      = (if failAt = 0 then 0 else if failAt = 1 then 500 else 501,
          if failAt = 0 ∨ failAt = 1 then some (.base "connection reset") else none) := by
  by_cases h0 : failAt = 0
  · subst h0
    simp [fetchMissingUIDs, flakyConn, idealConn, fetchLoop, slice, batchSize]
  · by_cases h1 : failAt = 1
    · subst h1
      simp [fetchMissingUIDs, flakyConn, idealConn, fetchLoop, slice, batchSize, specStore]
    · have h0' : ¬ 0 = failAt := fun h => h0 h.symm
      have h1' : ¬ 1 = failAt := fun h => h1 h.symm
      simp [fetchMissingUIDs, flakyConn, idealConn, fetchLoop, slice, batchSize, specStore, h0,
        h1, h0', h1']

theorem missingUIDs_empty_cache (serverUIDs : List Nat) :
    missingUIDs serverUIDs ∅ = serverUIDs := by
  rw [missingUIDs_eq_filter]
  simp

theorem Sync_flaky (failAt : Nat) :
    (Sync (flakyConn 7 (List.range' 1 501) failAt) specStore [] "INBOX" none emptyDB).result
      = (syncResult "INBOX" 0 (fetchMissingUIDs (flakyConn 7 (List.range' 1 501) failAt)
          specStore "INBOX" 7 (List.range' 1 501) ⟨1, false⟩ emptyDB)).result := by
  obtain ⟨hr, _, _⟩ := Sync_reaches_fetch (flakyConn 7 (List.range' 1 501) failAt) specStore []
    "INBOX" none emptyDB emptyDB ⟨7, (List.range' 1 501).length⟩ none ∅ (List.range' 1 501)
    rfl rfl rfl (by simp) rfl rfl rfl rfl rfl (by rw [missingUIDs_empty_cache]; simp)
  rw [hr, missingUIDs_empty_cache]
  rfl

/-- C16, counterexample: with an empty cache and the server UIDs 1..501, the sequential
strategy returns `(500, err)` when the second fetch fails and `(0, err)` when the first one
fails; `Sync` returns the same value in both runs, the error alone, so what it returns does
not carry the count. -/
theorem sync_error_carries_no_count :
    (fetchMissingUIDs (flakyConn 7 (List.range' 1 501) 1) specStore "INBOX" 7
        (List.range' 1 501) ⟨1, false⟩ emptyDB).result
        = (500, some (.base "connection reset"))
      ∧ (fetchMissingUIDs (flakyConn 7 (List.range' 1 501) 0) specStore "INBOX" 7
        (List.range' 1 501) ⟨1, false⟩ emptyDB).result
        = (0, some (.base "connection reset"))
      ∧ (Sync (flakyConn 7 (List.range' 1 501) 1) specStore [] "INBOX" none emptyDB).result
        = .error (.base "connection reset")
      ∧ (Sync (flakyConn 7 (List.range' 1 501) 0) specStore [] "INBOX" none emptyDB).result
        = .error (.base "connection reset") := by
  have h1 := flaky_first_batch 1
  have h0 := flaky_first_batch 0
  simp only [if_true, if_false, one_ne_zero, true_or, or_true] at h1 h0
  refine ⟨h1, h0, ?_, ?_⟩
  · rw [Sync_flaky, syncResult, h1]
  · rw [Sync_flaky, syncResult, h0]

/-- C16, witness: with an empty cache, 501 server UIDs and a connector whose second fetch
fails, the sequential strategy returns 500 with the error and `Sync` returns the error. -/
theorem sync_drops_partial_count_witness :
    (Sync (flakyConn 7 (List.range' 1 501) 1) specStore [] "INBOX" none emptyDB).result
        = .error (.base "connection reset") := by
  obtain ⟨strategy, hstrat, _, herr, _⟩ := sync_drops_partial_count
    (flakyConn 7 (List.range' 1 501) 1) specStore []
    "INBOX" none emptyDB emptyDB ⟨7, (List.range' 1 501).length⟩ none ∅ (List.range' 1 501)
    rfl rfl rfl (by simp) rfl rfl rfl rfl rfl (by rw [missingUIDs_empty_cache]; simp)
  rw [missingUIDs_empty_cache, if_neg (by decide)] at hstrat
  have h1 := flaky_first_batch 1
  simp only [if_true, if_false, one_ne_zero, true_or, or_true] at h1
  exact herr 500 _ (by rw [hstrat]; exact h1)

/-! ## The errors of the calls against the error `Sync` returns (C15) -/

theorem outcomes_append {σ : Type} (conn : Connector) (store : Store σ) (l1 l2 : List Call) :
    ∀ (n : ConnId → Nat) (s : σ),
    outcomes conn store (l1 ++ l2) n s
      = outcomes conn store l1 n s
        ++ outcomes conn store l2 (stateAfter conn store l1 n s).1
            (stateAfter conn store l1 n s).2 := by
  induction l1 with
  | nil => intro n s; rfl
  | cons c rest ih =>
    intro n s
    rw [List.cons_append, outcomes, outcomes, stateAfter, ih, List.cons_append]

theorem stateAfter_append {σ : Type} (conn : Connector) (store : Store σ) (l1 l2 : List Call) :
    ∀ (n : ConnId → Nat) (s : σ),
    stateAfter conn store (l1 ++ l2) n s
      = stateAfter conn store l2 (stateAfter conn store l1 n s).1
            (stateAfter conn store l1 n s).2 := by
  induction l1 with
  | nil => intro n s; rfl
  | cons c rest ih =>
    intro n s
    rw [List.cons_append, stateAfter, stateAfter, ih]

theorem mem_dropLast_or_getLast {α : Type} (l : List α) (p : α) (h : p ∈ l) :
    p ∈ l.dropLast ∨ l.getLast? = some p := by
  induction l with
  | nil => simp at h
  | cons a rest ih =>
    cases rest with
    | nil => simp at h; right; simp [h]
    | cons b rest2 =>
      rw [List.dropLast_cons₂, List.getLast?_cons_cons]
      rcases List.mem_cons.mp h with h | h
      · left; exact List.mem_cons.mpr (Or.inl h)
      · rcases ih h with h2 | h2
        · left; exact List.mem_cons_of_mem _ h2
        · right; exact h2

theorem Surfaces.mono {dropped dropped2 : Call → Prop} {sent sent2 : Err → Prop}
    {O : List (Call × Option Err)} {res : Option Err}
    (h : Surfaces dropped sent O res) (hd : ∀ c, dropped c → dropped2 c)
    (hs : ∀ e, sent e → sent2 e) : Surfaces dropped2 sent2 O res := by
  obtain ⟨h1, h2, h3⟩ := h
  refine ⟨fun p hp hne => hd _ (h1 p hp hne), ?_, ?_⟩
  · intro c e0 hl
    rcases h2 c e0 hl with h | ⟨e, he, hse⟩
    · exact Or.inl h
    · exact Or.inr ⟨e, he, hs e hse⟩
  · intro e he
    rcases h3 e he with h | h
    · exact Or.inl h
    · exact Or.inr (hs e h)

theorem Surfaces.nil (dropped : Call → Prop) (sent : Err → Prop) :
    Surfaces dropped sent [] none := by
  refine ⟨?_, ?_, ?_⟩ <;> simp

theorem Surfaces.failed (dropped : Call → Prop) (sent : Err → Prop) (c : Call) (e0 : Err) :
    Surfaces dropped sent [(c, some e0)] (some (surfaced c e0)) := by
  refine ⟨?_, ?_, ?_⟩
  · simp
  · intro c1 e1 h
    simp at h
    obtain ⟨rfl, rfl⟩ := h
    exact Or.inl rfl
  · intro e he
    simp at he
    exact Or.inl ⟨c, e0, by simp, he.symm⟩

theorem Surfaces.cons {dropped : Call → Prop} {sent : Err → Prop}
    {O : List (Call × Option Err)} {res : Option Err} (c : Call)
    (h : Surfaces dropped sent O res) : Surfaces dropped sent ((c, none) :: O) res := by
  obtain ⟨h1, h2, h3⟩ := h
  cases O with
  | nil =>
    refine ⟨?_, ?_, ?_⟩
    · simp
    · intro c1 e1 hl
      simp at hl
    · intro e he
      rcases h3 e he with ⟨c1, e1, hl, _⟩ | hs
      · simp at hl
      · exact Or.inr hs
  | cons a rest =>
    refine ⟨?_, ?_, ?_⟩
    · intro p hp hne
      rw [List.dropLast_cons₂] at hp
      rcases List.mem_cons.mp hp with hp | hp
      · subst hp; exact absurd rfl hne
      · exact h1 p hp hne
    · intro c1 e1 hl
      rw [List.getLast?_cons_cons] at hl
      exact h2 c1 e1 hl
    · intro e he
      rcases h3 e he with ⟨c1, e1, hl, he1⟩ | hs
      · exact Or.inl ⟨c1, e1, by rw [List.getLast?_cons_cons]; exact hl, he1⟩
      · exact Or.inr hs

theorem fetchLoop_surfaces {σ : Type} (conn : Connector) (store : Store σ) (mailbox : String)
    (v : Nat) (uids : List Nat) (dropped : Call → Prop) (sent : Err → Prop) :
    ∀ (m i k total maxUID : Nat) (s : σ) (n : ConnId → Nat), uids.length - i = m →
      n .sequential = k →
      Surfaces dropped sent
        (outcomes conn store (fetchLoop conn store mailbox v uids i k total maxUID s).log n s)
        (fetchLoop conn store mailbox v uids i k total maxUID s).result.2 := by
  intro m
  induction m using Nat.strong_induction_on with
  | _ m ih =>
    intro i k total maxUID s n hm hk
    rw [fetchLoop]
    by_cases hi : i < uids.length
    · simp only [hi, if_true]
      cases hf : conn.fetchEnvelopesByUID .sequential k
          (slice uids i (if i + batchSize > uids.length then uids.length else i + batchSize)) with
      | error err =>
        simp only [outcomes, callOutcome, hk, hf, errOf]
        exact Surfaces.failed _ _ _ _
      | ok envs =>
        simp only []
        by_cases hlen : envs.length > 0
        · simp only [hlen, if_true]
          cases hins : (store.insertEnvelopes mailbox envs s).1 with
          | some err =>
            simp only [outcomes, callOutcome, hk, hf, errOf, hins]
            exact Surfaces.cons _ (Surfaces.failed _ _ _ _)
          | none =>
            simp only []
            cases hupd : (store.updateMailboxState mailbox v (updateMaxUID maxUID envs)
                (store.insertEnvelopes mailbox envs s).2).1 with
            | some err =>
              simp only [outcomes, callOutcome, hk, hf, errOf, hins, hupd]
              exact Surfaces.cons _ (Surfaces.cons _ (Surfaces.failed _ _ _ _))
            | none =>
              simp only [outcomes, callOutcome, hk, hf, errOf, hins, hupd]
              refine Surfaces.cons _ (Surfaces.cons _ (Surfaces.cons _ ?_))
              exact ih (uids.length - (i + batchSize)) (by simp only [batchSize]; omega) _ _ _ _
                _ _ rfl (by simp)
        · simp only [hlen, if_false]
          simp only [outcomes, callOutcome, hk, hf, errOf]
          refine Surfaces.cons _ ?_
          exact ih (uids.length - (i + batchSize)) (by simp only [batchSize]; omega) _ _ _ _
            _ _ rfl (by simp)
    · simp only [hi, if_false, outcomes]
      exact Surfaces.nil _ _

theorem fetchMissingUIDs_surfaces {σ : Type} (conn : Connector) (store : Store σ)
    (mailbox : String) (v : Nat) (uids : List Nat) (opts : SyncOptions) (s : σ)
    (dropped : Call → Prop) (sent : Err → Prop) (n : ConnId → Nat) (hn : n .sequential = 0) :
    Surfaces dropped sent
      (outcomes conn store (fetchMissingUIDs conn store mailbox v uids opts s).log n s)
      (fetchMissingUIDs conn store mailbox v uids opts s).result.2 := by
  unfold fetchMissingUIDs
  cases hc : conn.connect .sequential with
  | some err =>
    simp only [outcomes, callOutcome, hc]
    exact Surfaces.failed _ _ _ _
  | none =>
    simp only []
    cases hsel : conn.selectMailbox .sequential mailbox with
    | error err =>
      simp only [outcomes, callOutcome, hc, hsel, errOf]
      exact Surfaces.cons _ (Surfaces.failed _ _ _ _)
    | ok mb =>
      simp only [outcomes, callOutcome, hc, hsel, errOf]
      exact Surfaces.cons _ (Surfaces.cons _
        (fetchLoop_surfaces conn store mailbox v uids dropped sent _ 0 0 0 0 s n rfl hn))

theorem mem_of_getLast_eq {α : Type} (l : List α) (a : α) (h : l.getLast? = some a) :
    a ∈ l := by
  have := List.dropLast_append_getLast? a (by rw [h]; exact Option.mem_some_iff.mpr rfl)
  rw [← this]
  simp

theorem writerStep_surfaces {σ : Type} (conn : Connector) (store : Store σ) (mailbox : String)
    (v : Nat) (n : ConnId → Nat) (s0 : σ) (sent : Err → Prop) (st : WriterState σ) (b : Batch)
    (hb : ∀ e, b.err = some e → sent e)
    (ha : stateAfter conn store st.log n s0 = (n, st.store))
    (h1 : ∀ p ∈ (outcomes conn store st.log n s0).dropLast, p.2 ≠ none →
      ∃ x, p.1 = .updateMailboxState mailbox v x)
    (h2 : ∀ c e0, (outcomes conn store st.log n s0).getLast? = some (c, some e0) →
      ((∃ x, c = .updateMailboxState mailbox v x) ∧ 0 < st.maxUID)
        ∨ (st.writeErr = some e0 ∧ ∃ envs, c = .insertEnvelopes mailbox envs)
        ∨ ∃ e, st.writeErr = some e ∧ sent e)
    (h3 : ∀ e, st.writeErr = some e → sent e ∨ ∃ envs,
      (outcomes conn store st.log n s0).getLast? = some (.insertEnvelopes mailbox envs, some e)) :
    stateAfter conn store (writerStep store mailbox v st b).log n s0
        = (n, (writerStep store mailbox v st b).store)
      ∧ (∀ p ∈ (outcomes conn store (writerStep store mailbox v st b).log n s0).dropLast,
          p.2 ≠ none → ∃ x, p.1 = .updateMailboxState mailbox v x)
      ∧ (∀ c e0, (outcomes conn store (writerStep store mailbox v st b).log n s0).getLast?
            = some (c, some e0) →
          ((∃ x, c = .updateMailboxState mailbox v x)
              ∧ 0 < (writerStep store mailbox v st b).maxUID)
            ∨ ((writerStep store mailbox v st b).writeErr = some e0
              ∧ ∃ envs, c = .insertEnvelopes mailbox envs)
            ∨ ∃ e, (writerStep store mailbox v st b).writeErr = some e ∧ sent e)
      ∧ (∀ e, (writerStep store mailbox v st b).writeErr = some e → sent e ∨ ∃ envs,
          (outcomes conn store (writerStep store mailbox v st b).log n s0).getLast?
            = some (.insertEnvelopes mailbox envs, some e)) := by
  unfold writerStep
  cases hbe : b.err with
  | some e =>
    simp only []
    refine ⟨ha, h1, ?_, ?_⟩
    · intro c e0 hl
      rcases h2 c e0 hl with h | ⟨_, _⟩ | ⟨_, _, _⟩
      · exact Or.inl h
      · exact Or.inr (Or.inr ⟨e, rfl, hb e hbe⟩)
      · exact Or.inr (Or.inr ⟨e, rfl, hb e hbe⟩)
    · intro e1 he1
      simp only [Option.some.injEq] at he1
      subst he1
      exact Or.inl (hb e hbe)
  | none =>
    simp only []
    cases hw : st.writeErr with
    | some e => exact ⟨ha, h1, h2, h3⟩
    | none =>
      simp only []
      have hall : ∀ p ∈ outcomes conn store st.log n s0, p.2 ≠ none →
          ∃ x, p.1 = .updateMailboxState mailbox v x := by
        intro p hp hne
        rcases mem_dropLast_or_getLast _ p hp with hd | hl
        · exact h1 p hd hne
        · obtain ⟨c, r⟩ := p
          cases r with
          | none => exact absurd rfl hne
          | some e0 =>
            rcases h2 c e0 hl with ⟨hx, _⟩ | ⟨hc, _⟩ | ⟨e, hc, _⟩
            · exact hx
            · rw [hw] at hc; cases hc
            · rw [hw] at hc; cases hc
      by_cases hlen : b.envelopes.length > 0
      · simp only [hlen, if_true]
        cases hins : (store.insertEnvelopes mailbox b.envelopes st.store).1 with
        | some err =>
          simp only []
          have hO : outcomes conn store (st.log ++ [.insertEnvelopes mailbox b.envelopes]) n s0
              = outcomes conn store st.log n s0
                ++ [(.insertEnvelopes mailbox b.envelopes, some err)] := by
            rw [outcomes_append, ha]
            simp only [outcomes, callOutcome, hins]
          rw [hO, stateAfter_append, ha]
          refine ⟨by simp only [stateAfter, callOutcome], ?_, ?_, ?_⟩
          · intro p hp hne
            rw [List.dropLast_concat] at hp
            exact hall p hp hne
          · intro c e0 hl
            rw [List.getLast?_concat] at hl
            simp only [Option.some.injEq, Prod.mk.injEq] at hl
            obtain ⟨rfl, rfl⟩ := hl
            exact Or.inr (Or.inl ⟨rfl, _, rfl⟩)
          · intro e he
            simp only [Option.some.injEq] at he
            subst he
            exact Or.inr ⟨_, List.getLast?_concat _⟩
        | none =>
          simp only []
          by_cases hper : st.batchesSinceStateUpdate + 1 ≥ 10
              ∧ updateMaxUID st.maxUID b.envelopes > 0
          · simp only [hper, and_self, if_true]
            have hO : outcomes conn store (st.log ++ [.insertEnvelopes mailbox b.envelopes,
                  .updateMailboxState mailbox v (updateMaxUID st.maxUID b.envelopes)]) n s0
                = (outcomes conn store st.log n s0
                  ++ [(.insertEnvelopes mailbox b.envelopes, none)])
                  ++ [(.updateMailboxState mailbox v (updateMaxUID st.maxUID b.envelopes),
                      (store.updateMailboxState mailbox v (updateMaxUID st.maxUID b.envelopes)
                        (store.insertEnvelopes mailbox b.envelopes st.store).2).1)] := by
              rw [outcomes_append, ha]
              simp only [outcomes, callOutcome, hins, List.append_assoc, List.singleton_append]
            rw [hO, stateAfter_append, ha]
            refine ⟨by simp only [stateAfter, callOutcome], ?_, ?_, ?_⟩
            · intro p hp hne
              rw [List.dropLast_concat] at hp
              rcases List.mem_append.mp hp with hp | hp
              · exact hall p hp hne
              · simp only [List.mem_singleton] at hp
                subst hp
                exact absurd rfl hne
            · intro c e0 hl
              rw [List.getLast?_concat] at hl
              simp only [Option.some.injEq, Prod.mk.injEq] at hl
              refine Or.inl ⟨⟨_, hl.1.symm⟩, ?_⟩
              first | exact hper.2 | trivial
            · intro e he
              cases he
          · simp only [hper, if_false]
            have hO : outcomes conn store (st.log ++ [.insertEnvelopes mailbox b.envelopes]) n s0
                = outcomes conn store st.log n s0
                  ++ [(.insertEnvelopes mailbox b.envelopes, none)] := by
              rw [outcomes_append, ha]
              simp only [outcomes, callOutcome, hins]
            rw [hO, stateAfter_append, ha]
            refine ⟨by simp only [stateAfter, callOutcome], ?_, ?_, ?_⟩
            · intro p hp hne
              rw [List.dropLast_concat] at hp
              exact hall p hp hne
            · intro c e0 hl
              rw [List.getLast?_concat] at hl
              simp only [Option.some.injEq, Prod.mk.injEq] at hl
              cases hl.2
            · intro e he
              cases he
      · simp only [hlen, if_false]
        exact ⟨ha, h1, h2, h3⟩

theorem writerLoop_surfaces {σ : Type} (conn : Connector) (store : Store σ) (mailbox : String)
    (v : Nat) (n : ConnId → Nat) (s0 : σ) (sent : Err → Prop) (items : List Batch) :
    ∀ (st : WriterState σ), (∀ b ∈ items, ∀ e, b.err = some e → sent e) →
    stateAfter conn store st.log n s0 = (n, st.store) →
    (∀ p ∈ (outcomes conn store st.log n s0).dropLast, p.2 ≠ none →
      ∃ x, p.1 = .updateMailboxState mailbox v x) →
    (∀ c e0, (outcomes conn store st.log n s0).getLast? = some (c, some e0) →
      ((∃ x, c = .updateMailboxState mailbox v x) ∧ 0 < st.maxUID)
        ∨ (st.writeErr = some e0 ∧ ∃ envs, c = .insertEnvelopes mailbox envs)
        ∨ ∃ e, st.writeErr = some e ∧ sent e) →
    (∀ e, st.writeErr = some e → sent e ∨ ∃ envs,
      (outcomes conn store st.log n s0).getLast?
        = some (.insertEnvelopes mailbox envs, some e)) →
    Surfaces (fun c => ∃ x, c = .updateMailboxState mailbox v x) sent
      (outcomes conn store
        (writerFinish store mailbox v (writerLoop store mailbox v items st)).log n s0)
      (writerFinish store mailbox v (writerLoop store mailbox v items st)).result.2 := by
  induction items with
  | cons b rest ih =>
    intro st hitems ha h1 h2 h3
    rw [writerLoop_cons]
    obtain ⟨ha1, h11, h21, h31⟩ := writerStep_surfaces conn store mailbox v n s0 sent st b
      (hitems b (List.mem_cons_self _ _)) ha h1 h2 h3
    exact ih _ (fun b1 hb1 => hitems b1 (List.mem_cons_of_mem _ hb1)) ha1 h11 h21 h31
  | nil =>
    intro st _ ha h1 h2 h3
    have hloop : writerLoop store mailbox v [] st = st := rfl
    rw [hloop]
    unfold writerFinish
    cases hw : st.writeErr with
    | some e =>
      simp only []
      refine ⟨h1, ?_, ?_⟩
      · intro c e0 hl
        rcases h2 c e0 hl with ⟨⟨x, hx⟩, _⟩ | ⟨hc, envs, henvs⟩ | ⟨e1, hc, hs⟩
        · rcases h3 e hw with hs | ⟨envs, hl2⟩
          · exact Or.inr ⟨e, rfl, hs⟩
          · rw [hl] at hl2
            simp only [Option.some.injEq, Prod.mk.injEq] at hl2
            rw [hx] at hl2
            cases hl2.1
        · rw [hw] at hc
          simp only [Option.some.injEq] at hc
          subst hc
          subst henvs
          exact Or.inl rfl
        · rw [hw] at hc
          simp only [Option.some.injEq] at hc
          subst hc
          exact Or.inr ⟨e, rfl, hs⟩
      · intro e1 he1
        simp only [Option.some.injEq] at he1
        subst he1
        rcases h3 e hw with hs | ⟨envs, hl⟩
        · exact Or.inr hs
        · exact Or.inl ⟨_, _, hl, rfl⟩
    | none =>
      simp only []
      have hall : ∀ p ∈ outcomes conn store st.log n s0, p.2 ≠ none →
          ∃ x, p.1 = .updateMailboxState mailbox v x := by
        intro p hp hne
        rcases mem_dropLast_or_getLast _ p hp with hd | hl
        · exact h1 p hd hne
        · obtain ⟨c, r⟩ := p
          cases r with
          | none => exact absurd rfl hne
          | some e0 =>
            rcases h2 c e0 hl with ⟨hx, _⟩ | ⟨hc, _⟩ | ⟨e, hc, _⟩
            · exact hx
            · rw [hw] at hc; cases hc
            · rw [hw] at hc; cases hc
      by_cases hmax : st.maxUID > 0
      · simp only [hmax, if_true]
        have hO : outcomes conn store (st.log ++ [.updateMailboxState mailbox v st.maxUID]) n s0
            = outcomes conn store st.log n s0
              ++ [(.updateMailboxState mailbox v st.maxUID,
                  (store.updateMailboxState mailbox v st.maxUID st.store).1)] := by
          rw [outcomes_append, ha]
          simp only [outcomes, callOutcome]
        cases hupd : (store.updateMailboxState mailbox v st.maxUID st.store).1 with
        | some err =>
          simp only []
          rw [hO, hupd]
          refine ⟨?_, ?_, ?_⟩
          · intro p hp hne
            rw [List.dropLast_concat] at hp
            exact hall p hp hne
          · intro c e0 hl
            rw [List.getLast?_concat] at hl
            simp only [Option.some.injEq, Prod.mk.injEq] at hl
            obtain ⟨rfl, rfl⟩ := hl
            exact Or.inl rfl
          · intro e he
            simp only [Option.some.injEq] at he
            subst he
            exact Or.inl ⟨_, _, List.getLast?_concat _, rfl⟩
        | none =>
          simp only []
          rw [hO, hupd]
          refine ⟨?_, ?_, ?_⟩
          · intro p hp hne
            rw [List.dropLast_concat] at hp
            exact hall p hp hne
          · intro c e0 hl
            rw [List.getLast?_concat] at hl
            simp only [Option.some.injEq, Prod.mk.injEq] at hl
            cases hl.2
          · intro e he
            cases he
      · simp only [hmax, if_false]
        refine ⟨h1, ?_, ?_⟩
        · intro c e0 hl
          rcases h2 c e0 hl with ⟨_, hpos⟩ | ⟨hc, _⟩ | ⟨e, hc, _⟩
          · exact absurd hpos hmax
          · rw [hw] at hc; cases hc
          · rw [hw] at hc; cases hc
        · intro e he
          cases he

theorem writerRun_surfaces {σ : Type} (conn : Connector) (store : Store σ) (mailbox : String)
    (v : Nat) (n : ConnId → Nat) (s : σ) (items : List Batch) :
    Surfaces (fun c => ∃ x, c = .updateMailboxState mailbox v x)
      (fun e => ∃ b ∈ items, b.err = some e)
      (outcomes conn store (writerRun store mailbox v items s).log n s)
      (writerRun store mailbox v items s).result.2 := by
  unfold writerRun
  apply writerLoop_surfaces conn store mailbox v n s _ items
  · intro b hb e he
    exact ⟨b, hb, he⟩
  · rfl
  · intro p hp
    simp [outcomes] at hp
  · intro c e0 hl
    simp [outcomes] at hl
  · intro e he
    cases he

theorem getLast?_cons_of_some {α : Type} (x y : α) (l : List α) (h : l.getLast? = some y) :
    (x :: l).getLast? = some y := by
  cases l with
  | nil => simp at h
  | cons a rest => rw [List.getLast?_cons_cons]; exact h

theorem WorkerSends.empty : WorkerSends [] [] := by
  refine ⟨?_, ?_, ?_, ?_⟩ <;> simp

theorem WorkerSends.last_failed (c : Call) (e0 : Err) :
    WorkerSends [(c, some e0)] [⟨[], some (sentBy c e0)⟩] := by
  refine ⟨?_, ?_, ?_, ?_⟩
  · simp
  · intro c1 e1 h
    simp at h
    obtain ⟨rfl, rfl⟩ := h
    rfl
  · intro b hb e he
    simp at hb
    subst hb
    simp at he
    exact ⟨c, e0, by simp, he.symm⟩
  · simp

theorem WorkerSends.after_call {O : List (Call × Option Err)} {items : List Batch} (c : Call)
    (h : WorkerSends O items) : WorkerSends ((c, none) :: O) items := by
  obtain ⟨h1, h2, h3, h4⟩ := h
  refine ⟨?_, ?_, ?_, h4⟩
  · intro p hp
    cases O with
    | nil => simp at hp
    | cons a rest =>
      rw [List.dropLast_cons₂] at hp
      rcases List.mem_cons.mp hp with hp | hp
      · subst hp; rfl
      · exact h1 p hp
  · intro c1 e1 hl
    cases O with
    | nil => simp at hl
    | cons a rest =>
      rw [List.getLast?_cons_cons] at hl
      exact h2 c1 e1 hl
  · intro b hb e he
    obtain ⟨c1, e1, hl, he1⟩ := h3 b hb e he
    exact ⟨c1, e1, getLast?_cons_of_some _ _ _ hl, he1⟩

theorem WorkerSends.with_item {O : List (Call × Option Err)} {items : List Batch} (c : Call)
    (envs : List Envelope) (h : WorkerSends O items) :
    WorkerSends ((c, none) :: O) (⟨envs, none⟩ :: items) := by
  obtain ⟨h1, h2, h3, h4⟩ := WorkerSends.after_call c h
  refine ⟨h1, ?_, ?_, ?_⟩
  · intro c1 e1 hl
    exact getLast?_cons_of_some _ _ _ (h2 c1 e1 hl)
  · intro b hb e he
    rcases List.mem_cons.mp hb with hb | hb
    · subst hb; cases he
    · exact h3 b hb e he
  · intro b hb
    cases items with
    | nil => simp at hb
    | cons a rest =>
      rw [List.dropLast_cons₂] at hb
      rcases List.mem_cons.mp hb with hb | hb
      · subst hb; rfl
      · exact h4 b hb

theorem workerLoop_sends {σ : Type} (conn : Connector) (store : Store σ) (c : ConnId)
    (uids : List Nat) (s : σ) :
    ∀ (m i k : Nat) (n : ConnId → Nat), uids.length - i = m → n c = k →
      WorkerSends (outcomes conn store (workerLoop conn c uids i k).2 n s)
        (workerLoop conn c uids i k).1 := by
  intro m
  induction m using Nat.strong_induction_on with
  | _ m ih =>
    intro i k n hm hk
    rw [workerLoop]
    by_cases hi : i < uids.length
    · simp only [hi, if_true]
      cases hf : conn.fetchEnvelopesByUID c k
          (slice uids i (if i + batchSize > uids.length then uids.length else i + batchSize)) with
      | error err =>
        simp only [outcomes, callOutcome, hk, hf, errOf]
        exact WorkerSends.last_failed _ _
      | ok envs =>
        simp only [outcomes, callOutcome, hk, hf, errOf]
        refine WorkerSends.with_item _ _ ?_
        exact ih (uids.length - (i + batchSize)) (by simp only [batchSize]; omega) _ _ _ rfl
          (by simp)
    · simp only [hi, if_false, outcomes]
      exact WorkerSends.empty

theorem workerRun_sends {σ : Type} (conn : Connector) (store : Store σ) (c : ConnId)
    (mailbox : String) (uids : List Nat) (s : σ) (n : ConnId → Nat) (hn : n c = 0) :
    WorkerSends (outcomes conn store (workerRun conn c mailbox uids).2 n s)
      (workerRun conn c mailbox uids).1 := by
  unfold workerRun
  cases hc : conn.connect c with
  | some err =>
    simp only [outcomes, callOutcome, hc]
    exact WorkerSends.last_failed _ _
  | none =>
    simp only []
    cases hsel : conn.selectMailbox c mailbox with
    | error err =>
      simp only [outcomes, callOutcome, hc, hsel, errOf]
      exact WorkerSends.after_call _ (WorkerSends.last_failed _ _)
    | ok mb =>
      simp only [outcomes, callOutcome, hc, hsel, errOf]
      exact WorkerSends.after_call _ (WorkerSends.after_call _
        (workerLoop_sends conn store c uids s _ 0 0 n rfl hn))

theorem mem_workerQueues (conn : Connector) (mailbox : String) (shares : List (List Nat)) :
    ∀ (j : Nat) (b : Batch), b ∈ (workerQueues conn mailbox j shares).flatten →
      ∃ i share, b ∈ (workerRun conn (.worker i) mailbox share).1 := by
  induction shares with
  | nil => intro j b hb; simp [workerQueues] at hb
  | cons share rest ih =>
    intro j b hb
    rw [workerQueues, List.flatten_cons] at hb
    rcases List.mem_append.mp hb with hb | hb
    · exact ⟨j, share, hb⟩
    · exact ih (j + 1) b hb

theorem sentByWorker_of_item {σ : Type} (conn : Connector) (store : Store σ)
    (mailbox : String) (s : σ) (sched : List Nat) (shares : List (List Nat)) (e : Err)
    (h : ∃ b ∈ arrivalOrder sched (workerQueues conn mailbox 0 shares), b.err = some e) :
    SentByWorker conn store mailbox s e := by
  obtain ⟨b, hb, he⟩ := h
  have hb2 : b ∈ (workerQueues conn mailbox 0 shares).flatten :=
    (arrivalOrder_perm sched _).mem_iff.mp hb
  obtain ⟨j, share, hmem⟩ := mem_workerQueues conn mailbox shares 0 b hb2
  obtain ⟨_, _, h3, _⟩ := workerRun_sends conn store (.worker j) mailbox share s (fun _ => 0) rfl
  obtain ⟨call, e0, hl, he0⟩ := h3 b hmem e he
  exact ⟨j, share, call, e0, mem_of_getLast_eq _ _ hl, he0⟩

theorem fetchMissingUIDsParallel_surfaces {σ : Type} (conn : Connector) (store : Store σ)
    (sched : List Nat) (mailbox : String) (v : Nat) (uids : List Nat) (opts : SyncOptions)
    (s s0 : σ) (n : ConnId → Nat) :
    Surfaces (fun c => ∃ x, c = .updateMailboxState mailbox v x)
      (SentByWorker conn store mailbox s0)
      (outcomes conn store
        (fetchMissingUIDsParallel conn store sched mailbox v uids opts s).log n s)
      (fetchMissingUIDsParallel conn store sched mailbox v uids opts s).result.2 := by
  rw [fetchMissingUIDsParallel_eq_writerRun]
  exact (writerRun_surfaces conn store mailbox v n s _).mono (fun _ h => h)
    (fun e h => sentByWorker_of_item conn store mailbox s0 sched _ e h)

theorem fetchMissingUIDsParallel_no_sequential {σ : Type} (conn : Connector)
    (store : Store σ) (sched : List Nat) (mailbox : String) (v : Nat) (uids : List Nat)
    (opts : SyncOptions) (s : σ) :
    Call.connect .sequential ∉
      (fetchMissingUIDsParallel conn store sched mailbox v uids opts s).log := by
  unfold fetchMissingUIDsParallel
  simp only []
  generalize arrivalOrder sched _ = items
  have hw : Call.connect .sequential ∉
      (writerLoop store mailbox v items ⟨0, 0, none, 0, s, []⟩).log := by
    intro hmem
    rcases writerLoop_calls store mailbox v items _ _ hmem with h1 | ⟨_, h1⟩ | ⟨_, h1⟩
    · simp at h1
    · simp at h1
    · simp at h1
  rcases writerFinish_log store mailbox v
      (writerLoop store mailbox v items ⟨0, 0, none, 0, s, []⟩) with h1 | h1
  · rw [h1]; exact hw
  · rw [h1]
    simp only [List.mem_append, List.mem_singleton, reduceCtorEq, or_false]
    exact hw

theorem errOf_syncResult {σ : Type} (mailbox : String) (cachedLen : Nat)
    (r : Run σ (Nat × Option Err)) :
    errOf (syncResult mailbox cachedLen r).result = r.result.2 := by
  unfold syncResult
  cases h : r.result.2 <;> simp [errOf]

theorem syncFetch_surfaces {σ : Type} (conn : Connector) (store : Store σ) (sched : List Nat)
    (mailbox : String) (opts : SyncOptions) (mbox : MailboxInfo) (cachedLen : Nat)
    (missing : List Nat) (s s0 : σ) (n : ConnId → Nat) (hn : n .sequential = 0) :
    Surfaces
      (fun c => (∃ v x, c = .updateMailboxState mailbox v x)
        ∧ Call.connect .sequential ∉
          (syncFetch conn store sched mailbox opts mbox cachedLen missing s).log)
      (SentByWorker conn store mailbox s0)
      (outcomes conn store
        (syncFetch conn store sched mailbox opts mbox cachedLen missing s).log n s)
      (errOf (syncFetch conn store sched mailbox opts mbox cachedLen missing s).result) := by
  unfold syncFetch
  rw [errOf_syncResult, syncResult_log]
  by_cases h : (opts.workers > 1 && missing.length > 100) = true
  · simp only [h, if_true]
    exact (fetchMissingUIDsParallel_surfaces conn store sched mailbox mbox.uidValidity missing
      opts s s0 n).mono
      (fun c hc => ⟨⟨_, hc⟩, fetchMissingUIDsParallel_no_sequential _ _ _ _ _ _ _ _⟩)
      (fun _ h => h)
  · simp only [h]
    exact fetchMissingUIDs_surfaces conn store mailbox mbox.uidValidity missing opts s _ _ n hn

theorem syncBody_surfaces {σ : Type} (conn : Connector) (store : Store σ) (sched : List Nat)
    (mailbox : String) (opts : SyncOptions) (mbox : MailboxInfo) (s s0 : σ)
    (n : ConnId → Nat) (hn : n .sequential = 0) :
    Surfaces
      (fun c => (∃ v x, c = .updateMailboxState mailbox v x)
        ∧ Call.connect .sequential ∉ (syncBody conn store sched mailbox opts mbox s).log)
      (SentByWorker conn store mailbox s0)
      (outcomes conn store (syncBody conn store sched mailbox opts mbox s).log n s)
      (errOf (syncBody conn store sched mailbox opts mbox s).result) := by
  unfold syncBody
  by_cases hnum : mbox.numMessages = 0
  · simp only [hnum, if_true]
    cases hupd : (store.updateMailboxState mailbox mbox.uidValidity 0 s).1 with
    | some err =>
      simp only [outcomes, callOutcome, hupd, errOf]
      exact Surfaces.failed _ _ _ _
    | none =>
      simp only [outcomes, callOutcome, hupd, errOf]
      exact Surfaces.cons _ (Surfaces.nil _ _)
  · simp only [hnum, if_false]
    cases hcached : store.getCachedUIDs mailbox s with
    | error err =>
      simp only [outcomes, callOutcome, hcached, errOf]
      exact Surfaces.failed _ _ _ _
    | ok cachedUIDs =>
      simp only []
      cases hall : conn.getAllUIDs .main with
      | error err =>
        simp only [outcomes, callOutcome, hcached, hall, errOf]
        exact Surfaces.cons _ (Surfaces.failed _ _ _ _)
      | ok serverUIDs =>
        simp only []
        by_cases hmissing : (missingUIDs serverUIDs cachedUIDs).length = 0
        · simp only [hmissing, if_true]
          by_cases hlen : serverUIDs.length > 0
          · simp only [hlen, if_true]
            cases hupd : (store.updateMailboxState mailbox mbox.uidValidity
                (serverUIDs.getD (serverUIDs.length - 1) 0) s).1 with
            | some err =>
              simp only [outcomes, callOutcome, hcached, hall, hupd, errOf]
              exact Surfaces.cons _ (Surfaces.cons _ (Surfaces.failed _ _ _ _))
            | none =>
              simp only [outcomes, callOutcome, hcached, hall, hupd, errOf]
              exact Surfaces.cons _ (Surfaces.cons _ (Surfaces.cons _ (Surfaces.nil _ _)))
          · simp only [hlen, if_false]
            simp only [outcomes, callOutcome, hcached, hall, errOf]
            exact Surfaces.cons _ (Surfaces.cons _ (Surfaces.nil _ _))
        · simp only [hmissing, if_false]
          simp only [outcomes, callOutcome, hcached, hall, errOf]
          refine Surfaces.cons _ (Surfaces.cons _ ?_)
          refine (syncFetch_surfaces conn store sched mailbox opts mbox cachedUIDs.card
            (missingUIDs serverUIDs cachedUIDs) s s0 n hn).mono ?_ (fun _ h => h)
          intro c hc
          refine ⟨hc.1, ?_⟩
          intro hmem
          simp only [List.mem_cons, reduceCtorEq, false_or] at hmem
          exact hc.2 hmem

theorem Sync_surfaces {σ : Type} (conn : Connector) (store : Store σ) (sched : List Nat)
    (mailbox : String) (opts : Option SyncOptions) (s : σ)
    (n : ConnId → Nat) (hn : n .sequential = 0) :
    Surfaces
      (fun c => (∃ v x, c = .updateMailboxState mailbox v x)
        ∧ Call.connect .sequential ∉ (Sync conn store sched mailbox opts s).log)
      (SentByWorker conn store mailbox s)
      (outcomes conn store (Sync conn store sched mailbox opts s).log n s)
      (errOf (Sync conn store sched mailbox opts s).result) := by
  unfold Sync
  simp only []
  cases hopen : store.openCache with
  | some err =>
    simp only [outcomes, callOutcome, hopen, errOf]
    exact Surfaces.failed _ _ _ _
  | none =>
    simp only []
    cases hconn : conn.connect .main with
    | some err =>
      simp only [outcomes, callOutcome, hopen, hconn, errOf]
      exact Surfaces.cons _ (Surfaces.failed _ _ _ _)
    | none =>
      simp only []
      cases hsel : conn.selectMailbox .main mailbox with
      | error err =>
        simp only [outcomes, callOutcome, hopen, hconn, hsel, errOf]
        exact Surfaces.cons _ (Surfaces.cons _ (Surfaces.failed _ _ _ _))
      | ok mbox =>
        simp only []
        cases hstate : store.getMailboxState mailbox s with
        | error err =>
          simp only [outcomes, callOutcome, hopen, hconn, hsel, hstate, errOf]
          exact Surfaces.cons _ (Surfaces.cons _ (Surfaces.cons _ (Surfaces.failed _ _ _ _)))
        | ok state =>
          simp only []
          by_cases hstale : staleState state mbox = true
          · simp only [hstale, if_true]
            cases hclear : (store.clearMailbox mailbox s).1 with
            | some err =>
              simp only [outcomes, callOutcome, hopen, hconn, hsel, hstate, hclear, errOf]
              exact Surfaces.cons _ (Surfaces.cons _ (Surfaces.cons _ (Surfaces.cons _
                (Surfaces.failed _ _ _ _))))
            | none =>
              simp only [outcomes, callOutcome, hopen, hconn, hsel, hstate, hclear, errOf]
              refine Surfaces.cons _ (Surfaces.cons _ (Surfaces.cons _ (Surfaces.cons _
                (Surfaces.cons _ ?_))))
              refine (syncBody_surfaces conn store sched mailbox (normalizeOpts opts) mbox
                (store.clearMailbox mailbox s).2 s n hn).mono ?_ (fun _ h => h)
              intro c hc
              refine ⟨hc.1, ?_⟩
              intro hmem
              simp only [List.mem_cons, reduceCtorEq, false_or, Call.connect.injEq] at hmem
              exact hc.2 hmem
          · simp only [hstale, if_false]
            simp only [outcomes, callOutcome, hopen, hconn, hsel, hstate, errOf]
            refine Surfaces.cons _ (Surfaces.cons _ (Surfaces.cons _ (Surfaces.cons _ ?_)))
            refine (syncBody_surfaces conn store sched mailbox (normalizeOpts opts) mbox
              s s n hn).mono ?_ (fun _ h => h)
            intro c hc
            refine ⟨hc.1, ?_⟩
            intro hmem
            simp at hmem
            exact hc.2 hmem

theorem writerLoop_error_of_item {σ : Type} (store : Store σ) (mailbox : String) (v : Nat)
    (items : List Batch) : ∀ (st : WriterState σ), (∃ b ∈ items, b.err ≠ none) →
    (writerLoop store mailbox v items st).writeErr ≠ none := by
  induction items with
  | nil => intro st h; obtain ⟨b, hb, _⟩ := h; simp at hb
  | cons a rest ih =>
    intro st h
    rw [writerLoop_cons]
    by_cases ha : a.err = none
    · apply ih
      obtain ⟨b, hb, hne⟩ := h
      rcases List.mem_cons.mp hb with hb | hb
      · subst hb; exact absurd ha hne
      · exact ⟨b, hb, hne⟩
    · refine (writerLoop_frozen store mailbox v rest _ ?_).1
      obtain ⟨envs, err⟩ := a
      cases err with
      | none => exact absurd rfl ha
      | some e =>
        rw [writerStep_error_item]
        simp

theorem workerQueues_get (conn : Connector) (mailbox : String) (shares : List (List Nat)) :
    ∀ (j0 j : Nat) (share : List Nat), shares[j]? = some share →
      (workerRun conn (.worker (j0 + j)) mailbox share).1
        ∈ workerQueues conn mailbox j0 shares := by
  induction shares with
  | nil => intro j0 j share h; simp at h
  | cons a rest ih =>
    intro j0 j share h
    rw [workerQueues]
    cases j with
    | zero =>
      simp only [List.getElem?_cons_zero, Option.some.injEq] at h
      subst h
      exact List.mem_cons_self _ _
    | succ j1 =>
      simp only [List.getElem?_cons_succ] at h
      have := ih (j0 + 1) j1 share h
      rw [show j0 + 1 + j1 = j0 + (j1 + 1) by omega] at this
      exact List.mem_cons_of_mem _ this

theorem parallel_fails_of_worker_failure {σ : Type} (conn : Connector) (store : Store σ)
    (sched : List Nat) (mailbox : String) (v : Nat) (uids : List Nat) (opts : SyncOptions)
    (s s0 : σ) (j : Nat) (share : List Nat)
    (hshare : (workerShares uids (effectiveWorkers opts.workers uids.length).toNat)[j]?
      = some share)
    (hfail : ∃ c e0, (c, some e0) ∈
      outcomes conn store (workerRun conn (.worker j) mailbox share).2 (fun _ => 0) s0) :
    (fetchMissingUIDsParallel conn store sched mailbox v uids opts s).result.2 ≠ none := by
  obtain ⟨c, e0, hmem⟩ := hfail
  obtain ⟨h1, h2, _, _⟩ := workerRun_sends conn store (.worker j) mailbox share s0
    (fun _ => 0) rfl
  have hlast : (outcomes conn store (workerRun conn (.worker j) mailbox share).2
      (fun _ => 0) s0).getLast? = some (c, some e0) := by
    rcases mem_dropLast_or_getLast _ _ hmem with hd | hl
    · have := h1 _ hd
      simp at this
    · exact hl
  have hitem := mem_of_getLast_eq _ _ (h2 c e0 hlast)
  have hq := workerQueues_get conn mailbox _ 0 j share hshare
  rw [Nat.zero_add] at hq
  have hflat : (⟨[], some (sentBy c e0)⟩ : Batch) ∈ (workerQueues conn mailbox 0
      (workerShares uids (effectiveWorkers opts.workers uids.length).toNat)).flatten :=
    List.mem_flatten.mpr ⟨_, hq, hitem⟩
  have harr := (arrivalOrder_perm sched _).mem_iff.mpr hflat
  rw [fetchMissingUIDsParallel_eq_writerRun]
  unfold writerRun
  have hw := writerLoop_error_of_item store mailbox v _ ⟨0, 0, none, 0, s, []⟩
    ⟨_, harr, by simp⟩
  cases hwe : (writerLoop store mailbox v
      (arrivalOrder sched (workerQueues conn mailbox 0
        (workerShares uids (effectiveWorkers opts.workers uids.length).toNat)))
      ⟨0, 0, none, 0, s, []⟩).writeErr with
  | none => exact absurd hwe hw
  | some e =>
    rw [writerFinish_of_error _ _ _ _ e hwe]
    simp

theorem errOf_eq_some {α : Type} (r : Except Err α) (e : Err) :
    errOf r = some e ↔ r = .error e := by
  cases r <;> simp [errOf]

/-- C15, counterexample: the cache holds the state of epoch 7 and the mailbox reports epoch
8, so `Sync` calls `ClearMailbox`; the call returns the error `locked`, and `Sync` returns
that error wrapped in `clearing stale cache`, not the error itself. -/
theorem cleared_error_is_wrapped :
    (outcomes (idealConn 8 [1, 2]) lockedStore
        (Sync (idealConn 8 [1, 2]) lockedStore [] "INBOX" none (cachedDB 7 2 [1, 2])).log
        (fun _ => 0) (cachedDB 7 2 [1, 2])).getLast?
        = some (.clearMailbox "INBOX", some (.base "locked"))
      ∧ (Sync (idealConn 8 [1, 2]) lockedStore [] "INBOX" none (cachedDB 7 2 [1, 2])).result
        = .error (.wrap "clearing stale cache" (.base "locked"))
      ∧ (Sync (idealConn 8 [1, 2]) lockedStore [] "INBOX" none (cachedDB 7 2 [1, 2])).result
        ≠ .error (.base "locked") := by
  have hlog : Sync (idealConn 8 [1, 2]) lockedStore [] "INBOX" none (cachedDB 7 2 [1, 2])
      = ⟨.error (.wrap "clearing stale cache" (.base "locked")), cachedDB 7 2 [1, 2],
          [.openCache, .connect .main, .selectMailbox .main "INBOX", .getMailboxState "INBOX",
            .clearMailbox "INBOX"]⟩ := by
    simp [Sync, idealConn, lockedStore, specStore, cachedDB, staleState]
  rw [hlog]
  refine ⟨?_, rfl, ?_⟩
  · simp [outcomes, callOutcome, idealConn, lockedStore, specStore, cachedDB, errOf]
  · simp

/-- C15, amended: let `outcomes` list the calls of the main goroutine of a run of `Sync` with
the error each returned.  (1) A call that fails before the last call of the run is an
`UpdateMailboxState` of a run that did not open the session of the sequential strategy:
apart from the periodic checkpoint of the parallel writer, a failing call is the last call.
(2) When the last call fails with `e0`, `Sync` returns an error: `e0` itself, wrapped in
`clearing stale cache` for `ClearMailbox` and in `getting server UIDs` for `GetAllUIDs`, or
else an error sent by a worker.  (3) Every error `Sync` returns is the error of the last
call, unmodified or wrapped in this way, or an error sent by a worker.  (4) No call of a
worker but its last fails; the error of a failing `Connect`, `SelectMailbox` or
`FetchEnvelopesByUID` is sent wrapped in `connect`, `select` or `fetch`, as the last item of
the worker.  (5) In a run that reaches the parallel strategy, `Sync` returns an error as soon
as one call of one started worker fails. -/
theorem errors_surface_unmodified_or_wrapped {σ : Type} (conn : Connector) (store : Store σ)
    (sched : List Nat) (mailbox : String) (opts : Option SyncOptions) (s : σ) :
    (∀ p ∈ (outcomes conn store (Sync conn store sched mailbox opts s).log
          (fun _ => 0) s).dropLast,
        p.2 ≠ none →
          (∃ v x, p.1 = .updateMailboxState mailbox v x)
            ∧ Call.connect .sequential ∉ (Sync conn store sched mailbox opts s).log)
      ∧ (∀ c e0,
          (outcomes conn store (Sync conn store sched mailbox opts s).log
            (fun _ => 0) s).getLast? = some (c, some e0) →
          (Sync conn store sched mailbox opts s).result = .error (surfaced c e0)
            ∨ ∃ e, (Sync conn store sched mailbox opts s).result = .error e
                ∧ SentByWorker conn store mailbox s e)
      ∧ (∀ e, (Sync conn store sched mailbox opts s).result = .error e →
          (∃ c e0, (outcomes conn store (Sync conn store sched mailbox opts s).log
              (fun _ => 0) s).getLast? = some (c, some e0) ∧ e = surfaced c e0)
            ∨ SentByWorker conn store mailbox s e)
      ∧ (∀ j share,
          WorkerSends
            (outcomes conn store (workerRun conn (.worker j) mailbox share).2 (fun _ => 0) s)
            (workerRun conn (.worker j) mailbox share).1)
      ∧ (∀ s1 mbox state cachedUIDs serverUIDs j share,
          store.openCache = none → conn.connect .main = none →
          conn.selectMailbox .main mailbox = .ok mbox → mbox.numMessages ≠ 0 →
          store.getMailboxState mailbox s = .ok state →
          (store.clearMailbox mailbox s).1 = none →
          s1 = (if staleState state mbox then (store.clearMailbox mailbox s).2 else s) →
          store.getCachedUIDs mailbox s1 = .ok cachedUIDs →
          conn.getAllUIDs .main = .ok serverUIDs →
          (normalizeOpts opts).workers > 1 →
          (missingUIDs serverUIDs cachedUIDs).length > 100 →
          (workerShares (missingUIDs serverUIDs cachedUIDs)
            (effectiveWorkers (normalizeOpts opts).workers
              (missingUIDs serverUIDs cachedUIDs).length).toNat)[j]? = some share →
          (∃ c e0, (c, some e0) ∈
            outcomes conn store (workerRun conn (.worker j) mailbox share).2 (fun _ => 0) s) →
          ∃ e, (Sync conn store sched mailbox opts s).result = .error e) := by
  obtain ⟨h1, h2, h3⟩ := Sync_surfaces conn store sched mailbox opts s (fun _ => 0) rfl
  refine ⟨h1, ?_, ?_, ?_, ?_⟩
  · intro c e0 hl
    rcases h2 c e0 hl with h | ⟨e, he, hs⟩
    · exact Or.inl ((errOf_eq_some _ _).mp h)
    · exact Or.inr ⟨e, (errOf_eq_some _ _).mp he, hs⟩
  · intro e he
    exact h3 e ((errOf_eq_some _ _).mpr he)
  · intro j share
    exact workerRun_sends conn store (.worker j) mailbox share s (fun _ => 0) rfl
  · intro s1 mbox state cachedUIDs serverUIDs j share hopen hconn hsel hnum hstate hclear hs1
      hcached hall hw hlen hshare hfail
    obtain ⟨hr, _, _⟩ := Sync_reaches_fetch conn store sched mailbox opts s s1 mbox state
      cachedUIDs serverUIDs hopen hconn hsel hnum hstate hclear hs1 hcached hall
      (by intro h; rw [h] at hlen; simp at hlen)
    have hpar := parallel_fails_of_worker_failure conn store sched mailbox mbox.uidValidity
      (missingUIDs serverUIDs cachedUIDs) (normalizeOpts opts) s1 s j share hshare hfail
    rw [hr]
    unfold syncFetch
    have hcond : ((normalizeOpts opts).workers > 1
        && (missingUIDs serverUIDs cachedUIDs).length > 100) = true := by
      simp [hw, hlen]
    rw [if_pos hcond]
    cases hres : (fetchMissingUIDsParallel conn store sched mailbox mbox.uidValidity
        (missingUIDs serverUIDs cachedUIDs) (normalizeOpts opts) s1).result.2 with
    | none => exact absurd hres hpar
    | some e =>
      refine ⟨e, ?_⟩
      unfold syncResult
      simp only [hres]

/-- C15, witness: on a store whose `ClearMailbox` fails, in a run with a stale cache, the
last call is the failing `ClearMailbox`, and `Sync` returns an error. -/
theorem errors_surface_unmodified_or_wrapped_witness :
    (outcomes (idealConn 8 [1, 2]) lockedStore
        (Sync (idealConn 8 [1, 2]) lockedStore [] "INBOX" none (cachedDB 7 2 [1, 2])).log
        (fun _ => 0) (cachedDB 7 2 [1, 2])).getLast?
        = some (.clearMailbox "INBOX", some (.base "locked"))
      ∧ ∃ e, (Sync (idealConn 8 [1, 2]) lockedStore [] "INBOX" none
          (cachedDB 7 2 [1, 2])).result = .error e := by
  have hlast : (outcomes (idealConn 8 [1, 2]) lockedStore
      (Sync (idealConn 8 [1, 2]) lockedStore [] "INBOX" none (cachedDB 7 2 [1, 2])).log
      (fun _ => 0) (cachedDB 7 2 [1, 2])).getLast?
      = some (.clearMailbox "INBOX", some (.base "locked")) := by
    have hlog : (Sync (idealConn 8 [1, 2]) lockedStore [] "INBOX" none
        (cachedDB 7 2 [1, 2])).log
        = [.openCache, .connect .main, .selectMailbox .main "INBOX", .getMailboxState "INBOX",
            .clearMailbox "INBOX"] := by
      simp [Sync, idealConn, lockedStore, specStore, cachedDB, staleState]
    rw [hlog]
    simp [outcomes, callOutcome, idealConn, lockedStore, specStore, cachedDB, errOf]
  refine ⟨hlast, ?_⟩
  rcases (errors_surface_unmodified_or_wrapped (idealConn 8 [1, 2]) lockedStore [] "INBOX" none
    (cachedDB 7 2 [1, 2])).2.1 _ _ hlast with h | ⟨e, h, _⟩
  · exact ⟨_, h⟩
  · exact ⟨e, h⟩

/-! ## Two consecutive runs with nothing to fetch (C19) -/

theorem missingUIDs_of_all_cached (serverUIDs : List Nat) (cachedUIDs : Finset Nat)
    (hsub : ∀ u ∈ serverUIDs, u ∈ cachedUIDs) : missingUIDs serverUIDs cachedUIDs = [] := by
  rw [missingUIDs_eq_filter, List.filter_eq_nil_iff]
  intro u hu
  simp [hsub u hu]

theorem Sync_settled {σ : Type} (conn : Connector) (store : Store σ)
    (sched : List Nat) (mailbox : String) (opts : Option SyncOptions) (s : σ)
    (mbox : MailboxInfo) (state : Option MailboxState) (cachedUIDs : Finset Nat)
    (serverUIDs : List Nat)
    (hopen : store.openCache = none) (hconn : conn.connect .main = none)
    (hsel : conn.selectMailbox .main mailbox = .ok mbox)
    (hall : conn.getAllUIDs .main = .ok serverUIDs)
    (hstate : store.getMailboxState mailbox s = .ok state)
    (hfresh : staleState state mbox = false)
    (hclear : (store.clearMailbox mailbox s).1 = none)
    (hcached : store.getCachedUIDs mailbox s = .ok cachedUIDs)
    (hsub : ∀ u ∈ serverUIDs, u ∈ cachedUIDs)
    (hupd : ∀ x, (store.updateMailboxState mailbox mbox.uidValidity x s).1 = none) :
    (Sync conn store sched mailbox opts s).result
        = .ok ⟨mailbox, 0, if mbox.numMessages = 0 then 0 else cachedUIDs.card,
            if mbox.numMessages = 0 then "mailbox is empty" else "already up to date"⟩
      ∧ (Sync conn store sched mailbox opts s).store
        = (if mbox.numMessages = 0 then
            (store.updateMailboxState mailbox mbox.uidValidity 0 s).2
          else if serverUIDs.length > 0 then
            (store.updateMailboxState mailbox mbox.uidValidity
              (serverUIDs.getD (serverUIDs.length - 1) 0) s).2
          else s)
      ∧ (Sync conn store sched mailbox opts s).log
        = [.openCache, .connect .main, .selectMailbox .main mailbox, .getMailboxState mailbox]
          ++ (if mbox.numMessages = 0 then [.updateMailboxState mailbox mbox.uidValidity 0]
            else .getCachedUIDs mailbox :: .getAllUIDs .main ::
              (if serverUIDs.length > 0 then
                [.updateMailboxState mailbox mbox.uidValidity
                  (serverUIDs.getD (serverUIDs.length - 1) 0)]
              else [])) := by
  obtain ⟨hr, hs, hl⟩ := Sync_reaches_body conn store sched mailbox opts s s mbox state
    hopen hconn hsel hstate hclear (by simp [hfresh])
  have hmissing := missingUIDs_of_all_cached serverUIDs cachedUIDs hsub
  rw [hr, hs, hl]
  simp only [hfresh, Bool.false_eq_true, if_false, List.append_nil]
  unfold syncBody
  by_cases hnum : mbox.numMessages = 0
  · simp only [hnum, if_true, hupd 0]
    exact ⟨trivial, trivial, trivial⟩
  · simp only [hnum, if_false, hcached, hall, hmissing, List.length_nil, if_true]
    by_cases hlen : serverUIDs.length > 0
    · simp only [hlen, if_true, hupd _]
      exact ⟨trivial, trivial, trivial⟩
    · simp only [hlen, if_false]
      exact ⟨trivial, trivial, trivial⟩

/-- C19: on a store whose operations succeed, that reads back the state written by
`UpdateMailboxState`, keeps the cached UIDs over such a write, and is left unchanged by
writing the same state twice, with a connector that answers both runs alike, a cache state
that is not stale and remote UIDs that are all cached: two consecutive runs of `Sync` both
return `new_messages = 0`, neither makes an `InsertEnvelopes` or a `ClearMailbox` call, and
the store after the second run is the store after the first. -/
theorem consecutive_syncs_are_idempotent {σ : Type} (conn : Connector) (store : Store σ)
    (sched sched2 : List Nat) (mailbox : String) (opts opts2 : Option SyncOptions) (s : σ)
    (mbox : MailboxInfo) (state : Option MailboxState) (cachedUIDs : Finset Nat)
    (serverUIDs : List Nat)
    (hopen : store.openCache = none) (hconn : conn.connect .main = none)
    (hsel : conn.selectMailbox .main mailbox = .ok mbox)
    (hall : conn.getAllUIDs .main = .ok serverUIDs)
    (hstate : store.getMailboxState mailbox s = .ok state)
    (hfresh : staleState state mbox = false)
    (hcached : store.getCachedUIDs mailbox s = .ok cachedUIDs)
    (hsub : ∀ u ∈ serverUIDs, u ∈ cachedUIDs)
    (hclear : ∀ t, (store.clearMailbox mailbox t).1 = none)
    (hupd : ∀ x t, (store.updateMailboxState mailbox mbox.uidValidity x t).1 = none)
    (hread : ∀ x t, store.getMailboxState mailbox
        (store.updateMailboxState mailbox mbox.uidValidity x t).2
          = .ok (some ⟨mbox.uidValidity, x⟩))
    (hkeep : ∀ x t, store.getCachedUIDs mailbox
        (store.updateMailboxState mailbox mbox.uidValidity x t).2
          = store.getCachedUIDs mailbox t)
    (hidem : ∀ x t, (store.updateMailboxState mailbox mbox.uidValidity x
        (store.updateMailboxState mailbox mbox.uidValidity x t).2).2
          = (store.updateMailboxState mailbox mbox.uidValidity x t).2) :
    (∃ r1, (Sync conn store sched mailbox opts s).result = .ok r1 ∧ r1.newMessages = 0)
      ∧ (∃ r2, (Sync conn store sched2 mailbox opts2
            (Sync conn store sched mailbox opts s).store).result = .ok r2
          ∧ r2.newMessages = 0)
      ∧ (∀ mb envs, Call.insertEnvelopes mb envs ∉ (Sync conn store sched mailbox opts s).log
          ∧ Call.insertEnvelopes mb envs ∉ (Sync conn store sched2 mailbox opts2
              (Sync conn store sched mailbox opts s).store).log)
      ∧ (∀ mb, Call.clearMailbox mb ∉ (Sync conn store sched mailbox opts s).log
          ∧ Call.clearMailbox mb ∉ (Sync conn store sched2 mailbox opts2
              (Sync conn store sched mailbox opts s).store).log)
      ∧ (Sync conn store sched2 mailbox opts2 (Sync conn store sched mailbox opts s).store).store
          = (Sync conn store sched mailbox opts s).store := by
  obtain ⟨hr1, hs1, hl1⟩ := Sync_settled conn store sched mailbox opts s mbox state cachedUIDs
    serverUIDs hopen hconn hsel hall hstate hfresh (hclear s) hcached hsub (fun x => hupd x s)
  have hnostale : staleState (some ⟨mbox.uidValidity, 0⟩ : Option MailboxState) mbox = false := by
    simp [staleState]
  have hsecond : ∃ state2, store.getMailboxState mailbox (Sync conn store sched mailbox opts s).store
        = .ok state2 ∧ staleState state2 mbox = false
      ∧ store.getCachedUIDs mailbox (Sync conn store sched mailbox opts s).store
        = .ok cachedUIDs := by
    rw [hs1]
    by_cases hnum : mbox.numMessages = 0
    · simp only [hnum, if_true]
      exact ⟨_, hread _ _, by simp [staleState], by rw [hkeep]; exact hcached⟩
    · simp only [hnum, if_false]
      by_cases hlen : serverUIDs.length > 0
      · simp only [hlen, if_true]
        exact ⟨_, hread _ _, by simp [staleState], by rw [hkeep]; exact hcached⟩
      · simp only [hlen, if_false]
        exact ⟨state, hstate, hfresh, hcached⟩
  obtain ⟨state2, hstate2, hfresh2, hcached2⟩ := hsecond
  obtain ⟨hr2, hs2, hl2⟩ := Sync_settled conn store sched2 mailbox opts2
    (Sync conn store sched mailbox opts s).store mbox state2 cachedUIDs
    serverUIDs hopen hconn hsel hall hstate2 hfresh2 (hclear _) hcached2 hsub
    (fun x => hupd x _)
  refine ⟨⟨_, hr1, rfl⟩, ⟨_, hr2, rfl⟩, ?_, ?_, ?_⟩
  · intro mb envs
    rw [hl1, hl2]
    constructor <;> split_ifs <;> simp
  · intro mb
    rw [hl1, hl2]
    constructor <;> split_ifs <;> simp
  · rw [hs2]
    by_cases hnum : mbox.numMessages = 0
    · simp only [hnum, if_true]
      rw [hs1]
      simp only [hnum, if_true]
      exact hidem _ _
    · simp only [hnum, if_false]
      by_cases hlen : serverUIDs.length > 0
      · simp only [hlen, if_true]
        rw [hs1]
        simp only [hnum, if_false, hlen, if_true]
        exact hidem _ _
      · simp only [hlen, if_false]

theorem specStore_update_idem (mailbox : String) (v x : Nat) (db : CacheDB) :
    (specStore.updateMailboxState mailbox v x
        (specStore.updateMailboxState mailbox v x db).2).2
      = (specStore.updateMailboxState mailbox v x db).2 := by
  simp [specStore]

/-- C19, witness: the store of the spec with the cached UIDs 1, 2, 3 and the state
`(7, 3)`, against a server with the UIDs 1, 2, 3 in epoch 7. -/
theorem consecutive_syncs_are_idempotent_witness :
    (Sync (idealConn 7 [1, 2, 3]) specStore [] "INBOX" none
        (Sync (idealConn 7 [1, 2, 3]) specStore [] "INBOX" none
          (cachedDB 7 3 [1, 2, 3])).store).store
      = (Sync (idealConn 7 [1, 2, 3]) specStore [] "INBOX" none (cachedDB 7 3 [1, 2, 3])).store :=
  (consecutive_syncs_are_idempotent (idealConn 7 [1, 2, 3]) specStore [] [] "INBOX" none none
    (cachedDB 7 3 [1, 2, 3]) ⟨7, 3⟩ (some ⟨7, 3⟩) ([1, 2, 3] : List Nat).toFinset [1, 2, 3]
    rfl rfl rfl rfl rfl (by simp [staleState]) (by simp [specStore, cachedDB])
    (by simp) (fun _ => rfl) (fun _ _ => rfl)
    (fun _ _ => specStore_read_back _ _ _ _) (fun _ _ => by simp [specStore])
    (fun _ _ => specStore_update_idem _ _ _ _)).2.2.2.2

/-! ## Nothing missing (C9) -/

theorem getD_last_of_getLast (xs : List Nat) (x : Nat) (h : xs.getLast? = some x) :
    xs.getD (xs.length - 1) 0 = x := by
  have hne : xs ≠ [] := by intro h2; rw [h2] at h; simp at h
  have hlast : xs.getD (xs.length - 1) 0 = xs.getLast hne := by
    rw [List.getLast_eq_getElem]
    have : xs.length - 1 < xs.length := by
      have := List.length_pos.mpr hne
      omega
    simp [List.getD_eq_getElem?_getD, List.getElem?_eq_getElem this]
  rw [hlast]
  rw [List.getLast?_eq_getLast _ hne] at h
  exact Option.some.inj h

/-- C9, counterexample: the cache holds the state `(7, 2)` and no envelope; the mailbox
reports 3 messages and lists no UID.  The missing list is empty and `Sync` returns
`already up to date`, but it makes no `UpdateMailboxState` call and the persisted state
stays `(7, 2)`.  With the cached UIDs 1, 2, 3 and the listing `[3, 1, 2]` the state written
is `(7, 2)`, the last listed UID, and not the maximum 3. -/
theorem empty_listing_writes_no_state :
    (Sync (vanishedConn 7) specStore [] "INBOX" none (cachedDB 7 2 [])).result
        = .ok ⟨"INBOX", 0, 0, "already up to date"⟩
      ∧ checkpoints (Sync (vanishedConn 7) specStore [] "INBOX" none (cachedDB 7 2 [])).log = []
      ∧ ((Sync (vanishedConn 7) specStore [] "INBOX" none (cachedDB 7 2 [])).store
          "INBOX").state = some ⟨7, 2⟩
      ∧ (Sync (idealConn 7 [3, 1, 2]) specStore [] "INBOX" none
          (cachedDB 7 3 [1, 2, 3])).result = .ok ⟨"INBOX", 0, 3, "already up to date"⟩
      ∧ ((Sync (idealConn 7 [3, 1, 2]) specStore [] "INBOX" none
          (cachedDB 7 3 [1, 2, 3])).store "INBOX").state = some ⟨7, 2⟩ := by
  have h1 : Sync (vanishedConn 7) specStore [] "INBOX" none (cachedDB 7 2 [])
      = ⟨.ok ⟨"INBOX", 0, 0, "already up to date"⟩, cachedDB 7 2 [],
          [.openCache, .connect .main, .selectMailbox .main "INBOX", .getMailboxState "INBOX",
            .getCachedUIDs "INBOX", .getAllUIDs .main]⟩ := by
    simp [Sync, syncBody, vanishedConn, specStore, cachedDB, staleState, missingUIDs]
  have h2 := Sync_settled (idealConn 7 [3, 1, 2]) specStore [] "INBOX" none
    (cachedDB 7 3 [1, 2, 3]) ⟨7, 3⟩ (some ⟨7, 3⟩) ([1, 2, 3] : List Nat).toFinset [3, 1, 2]
    rfl rfl rfl rfl rfl (by simp [staleState]) rfl (by simp [specStore, cachedDB])
    (by simp) (fun _ => rfl)
  rw [h1]
  refine ⟨rfl, by decide, by simp [cachedDB], ?_, ?_⟩
  · rw [h2.1]
    simp
  · rw [h2.2.1]
    simp [specStore]

/-- C9, amended: in a run of `Sync` on a mailbox that reports at least one message, in which
the computed missing list is empty and the store operations succeed, `Sync` makes no
`InsertEnvelopes` call and returns `{0, number of cached UIDs, "already up to date"}`.
When the remote listing is empty it makes no `UpdateMailboxState` call and leaves the store
as it is after the reads.  When the listing ends with its largest UID, as every non-empty
ascending listing does, it calls `UpdateMailboxState(mailbox, uid_validity, maxUID)` with
the maximum `maxUID` of the remote UIDs, whose effect is the final store.  For every
non-empty listing the call it makes is the one with the last listed UID. -/
theorem nothing_missing_sync {σ : Type} (conn : Connector) (store : Store σ)
    (sched : List Nat) (mailbox : String) (opts : Option SyncOptions) (s s1 : σ)
    (mbox : MailboxInfo) (state : Option MailboxState) (cachedUIDs : Finset Nat)
    (serverUIDs : List Nat)
    (hopen : store.openCache = none) (hconn : conn.connect .main = none)
    (hsel : conn.selectMailbox .main mailbox = .ok mbox) (hnum : mbox.numMessages ≠ 0)
    (hstate : store.getMailboxState mailbox s = .ok state)
    (hclear : (store.clearMailbox mailbox s).1 = none)
    (hs1 : s1 = if staleState state mbox then (store.clearMailbox mailbox s).2 else s)
    (hcached : store.getCachedUIDs mailbox s1 = .ok cachedUIDs)
    (hall : conn.getAllUIDs .main = .ok serverUIDs)
    (hmissing : missingUIDs serverUIDs cachedUIDs = [])
    (hupd : ∀ x, (store.updateMailboxState mailbox mbox.uidValidity x s1).1 = none) :
    (Sync conn store sched mailbox opts s).result
        = .ok ⟨mailbox, 0, cachedUIDs.card, "already up to date"⟩
      ∧ (∀ mb envs, Call.insertEnvelopes mb envs ∉ (Sync conn store sched mailbox opts s).log)
      ∧ (serverUIDs = [] →
          (Sync conn store sched mailbox opts s).store = s1
            ∧ (Sync conn store sched mailbox opts s).log
              = [.openCache, .connect .main, .selectMailbox .main mailbox,
                  .getMailboxState mailbox]
                ++ (if staleState state mbox then [.clearMailbox mailbox] else [])
                ++ [.getCachedUIDs mailbox, .getAllUIDs .main])
      ∧ (∀ maxUID, serverUIDs.getLast? = some maxUID → (∀ u ∈ serverUIDs, u ≤ maxUID) →
          maxUID ∈ serverUIDs
            ∧ (Sync conn store sched mailbox opts s).store
              = (store.updateMailboxState mailbox mbox.uidValidity maxUID s1).2
            ∧ (Sync conn store sched mailbox opts s).log
              = [.openCache, .connect .main, .selectMailbox .main mailbox,
                  .getMailboxState mailbox]
                ++ (if staleState state mbox then [.clearMailbox mailbox] else [])
                ++ [.getCachedUIDs mailbox, .getAllUIDs .main,
                    .updateMailboxState mailbox mbox.uidValidity maxUID])
      ∧ (serverUIDs ≠ [] → serverUIDs.Sorted (· ≤ ·) →
          ∃ maxUID, serverUIDs.getLast? = some maxUID ∧ ∀ u ∈ serverUIDs, u ≤ maxUID)
      ∧ (∀ x, serverUIDs.getLast? = some x →
          x ∈ serverUIDs
            ∧ (Sync conn store sched mailbox opts s).store
              = (store.updateMailboxState mailbox mbox.uidValidity x s1).2
            ∧ (Sync conn store sched mailbox opts s).log
              = [.openCache, .connect .main, .selectMailbox .main mailbox,
                  .getMailboxState mailbox]
                ++ (if staleState state mbox then [.clearMailbox mailbox] else [])
                ++ [.getCachedUIDs mailbox, .getAllUIDs .main,
                    .updateMailboxState mailbox mbox.uidValidity x]) := by
  obtain ⟨hr, hs, hl⟩ := Sync_reaches_body conn store sched mailbox opts s s1 mbox state
    hopen hconn hsel hstate hclear hs1
  have hbody : syncBody conn store sched mailbox (normalizeOpts opts) mbox s1
      = if serverUIDs.length > 0 then
          ⟨.ok ⟨mailbox, 0, cachedUIDs.card, "already up to date"⟩,
            (store.updateMailboxState mailbox mbox.uidValidity
              (serverUIDs.getD (serverUIDs.length - 1) 0) s1).2,
            [.getCachedUIDs mailbox, .getAllUIDs .main,
              .updateMailboxState mailbox mbox.uidValidity
                (serverUIDs.getD (serverUIDs.length - 1) 0)]⟩
        else
          ⟨.ok ⟨mailbox, 0, cachedUIDs.card, "already up to date"⟩, s1,
            [.getCachedUIDs mailbox, .getAllUIDs .main]⟩ := by
    unfold syncBody
    by_cases hlen : serverUIDs.length > 0
    · simp only [hnum, if_false, hcached, hall, hmissing, List.length_nil, if_true, hlen,
        hupd _]
    · simp only [hnum, if_false, hcached, hall, hmissing, List.length_nil, if_true, hlen]
  rw [hbody] at hr hs hl
  have hnonempty : ∀ x, serverUIDs.getLast? = some x →
      (Sync conn store sched mailbox opts s).store
          = (store.updateMailboxState mailbox mbox.uidValidity x s1).2
        ∧ (Sync conn store sched mailbox opts s).log
          = [.openCache, .connect .main, .selectMailbox .main mailbox,
              .getMailboxState mailbox]
            ++ (if staleState state mbox then [.clearMailbox mailbox] else [])
            ++ [.getCachedUIDs mailbox, .getAllUIDs .main,
                .updateMailboxState mailbox mbox.uidValidity x] := by
    intro x hx
    have hne : serverUIDs ≠ [] := by intro h2; rw [h2] at hx; simp at hx
    have hlen : serverUIDs.length > 0 := List.length_pos.mpr hne
    rw [if_pos hlen] at hs hl
    rw [getD_last_of_getLast serverUIDs x hx] at hs hl
    exact ⟨hs, hl⟩
  have hmemlast : ∀ x, serverUIDs.getLast? = some x → x ∈ serverUIDs := by
    intro x hx
    have hne : serverUIDs ≠ [] := by intro h2; rw [h2] at hx; simp at hx
    rw [List.getLast?_eq_getLast _ hne] at hx
    rw [← Option.some.inj hx]
    exact List.getLast_mem hne
  refine ⟨?_, ?_, ?_, ?_, ?_, ?_⟩
  · rw [hr]; split_ifs <;> rfl
  · intro mb envs
    rw [hl]
    split_ifs <;> simp
  · intro hnil
    subst hnil
    simp only [List.length_nil, gt_iff_lt, Nat.lt_irrefl, if_false] at hs hl
    exact ⟨hs, hl⟩
  · intro maxUID hlast _
    exact ⟨hmemlast maxUID hlast, hnonempty maxUID hlast⟩
  · intro hne hasc
    obtain ⟨_, hmax⟩ := getD_last_of_sorted serverUIDs hne hasc
    refine ⟨serverUIDs.getLast hne, List.getLast?_eq_getLast _ hne, ?_⟩
    intro u hu
    have := hmax u hu
    rw [getD_last_of_getLast serverUIDs _ (List.getLast?_eq_getLast _ hne)] at this
    exact this
  · intro x hx
    exact ⟨hmemlast x hx, hnonempty x hx⟩

/-- C9, witness: the cache holds the UIDs 1, 2, 3 that the server lists in this order; the
state persisted is `(7, 3)`. -/
theorem nothing_missing_sync_witness :
    (Sync (idealConn 7 [1, 2, 3]) specStore [] "INBOX" none (cachedDB 7 3 [1, 2, 3])).result
        = .ok ⟨"INBOX", 0, 3, "already up to date"⟩
      ∧ ((Sync (idealConn 7 [1, 2, 3]) specStore [] "INBOX" none
          (cachedDB 7 3 [1, 2, 3])).store "INBOX").state = some ⟨7, 3⟩ := by
  obtain ⟨hres, _, _, hmax, _, _⟩ := nothing_missing_sync (idealConn 7 [1, 2, 3]) specStore []
    "INBOX" none (cachedDB 7 3 [1, 2, 3]) (cachedDB 7 3 [1, 2, 3]) ⟨7, 3⟩ (some ⟨7, 3⟩)
    ([1, 2, 3] : List Nat).toFinset [1, 2, 3] rfl rfl rfl (by decide) rfl rfl rfl rfl rfl
    (by decide) (fun _ => rfl)
  obtain ⟨_, hst, _⟩ := hmax 3 (by decide) (by decide)
  refine ⟨hres, ?_⟩
  rw [hst]
  exact specStore_state_after_update _ _ _ _

/-! ## Resuming after a failed fetch (C20) -/

theorem filter_not_mem_take (l : List Nat) (n : Nat) (h : l.Nodup) :
    l.filter (fun u => decide (u ∉ l.take n)) = l.drop n := by
  conv_lhs => rw [← List.take_append_drop n l]
  rw [List.filter_append]
  have h1 : List.filter (fun u => decide (u ∉ (List.take n l ++ List.drop n l).take n))
      (l.take n) = [] := by
    rw [List.filter_eq_nil_iff]
    intro a ha
    rw [List.take_append_drop]
    simp [ha]
  have h2 : List.filter (fun u => decide (u ∉ (List.take n l ++ List.drop n l).take n))
      (l.drop n) = l.drop n := by
    rw [List.filter_eq_self]
    intro a ha
    rw [List.take_append_drop]
    have hd := List.disjoint_take_drop h (le_refl n)
    simp only [decide_eq_true_eq]
    intro hmem
    exact hd hmem ha
  rw [List.take_append_drop] at h1 h2
  rw [List.take_append_drop, h1, h2, List.nil_append]

theorem missingUIDs_after_prefix (serverUIDs : List Nat) (cached : Finset Nat) (n : Nat)
    (h : serverUIDs.Nodup) :
    missingUIDs serverUIDs (cached ∪ ((missingUIDs serverUIDs cached).take n).toFinset)
      = (missingUIDs serverUIDs cached).drop n := by
  have hnd : (missingUIDs serverUIDs cached).Nodup := by
    rw [missingUIDs_eq_filter]
    exact h.filter _
  rw [← filter_not_mem_take _ n hnd]
  rw [missingUIDs_eq_filter]
  conv_rhs => rw [missingUIDs_eq_filter, List.filter_filter]
  apply List.filter_congr
  intro u _
  simp only [Finset.mem_union, List.mem_toFinset, not_or, Bool.decide_and, Bool.and_comm]
  rw [missingUIDs_eq_filter]

theorem batchesFrom_drop (uids : List Nat) : ∀ (K i : Nat),
    (batchesFrom uids i).drop K = batchesFrom uids (i + K * batchSize) := by
  intro K
  induction K with
  | zero => intro i; simp
  | succ K ih =>
    intro i
    by_cases hi : i < uids.length
    · rw [batchesFrom_step uids i hi, List.drop_succ_cons, ih]
      congr 1
      ring
    · rw [batchesFrom_done uids i hi, batchesFrom_done uids _ (by omega)]
      simp

theorem fetchLoop_interrupted {σ : Type} (conn : Connector) (store : Store σ)
    (mailbox : String) (v : Nat) (uids : List Nat) (K : Nat) (e : Err)
    (hK : K * batchSize < uids.length)
    (hfetch : ∀ k < K, ∀ batch, ∃ envs, conn.fetchEnvelopesByUID .sequential k batch = .ok envs
      ∧ envs.map (fun x => x.uid) = batch)
    (hfail : ∀ batch, conn.fetchEnvelopesByUID .sequential K batch = .error e)
    (hins : ∀ envs t, (store.insertEnvelopes mailbox envs t).1 = none)
    (hupd : ∀ x t, (store.updateMailboxState mailbox v x t).1 = none)
    (hinsc : ∀ envs t c, store.getCachedUIDs mailbox t = .ok c →
      store.getCachedUIDs mailbox (store.insertEnvelopes mailbox envs t).2
        = .ok (c ∪ (envs.map (fun x => x.uid)).toFinset))
    (hupdc : ∀ x t, store.getCachedUIDs mailbox (store.updateMailboxState mailbox v x t).2
      = store.getCachedUIDs mailbox t) :
    ∀ (d a tf m : Nat) (s : σ) (c : Finset Nat), K - a = d → a ≤ K →
      store.getCachedUIDs mailbox s = .ok c →
      (fetchLoop conn store mailbox v uids (a * batchSize) a tf m s).result
          = (tf + (K - a) * batchSize, some e)
        ∧ (inserted (fetchLoop conn store mailbox v uids (a * batchSize) a tf m s).log).map
            (fun x => x.uid) = slice uids (a * batchSize) (K * batchSize)
        ∧ store.getCachedUIDs mailbox
            (fetchLoop conn store mailbox v uids (a * batchSize) a tf m s).store
          = .ok (c ∪ (slice uids (a * batchSize) (K * batchSize)).toFinset) := by
  intro d
  induction d with
  | zero =>
    intro a tf m s c hd ha hc
    have haK : a = K := by omega
    subst haK
    rw [fetchLoop]
    simp only [hK, if_true, hfail]
    refine ⟨by simp, by simp [inserted, slice], ?_⟩
    simp [slice, hc]
  | succ d ih =>
    intro a tf m s c hd ha hc
    have haK : a < K := by omega
    have hlt : a * batchSize + batchSize ≤ K * batchSize := by
      simp only [batchSize]; omega
    have hi : a * batchSize < uids.length := by omega
    have hend : ¬ (a * batchSize + batchSize > uids.length) := by omega
    rw [fetchLoop]
    simp only [hi, if_true, hend, if_false]
    obtain ⟨envs, hf, hmap⟩ := hfetch a haK
      (slice uids (a * batchSize) (a * batchSize + batchSize))
    have hlen : envs.length > 0 := by
      have := congrArg List.length hmap
      rw [List.length_map, slice_length _ _ _ (by omega)] at this
      rw [this]; simp only [batchSize]; omega
    simp only [hf, hlen, if_true, hins, hupd]
    have hnext : a * batchSize + batchSize = (a + 1) * batchSize := by ring
    rw [hnext]
    have hc1 : store.getCachedUIDs mailbox
        (store.updateMailboxState mailbox v (updateMaxUID m envs)
          (store.insertEnvelopes mailbox envs s).2).2
        = .ok (c ∪ (envs.map (fun x => x.uid)).toFinset) := by
      rw [hupdc]; exact hinsc envs s c hc
    obtain ⟨hr, hi2, hs2⟩ := ih (a + 1) (tf + envs.length) (updateMaxUID m envs) _ _
      (by omega) (by omega) hc1
    have hsplit : slice uids (a * batchSize) ((a + 1) * batchSize)
        ++ slice uids ((a + 1) * batchSize) (K * batchSize)
        = slice uids (a * batchSize) (K * batchSize) :=
      slice_append uids _ _ _ (by omega) (by rw [← hnext]; exact hlt)
    have hlen2 : envs.length = batchSize := by
      have := congrArg List.length hmap
      rw [List.length_map, slice_length _ _ _ (by omega)] at this
      omega
    refine ⟨?_, ?_, ?_⟩
    · rw [hr, hlen2]
      congr 1
      have : K - a = (K - (a + 1)) + 1 := by omega
      rw [this]; ring
    · simp only [inserted, List.map_append]
      rw [hi2, hmap, hnext, hsplit]
    · rw [hs2, hmap, hnext, ← hsplit, List.toFinset_append, Finset.union_assoc]

theorem upsert_uids (l : List Envelope) (x : Envelope) :
    ((upsert l x).map (fun y => y.uid)).toFinset
      = (l.map (fun y => y.uid)).toFinset ∪ {x.uid} := by
  unfold upsert
  split_ifs with h
  · rw [List.any_eq_true] at h
    obtain ⟨y, hy, hxy⟩ := h
    have hmem : x.uid ∈ (l.map (fun y => y.uid)).toFinset := by
      rw [List.mem_toFinset, List.mem_map]
      exact ⟨y, hy, by simpa using hxy⟩
    rw [Finset.union_eq_left.mpr (Finset.singleton_subset_iff.mpr hmem)]
  · ext u
    simp only [List.map_append, List.map_cons, List.map_nil, List.toFinset_append,
      List.toFinset_cons, List.toFinset_nil, Finset.mem_union, List.mem_toFinset,
      Finset.mem_insert, Finset.mem_singleton, insert_emptyc_eq]

theorem foldl_upsert_uids (envs : List Envelope) : ∀ (l : List Envelope),
    ((envs.foldl upsert l).map (fun y => y.uid)).toFinset
      = (l.map (fun y => y.uid)).toFinset ∪ (envs.map (fun y => y.uid)).toFinset := by
  induction envs with
  | nil => intro l; simp
  | cons x rest ih =>
    intro l
    rw [List.foldl_cons, ih, upsert_uids]
    ext u
    simp only [Finset.mem_union, Finset.mem_singleton, List.mem_toFinset, List.map_cons,
      List.mem_cons]
    tauto

theorem specStore_cached_after_insert (mailbox : String) (envs : List Envelope) (db : CacheDB)
    (c : Finset Nat) (h : specStore.getCachedUIDs mailbox db = .ok c) :
    specStore.getCachedUIDs mailbox (specStore.insertEnvelopes mailbox envs db).2
      = .ok (c ∪ (envs.map (fun x => x.uid)).toFinset) := by
  simp only [specStore, Except.ok.injEq] at h
  subst h
  simp only [specStore, Function.update_same]
  rw [foldl_upsert_uids]

/-- C20: a sequential run on the missing UIDs of a remote list without repeated UIDs, on a
store whose writes succeed and that adds the UIDs of the inserted envelopes to the cached
UIDs, with a connector that returns one envelope per requested UID for the first `K`
fetches and fails on fetch `K + 1`, which exists.  The run returns `500 * K` with the error;
it inserts the envelopes of the first `K` batches and no other, and the cached UIDs become
the former ones and the UIDs of these batches; the missing list computed from the same
remote list is then the UIDs of the batches after the first `K`, in order, without
repetition; and a subsequent `Sync` that reaches the fetch runs its strategy on exactly this
list. -/
theorem resume_after_failed_fetch {σ : Type} (conn : Connector) (store : Store σ)
    (mailbox : String) (v : Nat) (uids : List Nat) (opts : SyncOptions) (s : σ) (K : Nat)
    (e : Err) (cached : Finset Nat) (serverUIDs : List Nat)
    (hnodup : serverUIDs.Nodup)
    (huids : uids = missingUIDs serverUIDs cached)
    (hcached : store.getCachedUIDs mailbox s = .ok cached)
    (hconn : conn.connect .sequential = none)
    (hsel : ∃ mb, conn.selectMailbox .sequential mailbox = .ok mb)
    (hK : K * batchSize < uids.length)
    (hfetch : ∀ k < K, ∀ batch, ∃ envs, conn.fetchEnvelopesByUID .sequential k batch = .ok envs
      ∧ envs.map (fun x => x.uid) = batch)
    (hfail : ∀ batch, conn.fetchEnvelopesByUID .sequential K batch = .error e)
    (hins : ∀ envs t, (store.insertEnvelopes mailbox envs t).1 = none)
    (hupd : ∀ x t, (store.updateMailboxState mailbox v x t).1 = none)
    (hinsc : ∀ envs t c, store.getCachedUIDs mailbox t = .ok c →
      store.getCachedUIDs mailbox (store.insertEnvelopes mailbox envs t).2
        = .ok (c ∪ (envs.map (fun x => x.uid)).toFinset))
    (hupdc : ∀ x t, store.getCachedUIDs mailbox (store.updateMailboxState mailbox v x t).2
      = store.getCachedUIDs mailbox t) :
    (fetchMissingUIDs conn store mailbox v uids opts s).result = (K * batchSize, some e)
      ∧ (inserted (fetchMissingUIDs conn store mailbox v uids opts s).log).map (fun x => x.uid)
          = ((batchesFrom uids 0).take K).flatten
      ∧ store.getCachedUIDs mailbox (fetchMissingUIDs conn store mailbox v uids opts s).store
          = .ok (cached ∪ (((batchesFrom uids 0).take K).flatten).toFinset)
      ∧ missingUIDs serverUIDs (cached ∪ (((batchesFrom uids 0).take K).flatten).toFinset)
          = ((batchesFrom uids 0).drop K).flatten
      ∧ ((batchesFrom uids 0).take K).flatten ++ ((batchesFrom uids 0).drop K).flatten = uids
      ∧ (((batchesFrom uids 0).drop K).flatten).Nodup
      ∧ (∀ (conn2 : Connector) (sched2 : List Nat) (opts2 : Option SyncOptions)
          (mbox2 : MailboxInfo) (state2 : Option MailboxState),
          store.openCache = none → conn2.connect .main = none →
          conn2.selectMailbox .main mailbox = .ok mbox2 → mbox2.numMessages ≠ 0 →
          store.getMailboxState mailbox
            (fetchMissingUIDs conn store mailbox v uids opts s).store = .ok state2 →
          staleState state2 mbox2 = false →
          (store.clearMailbox mailbox
            (fetchMissingUIDs conn store mailbox v uids opts s).store).1 = none →
          conn2.getAllUIDs .main = .ok serverUIDs →
          (Sync conn2 store sched2 mailbox opts2
              (fetchMissingUIDs conn store mailbox v uids opts s).store).result
            = (syncFetch conn2 store sched2 mailbox (normalizeOpts opts2) mbox2
                (cached ∪ (((batchesFrom uids 0).take K).flatten).toFinset).card
                (((batchesFrom uids 0).drop K).flatten)
                (fetchMissingUIDs conn store mailbox v uids opts s).store).result) := by
  obtain ⟨mb, hsel⟩ := hsel
  have hdrop : ((batchesFrom uids 0).drop K).flatten = uids.drop (K * batchSize) := by
    rw [batchesFrom_drop, Nat.zero_add]
    exact (batchesFrom_spec uids _ _ rfl).1
  have hall : (batchesFrom uids 0).flatten = uids := by
    have := (batchesFrom_spec uids _ 0 rfl).1
    rw [this, List.drop_zero]
  have htake : ((batchesFrom uids 0).take K).flatten = uids.take (K * batchSize) := by
    have h1 : ((batchesFrom uids 0).take K).flatten ++ ((batchesFrom uids 0).drop K).flatten
        = uids := by
      rw [← List.flatten_append, List.take_append_drop, hall]
    rw [hdrop] at h1
    have h2 : uids.take (K * batchSize) ++ uids.drop (K * batchSize) = uids :=
      List.take_append_drop _ _
    exact List.append_cancel_right (h1.trans h2.symm)
  obtain ⟨hr, hi, hs⟩ := fetchLoop_interrupted conn store mailbox v uids K e hK hfetch hfail
    hins hupd hinsc hupdc K 0 0 0 s cached (by omega) (by omega) hcached
  have hslice : slice uids (0 * batchSize) (K * batchSize) = uids.take (K * batchSize) := by
    simp [slice]
  rw [hslice] at hi hs
  simp only [Nat.zero_mul, Nat.zero_add, Nat.sub_zero] at hr hi hs
  have hrun : fetchMissingUIDs conn store mailbox v uids opts s
      = ⟨(fetchLoop conn store mailbox v uids 0 0 0 0 s).result,
          (fetchLoop conn store mailbox v uids 0 0 0 0 s).store,
          .connect .sequential :: .selectMailbox .sequential mailbox ::
            (fetchLoop conn store mailbox v uids 0 0 0 0 s).log⟩ := by
    unfold fetchMissingUIDs
    simp only [hconn, hsel]
  have hmiss : missingUIDs serverUIDs (cached ∪ (uids.take (K * batchSize)).toFinset)
      = uids.drop (K * batchSize) := by
    rw [huids]
    exact missingUIDs_after_prefix serverUIDs cached _ hnodup
  have hnd : (uids.drop (K * batchSize)).Nodup := by
    have : uids.Nodup := by
      rw [huids, missingUIDs_eq_filter]
      exact hnodup.filter _
    exact this.sublist (List.drop_sublist _ _)
  rw [htake, hdrop, hrun]
  refine ⟨hr, ?_, hs, hmiss, List.take_append_drop _ _, hnd, ?_⟩
  · simp only [inserted]
    exact hi
  · intro conn2 sched2 opts2 mbox2 state2 hopen hconn2 hsel2 hnum hstate2 hfresh hclear hall2
    obtain ⟨hres, _, _⟩ := Sync_reaches_fetch conn2 store sched2 mailbox opts2 _ _ mbox2 state2
      _ serverUIDs hopen hconn2 hsel2 hnum hstate2 hclear (by simp [hfresh]) hs hall2
      (by
        rw [hmiss]
        intro h
        have := congrArg List.length h
        simp at this
        omega)
    rw [hres, hmiss]

/-- C20, witness: the store of the spec with an empty cache, the remote UIDs 1..1001 (three
batches) and a connector whose second fetch fails: the run returns 500 with the error and
the next missing list is the UIDs of the second and third batch. -/
theorem resume_after_failed_fetch_witness :
    (fetchMissingUIDs (flakyConn 7 (List.range' 1 1001) 1) specStore "INBOX" 7
        (List.range' 1 1001) ⟨1, false⟩ emptyDB).result
        = (1 * batchSize, some (.base "connection reset"))
      ∧ missingUIDs (List.range' 1 1001)
          (∅ ∪ (((batchesFrom (List.range' 1 1001) 0).take 1).flatten).toFinset)
        = ((batchesFrom (List.range' 1 1001) 0).drop 1).flatten := by
  obtain ⟨h1, _, _, h4, _⟩ := resume_after_failed_fetch (flakyConn 7 (List.range' 1 1001) 1)
    specStore "INBOX" 7 (List.range' 1 1001) ⟨1, false⟩ emptyDB 1 (.base "connection reset") ∅
    (List.range' 1 1001) (List.nodup_range' 1 1001) (missingUIDs_empty_cache _).symm
    (by simp [specStore, emptyDB]) rfl ⟨_, rfl⟩ (by simp [batchSize])
    (by
      intro k hk batch
      have hk0 : k = 0 := by omega
      subst hk0
      exact ⟨batch.map (fun u => ⟨u, ""⟩), by simp [flakyConn],
        by simp [List.map_map, Function.comp_def]⟩)
    (by intro batch; simp [flakyConn])
    (fun _ _ => rfl) (fun _ _ => rfl)
    (fun envs t c h => specStore_cached_after_insert _ envs t c h)
    (fun _ _ => by simp [specStore])
  exact ⟨h1, h4⟩

/-! ## Every worker has a share (C26) -/

theorem effectiveWorkers_le_length (workers : Int) (n : Nat) (hn : 1 ≤ n) :
    (effectiveWorkers workers n).toNat ≤ n := by
  unfold effectiveWorkers batchSize
  simp only []
  split_ifs <;> omega

theorem shareCount_pos (n W i : Nat) (hW : 1 ≤ W) (hle : W ≤ n) : 1 ≤ shareCount n W i := by
  unfold shareCount
  have : 1 ≤ n / W := (Nat.one_le_div_iff (by omega)).mpr hle
  omega

theorem shareRanges_all_started (n W : Nat) (hW : 1 ≤ W) (hle : W ≤ n) :
    shareRanges (n / W) (n % W) W 0 0
      = (List.range W).map (fun j => (shareStart n W j, shareCount n W j)) := by
  have h := shareRanges_closed (n / W) (n % W) W W 0 (by omega)
  simp only [Nat.zero_mul, Nat.zero_min, Nat.add_zero, Nat.sub_zero] at h
  rw [h, List.filter_eq_self.mpr, List.range_eq_range']
  · rfl
  · intro j _
    have := shareCount_pos n W j hW hle
    unfold shareCount at this
    simp only [decide_eq_true_eq]
    omega

theorem shareStart_mono (n W i j : Nat) (hij : i ≤ j) : shareStart n W i ≤ shareStart n W j := by
  have h1 : i * (n / W) ≤ j * (n / W) := Nat.mul_le_mul_right _ hij
  have h2 : min i (n % W) ≤ min j (n % W) := by omega
  show i * (n / W) + min i (n % W) ≤ j * (n / W) + min j (n % W)
  omega

/-- C26: for a non-empty list `uids` and any configured worker count, the number of workers
`W` computed by lines 209-215 satisfies `1 ≤ W ≤ len(uids)`; the count of every iteration
`i < W` of the loop of lines 250-260 is at least 1, so the branch `count == 0` is not taken;
the loop starts exactly `W` workers, the `i`-th on the range that starts at
`shareStart n W i` and holds `shareCount n W i` UIDs; every range has `start + count ≤
len(uids)`; and every share is non-empty. -/
theorem every_worker_has_a_share (uids : List Nat) (workers : Int) (hne : uids ≠ []) :
    ∃ W : Nat, (W : Int) = effectiveWorkers workers uids.length
      ∧ 1 ≤ W ∧ W ≤ uids.length
      ∧ (∀ i, i < W → 1 ≤ shareCount uids.length W i)
      ∧ shareRanges (uids.length / W) (uids.length % W) W 0 0
          = (List.range W).map (fun i => (shareStart uids.length W i, shareCount uids.length W i))
      ∧ (shareRanges (uids.length / W) (uids.length % W) W 0 0).length = W
      ∧ (∀ r ∈ shareRanges (uids.length / W) (uids.length % W) W 0 0,
          0 < r.2 ∧ r.1 + r.2 ≤ uids.length)
      ∧ (workerShares uids W).length = W
      ∧ (∀ share ∈ workerShares uids W, share ≠ []) := by
  have hn : 1 ≤ uids.length := List.length_pos.mpr hne
  have hW := effectiveWorkers_pos workers uids.length
  have hle := effectiveWorkers_le_length workers uids.length hn
  refine ⟨(effectiveWorkers workers uids.length).toNat, ?_, hW, hle, ?_, ?_, ?_, ?_, ?_, ?_⟩
  · rw [Int.toNat_of_nonneg]
    have : (1 : Int) ≤ effectiveWorkers workers uids.length := by
      unfold effectiveWorkers
      simp only []
      split_ifs <;> omega
    omega
  · intro i _
    exact shareCount_pos _ _ i hW hle
  · exact shareRanges_all_started _ _ hW hle
  · rw [shareRanges_all_started _ _ hW hle]
    simp
  · intro r hr
    rw [shareRanges_all_started _ _ hW hle] at hr
    simp only [List.mem_map, List.mem_range] at hr
    obtain ⟨j, hj, rfl⟩ := hr
    refine ⟨shareCount_pos _ _ j hW hle, ?_⟩
    have h1 := shareStart_succ (uids.length / (effectiveWorkers workers uids.length).toNat)
      (uids.length % (effectiveWorkers workers uids.length).toNat) j
    have h2 := shareStart_mono uids.length (effectiveWorkers workers uids.length).toNat
      (j + 1) _ hj
    have h3 := shareStart_last uids.length _ hW
    simp only [shareStart, shareCount] at h2 ⊢
    omega
  · unfold workerShares
    rw [List.length_map, shareRanges_all_started _ _ hW hle]
    simp
  · intro share hs
    unfold workerShares at hs
    rw [shareRanges_all_started _ _ hW hle] at hs
    simp only [List.mem_map, List.mem_range] at hs
    obtain ⟨r, ⟨j, hj, rfl⟩, rfl⟩ := hs
    intro hnil
    have hlen := congrArg List.length hnil
    have hpos := shareCount_pos uids.length (effectiveWorkers workers uids.length).toNat j hW hle
    have h1 := shareStart_succ (uids.length / (effectiveWorkers workers uids.length).toNat)
      (uids.length % (effectiveWorkers workers uids.length).toNat) j
    have h2 := shareStart_mono uids.length (effectiveWorkers workers uids.length).toNat
      (j + 1) _ hj
    have h3 := shareStart_last uids.length _ hW
    rw [slice_length] at hlen
    · simp only [List.length_nil] at hlen
      omega
    · simp only [shareStart, shareCount] at h2 ⊢
      omega

/-- C26, witness: three UIDs and a configured worker count of `-2` give one worker, whose
share is the whole list. -/
theorem every_worker_has_a_share_witness :
    ∃ W : Nat, (W : Int) = effectiveWorkers (-2) [5, 6, 7].length
      ∧ 1 ≤ W ∧ W ≤ [5, 6, 7].length ∧ (workerShares [5, 6, 7] W).length = W := by
  obtain ⟨W, h1, h2, h3, _, _, _, _, h4, _⟩ := every_worker_has_a_share [5, 6, 7] (-2) (by simp)
  exact ⟨W, h1, h2, h3, h4⟩

end Mail

namespace Scopes

/-! ## Scope checks (C21, C22) -/

theorem splitSpace_ne_nil (s : List Char) : splitSpace s ≠ [] := by
  cases s with
  | nil => simp [splitSpace]
  | cons c cs =>
    rw [splitSpace]
    split_ifs
    · simp
    · split <;> simp

theorem splitSpace_cons_of_ne (c : Char) (cs : List Char) (hc : c ≠ ' ') :
    ∃ p ps, splitSpace cs = p :: ps ∧ splitSpace (c :: cs) = (c :: p) :: ps := by
  cases h : splitSpace cs with
  | nil => exact absurd h (splitSpace_ne_nil cs)
  | cons p ps =>
    refine ⟨p, ps, rfl, ?_⟩
    rw [splitSpace, if_neg hc, h]

theorem splitSpace_cons_space (cs : List Char) :
    splitSpace (' ' :: cs) = [] :: splitSpace cs := by
  rw [splitSpace, if_pos rfl]

theorem intercalate_cons_cons (sep p q : List Char) (rest : List (List Char)) :
    sep.intercalate (p :: q :: rest) = p ++ sep ++ sep.intercalate (q :: rest) := by
  simp [List.intercalate]

theorem intercalate_splitSpace (s : List Char) : [' '].intercalate (splitSpace s) = s := by
  induction s with
  | nil => simp [splitSpace, List.intercalate]
  | cons c cs ih =>
    by_cases hc : c = ' '
    · subst hc
      rw [splitSpace_cons_space]
      cases h : splitSpace cs with
      | nil => exact absurd h (splitSpace_ne_nil cs)
      | cons p ps =>
        rw [intercalate_cons_cons, ← h, ih]
        simp
    · obtain ⟨p, ps, h1, h2⟩ := splitSpace_cons_of_ne c cs hc
      rw [h2]
      rw [h1] at ih
      cases ps with
      | nil =>
        simp only [List.intercalate, List.intersperse_single, List.flatten_cons,
          List.flatten_nil, List.append_nil] at ih ⊢
        rw [ih]
      | cons q rest =>
        rw [intercalate_cons_cons] at ih ⊢
        rw [← ih]
        simp

theorem splitSpace_no_space (s : List Char) : ∀ p ∈ splitSpace s, ' ' ∉ p := by
  induction s with
  | nil => simp [splitSpace]
  | cons c cs ih =>
    by_cases hc : c = ' '
    · subst hc
      rw [splitSpace_cons_space]
      intro p hp
      rcases List.mem_cons.mp hp with hp | hp
      · subst hp; simp
      · exact ih p hp
    · obtain ⟨p, ps, h1, h2⟩ := splitSpace_cons_of_ne c cs hc
      rw [h2]
      rw [h1] at ih
      intro q hq
      rcases List.mem_cons.mp hq with hq | hq
      · subst hq
        intro hmem
        rcases List.mem_cons.mp hmem with h | h
        · exact hc h.symm
        · exact ih p (List.mem_cons_self _ _) h
      · exact ih q (List.mem_cons_of_mem _ hq)

theorem splitSpace_length (s : List Char) : (splitSpace s).length = s.count ' ' + 1 := by
  induction s with
  | nil => simp [splitSpace]
  | cons c cs ih =>
    by_cases hc : c = ' '
    · subst hc
      rw [splitSpace_cons_space, List.length_cons, ih, List.count_cons_self]
    · obtain ⟨p, ps, h1, h2⟩ := splitSpace_cons_of_ne c cs hc
      rw [h2, List.length_cons, ← List.length_cons p ps, ← h1, ih,
        List.count_cons_of_ne (fun h => hc h.symm)]

theorem splitSpace_of_no_space (p : List Char) (hp : ' ' ∉ p) : splitSpace p = [p] := by
  induction p with
  | nil => rfl
  | cons c cs ih =>
    have hc : c ≠ ' ' := fun h => hp (h ▸ List.mem_cons_self _ _)
    have hcs : ' ' ∉ cs := fun h => hp (List.mem_cons_of_mem _ h)
    rw [splitSpace, if_neg hc, ih hcs]

theorem splitSpace_append_space (p rest : List Char) (hp : ' ' ∉ p) :
    splitSpace (p ++ ' ' :: rest) = p :: splitSpace rest := by
  induction p with
  | nil => exact splitSpace_cons_space rest
  | cons c cs ih =>
    have hc : c ≠ ' ' := fun h => hp (h ▸ List.mem_cons_self _ _)
    have hcs : ' ' ∉ cs := fun h => hp (List.mem_cons_of_mem _ h)
    rw [List.cons_append, splitSpace, if_neg hc, ih hcs]

theorem splitSpace_intercalate (pieces : List (List Char)) (hne : pieces ≠ [])
    (hp : ∀ p ∈ pieces, ' ' ∉ p) : splitSpace ([' '].intercalate pieces) = pieces := by
  induction pieces with
  | nil => exact absurd rfl hne
  | cons p rest ih =>
    cases rest with
    | nil =>
      simp only [List.intercalate, List.intersperse_single, List.flatten_cons,
        List.flatten_nil, List.append_nil]
      exact splitSpace_of_no_space p (hp p (List.mem_cons_self _ _))
    | cons q rest2 =>
      rw [intercalate_cons_cons, List.append_assoc, List.singleton_append,
        splitSpace_append_space _ _ (hp p (List.mem_cons_self _ _)),
        ih (by simp) (fun x hx => hp x (List.mem_cons_of_mem _ hx))]

theorem splitSpace_append_all (a b : List Char) :
    splitSpace (a ++ ' ' :: b) = splitSpace a ++ splitSpace b := by
  induction a with
  | nil => rw [List.nil_append, splitSpace_cons_space]; rfl
  | cons c cs ih =>
    by_cases hc : c = ' '
    · subst hc
      rw [List.cons_append, splitSpace_cons_space, splitSpace_cons_space, ih]
      rfl
    · obtain ⟨p, ps, h1, h2⟩ := splitSpace_cons_of_ne c cs hc
      obtain ⟨p2, ps2, h3, h4⟩ := splitSpace_cons_of_ne c (cs ++ ' ' :: b) hc
      rw [List.cons_append, h4, h2]
      rw [ih, h1] at h3
      simp only [List.cons_append, List.cons.injEq] at h3
      rw [← h3.1, ← h3.2]
      rfl

theorem intercalate_append (sep : List Char) (A B : List (List Char)) (hA : A ≠ [])
    (hB : B ≠ []) :
    sep.intercalate (A ++ B) = sep.intercalate A ++ sep ++ sep.intercalate B := by
  induction A with
  | nil => exact absurd rfl hA
  | cons p rest ih =>
    cases rest with
    | nil =>
      cases B with
      | nil => exact absurd rfl hB
      | cons q B2 =>
        rw [List.singleton_append, intercalate_cons_cons]
        simp [List.intercalate]
    | cons q rest2 =>
      rw [List.cons_append, List.cons_append, intercalate_cons_cons, ← List.cons_append,
        ih (by simp), intercalate_cons_cons]
      simp

theorem mem_splitSpace_iff (r s : List Char) :
    r ∈ splitSpace s ↔ ' ' ∉ r ∧ ∃ pre post, s = pre ++ r ++ post
      ∧ (pre = [] ∨ pre.getLast? = some ' ') ∧ (post = [] ∨ post.head? = some ' ') := by
  constructor
  · intro h
    refine ⟨splitSpace_no_space s r h, ?_⟩
    obtain ⟨A, B, hAB⟩ := List.append_of_mem h
    have hs := intercalate_splitSpace s
    rw [hAB] at hs
    have hrB : [' '].intercalate (r :: B)
        = r ++ (if B = [] then [] else ' ' :: [' '].intercalate B) := by
      cases B with
      | nil => simp [List.intercalate]
      | cons q B2 => rw [intercalate_cons_cons]; simp
    refine ⟨if A = [] then [] else [' '].intercalate A ++ [' '],
      if B = [] then [] else ' ' :: [' '].intercalate B, ?_, ?_, ?_⟩
    · by_cases hA : A = []
      · subst hA
        rw [List.nil_append, hrB] at hs
        simp only [if_true, List.nil_append]
        exact hs.symm
      · rw [intercalate_append _ _ _ hA (by simp), hrB] at hs
        simp only [hA, if_false]
        rw [← hs]
        simp
    · by_cases hA : A = []
      · simp [hA]
      · simp [hA]
    · by_cases hB : B = []
      · simp [hB]
      · simp [hB]
  · rintro ⟨hr, pre, post, hs, hpre, hpost⟩
    have hright : r ∈ splitSpace (r ++ post) := by
      rcases hpost with hpost | hpost
      · subst hpost
        rw [List.append_nil, splitSpace_of_no_space r hr]
        exact List.mem_singleton_self _
      · cases post with
        | nil => simp at hpost
        | cons c post2 =>
          simp only [List.head?_cons, Option.some.injEq] at hpost
          subst hpost
          rw [splitSpace_append_space r post2 hr]
          exact List.mem_cons_self _ _
    rcases hpre with hpre | hpre
    · subst hpre
      rw [hs, List.nil_append]
      exact hright
    · have hsplit := List.dropLast_append_getLast? ' ' (by rw [hpre]; exact Option.mem_some_iff.mpr rfl)
      rw [hs, ← hsplit, List.append_assoc, List.append_assoc, List.singleton_append,
        splitSpace_append_all]
      exact List.mem_append_right _ hright

theorem scopeLoop_eq_true (required : String) (pieces : List String) :
    scopeLoop required pieces = true ↔ required ∈ pieces := by
  induction pieces with
  | nil => simp [scopeLoop]
  | cons s rest ih =>
    rw [scopeLoop]
    by_cases h : s = required
    · simp [h]
    · have h2 : ¬ required = s := fun e => h e.symm
      simp [h, h2, ih]

theorem mem_Split_iff (required granted : String) :
    required ∈ Split granted ↔ required.data ∈ splitSpace granted.data := by
  unfold Split
  rw [List.mem_map]
  constructor
  · rintro ⟨l, hl, rfl⟩
    exact hl
  · intro h
    exact ⟨required.data, h, rfl⟩

theorem map_data_Split (s : String) : (Split s).map String.data = splitSpace s.data := by
  unfold Split
  rw [List.map_map]
  exact List.map_id _

/-- C22: `CheckScope(required, granted)` is true exactly when `required` is one of the
pieces of `strings.Split(granted, " ")`.  These pieces are the ones obtained by cutting
`granted` at each space: joined with single spaces they give `granted` back, none contains
a space, there is one more piece than there are spaces, and they are the only list of pieces
with these properties.  Equivalently `required` holds no space and occurs in `granted` as a
whole token, bounded on each side by a space or by the end of the string.  A scope that
differs from a granted token, such as a proper substring of it, is not matched by it. -/
theorem CheckScope_matches_whole_tokens (required : String) (granted : String) :
    (CheckScope required granted = true ↔ required ∈ Split granted)
      ∧ [' '].intercalate ((Split granted).map String.data) = granted.data
      ∧ (∀ p ∈ Split granted, ' ' ∉ p.data)
      ∧ (Split granted).length = granted.data.count ' ' + 1
      ∧ (∀ pieces : List String, pieces ≠ [] → (∀ p ∈ pieces, ' ' ∉ p.data) →
          [' '].intercalate (pieces.map String.data) = granted.data → pieces = Split granted)
      ∧ (CheckScope required granted = true ↔
          ' ' ∉ required.data ∧ ∃ pre post : List Char,
            granted.data = pre ++ required.data ++ post
              ∧ (pre = [] ∨ pre.getLast? = some ' ') ∧ (post = [] ∨ post.head? = some ' '))
      ∧ (∀ token : String, ' ' ∉ token.data → required ≠ token →
          CheckScope required token = false) := by
  refine ⟨scopeLoop_eq_true _ _, ?_, ?_, ?_, ?_, ?_, ?_⟩
  · rw [map_data_Split]
    exact intercalate_splitSpace _
  · intro p hp
    exact splitSpace_no_space _ _ ((mem_Split_iff p granted).mp hp)
  · unfold Split
    rw [List.length_map, splitSpace_length]
  · intro pieces hne hp hjoin
    have h := splitSpace_intercalate (pieces.map String.data) (by simpa using hne)
      (by
        intro p hpm
        obtain ⟨q, hq, rfl⟩ := List.mem_map.mp hpm
        exact hp q hq)
    rw [hjoin] at h
    unfold Split
    rw [h, List.map_map]
    exact (List.map_id _).symm
  · unfold CheckScope
    rw [scopeLoop_eq_true, mem_Split_iff, mem_splitSpace_iff]
  · intro token htoken hne
    unfold CheckScope
    have hsplit : Split token = [token] := by
      unfold Split
      rw [splitSpace_of_no_space _ htoken]
      rfl
    rw [hsplit]
    cases h : scopeLoop required [token] with
    | false => rfl
    | true =>
      rw [scopeLoop_eq_true, List.mem_singleton] at h
      exact absurd h hne

/-- C22, witness: the scope `mail` is not matched by the granted token `mail:read`, of which
it is a proper substring. -/
theorem CheckScope_matches_whole_tokens_witness : CheckScope "mail" "mail:read" = false :=
  (CheckScope_matches_whole_tokens "mail" "mail:read").2.2.2.2.2.2 "mail:read" (by decide) (by decide)

theorem missingScopes_foldl (granted : String) (scopes : List String) :
    ∀ acc : List String,
    scopes.foldl
      (fun missing scope => if !CheckScope scope granted then missing ++ [scope] else missing)
      acc = acc ++ scopes.filter (fun scope => !CheckScope scope granted) := by
  induction scopes with
  | nil => intro acc; simp
  | cons x rest ih =>
    intro acc
    rw [List.foldl_cons, ih, List.filter_cons]
    by_cases h : CheckScope x granted = true
    · simp [h]
    · simp [h]

theorem missingScopes_eq_filter (scopes : List String) (granted : String) :
    missingScopes scopes granted = scopes.filter (fun scope => !CheckScope scope granted) := by
  unfold missingScopes
  rw [missingScopes_foldl]
  rfl

/-- C21: when `groupName` is not a key of `Groups`, `CheckScopeGroup` returns
`(false, nil)`.  Otherwise it returns `(ok, missing)` where `missing` holds, in the declared
order, the scopes of the group for which `CheckScope` is false, and `ok` is true exactly
when `missing` is empty, that is when every scope of the group is granted.
`ValidateForGroup` returns nil exactly when `ok` is true, and otherwise a `ValidationError`
with the group name and the list `missing`. -/
theorem CheckScopeGroup_reports_missing (Groups : String → Option ScopeGroup)
    (groupName : String) (granted : String) :
    (Groups groupName = none → CheckScopeGroup Groups groupName granted = (false, none))
      ∧ (∀ group, Groups groupName = some group →
          CheckScopeGroup Groups groupName granted
            = (decide (group.Scopes.filter (fun scope => !CheckScope scope granted) = []),
                some (group.Scopes.filter (fun scope => !CheckScope scope granted)))
          ∧ ((CheckScopeGroup Groups groupName granted).1 = true ↔
              ∀ scope ∈ group.Scopes, CheckScope scope granted = true))
      ∧ (ValidateForGroup Groups groupName granted = none ↔
          (CheckScopeGroup Groups groupName granted).1 = true)
      ∧ ((CheckScopeGroup Groups groupName granted).1 = false →
          ValidateForGroup Groups groupName granted
            = some ⟨groupName, (CheckScopeGroup Groups groupName granted).2⟩) := by
  have hgroup : ∀ group, Groups groupName = some group →
      CheckScopeGroup Groups groupName granted
        = (decide (group.Scopes.filter (fun scope => !CheckScope scope granted) = []),
            some (group.Scopes.filter (fun scope => !CheckScope scope granted))) := by
    intro group hg
    unfold CheckScopeGroup
    simp only [hg, missingScopes_eq_filter]
    congr 1
    cases List.filter (fun scope => !CheckScope scope granted) group.Scopes <;> simp
  refine ⟨?_, ?_, ?_, ?_⟩
  · intro h
    unfold CheckScopeGroup
    simp only [h]
  · intro group hg
    refine ⟨hgroup group hg, ?_⟩
    rw [hgroup group hg]
    simp only [decide_eq_true_eq, List.filter_eq_nil_iff, Bool.not_eq_true', Bool.not_eq_false]
  · unfold ValidateForGroup
    simp only []
    cases (CheckScopeGroup Groups groupName granted).1 <;> simp
  · intro h
    unfold ValidateForGroup
    simp only [h]
    rfl

/-- C21, witness: in a table where the group `mail` declares `mail:read` and `mail:send`, the
granted string `calendar:read mail:read` leaves `mail:send` missing, and an undeclared group
gives `(false, nil)`. -/
theorem CheckScopeGroup_reports_missing_witness :
    CheckScopeGroup sampleGroups "wiki" "calendar:read mail:read" = (false, none)
      ∧ ValidateForGroup sampleGroups "mail" "calendar:read mail:read"
          = some ⟨"mail", some ["mail:send"]⟩ := by
  obtain ⟨h1, _, _, h4⟩ := CheckScopeGroup_reports_missing sampleGroups "wiki"
    "calendar:read mail:read"
  obtain ⟨_, _, _, h8⟩ := CheckScopeGroup_reports_missing sampleGroups "mail"
    "calendar:read mail:read"
  refine ⟨h1 (by decide), ?_⟩
  rw [h8 (by decide)]
  decide

end Scopes

namespace Auth

/-! ## Token validity (C23, C27) -/

theorem TokenStore_IsValid_eq_true (t : TokenStore) (now : Int) :
    t.IsValid now = true ↔ t.AccessToken ≠ "" ∧ now + 300000000000 < t.ExpiresAt := by
  unfold TokenStore.IsValid timeBefore timeAdd Minute Second
  by_cases h : t.AccessToken = ""
  · simp [h]
  · simp [h]

theorem TenantTokenStore_IsValid_eq_true (t : TenantTokenStore) (now : Int) :
    t.IsValid now = true ↔ t.AccessToken ≠ "" ∧ now + 300000000000 < t.ExpiresAt := by
  unfold TenantTokenStore.IsValid timeBefore timeAdd Minute Second
  by_cases h : t.AccessToken = ""
  · simp [h]
  · simp [h]

/-- C23: `TokenStore.IsValid` is false when the access token is empty; otherwise it is true
exactly when `ExpiresAt` is strictly later than `now` plus 5 minutes (300 seconds of
`10^9` nanoseconds), so a token that expires exactly 5 minutes from `now` is invalid.
`TenantTokenStore.IsValid` obeys the same rule. -/
theorem IsValid_needs_more_than_five_minutes (t : TokenStore) (tt : TenantTokenStore)
    (now : Int) :
    5 * Minute = 300 * Second
      ∧ (t.AccessToken = "" → t.IsValid now = false)
      ∧ (t.AccessToken ≠ "" → (t.IsValid now = true ↔ now + 300 * Second < t.ExpiresAt))
      ∧ (t.ExpiresAt = now + 300 * Second → t.IsValid now = false)
      ∧ (tt.AccessToken = "" → tt.IsValid now = false)
      ∧ (tt.AccessToken ≠ "" → (tt.IsValid now = true ↔ now + 300 * Second < tt.ExpiresAt))
      ∧ (tt.ExpiresAt = now + 300 * Second → tt.IsValid now = false) := by
  have hs : 300 * Second = 300000000000 := by decide
  rw [hs]
  refine ⟨by decide, ?_, ?_, ?_, ?_, ?_, ?_⟩
  · intro h
    cases hv : t.IsValid now with
    | false => rfl
    | true => exact absurd h ((TokenStore_IsValid_eq_true t now).mp hv).1
  · intro h
    rw [TokenStore_IsValid_eq_true]
    exact ⟨fun hv => hv.2, fun hv => ⟨h, hv⟩⟩
  · intro h
    cases hv : t.IsValid now with
    | false => rfl
    | true =>
      have := ((TokenStore_IsValid_eq_true t now).mp hv).2
      omega
  · intro h
    cases hv : tt.IsValid now with
    | false => rfl
    | true => exact absurd h ((TenantTokenStore_IsValid_eq_true tt now).mp hv).1
  · intro h
    rw [TenantTokenStore_IsValid_eq_true]
    exact ⟨fun hv => hv.2, fun hv => ⟨h, hv⟩⟩
  · intro h
    cases hv : tt.IsValid now with
    | false => rfl
    | true =>
      have := ((TenantTokenStore_IsValid_eq_true tt now).mp hv).2
      omega

/-- C23, witness: at `now = 0`, a token that expires exactly 300 seconds later is invalid,
and one that expires a nanosecond after that is valid. -/
theorem IsValid_needs_more_than_five_minutes_witness :
    TokenStore.IsValid ⟨"tok", "", 300 * Second, 0, "", ""⟩ 0 = false
      ∧ TokenStore.IsValid ⟨"tok", "", 300 * Second + 1, 0, "", ""⟩ 0 = true :=
  ⟨(IsValid_needs_more_than_five_minutes ⟨"tok", "", 300 * Second, 0, "", ""⟩ ⟨"", 0⟩ 0).2.2.2.1
      (by decide),
    ((IsValid_needs_more_than_five_minutes ⟨"tok", "", 300 * Second + 1, 0, "", ""⟩ ⟨"", 0⟩
      0).2.2.1 (by decide)).mpr (by decide)⟩

/-- C27: for a token store with a non-empty access token, at every instant `now` at which
`IsValid` is false, `NeedsRefresh` is true. -/
theorem invalid_token_needs_refresh (t : TokenStore) (now : Int)
    (hne : t.AccessToken ≠ "") (hinv : t.IsValid now = false) :
    t.NeedsRefresh now = true := by
  have h : ¬ (now + 300000000000 < t.ExpiresAt) := by
    intro hlt
    have := (TokenStore_IsValid_eq_true t now).mpr ⟨hne, hlt⟩
    rw [hinv] at this
    cases this
  unfold TokenStore.NeedsRefresh timeAfter timeAdd Minute Second
  simp only [beq_iff_eq, hne, if_false, decide_eq_true_eq]
  omega

/-- C27, witness: a token that expires in 2 minutes is invalid and flagged for refresh. -/
theorem invalid_token_needs_refresh_witness :
    TokenStore.IsValid ⟨"tok", "", 2 * Minute, 0, "", ""⟩ 0 = false
      ∧ TokenStore.NeedsRefresh ⟨"tok", "", 2 * Minute, 0, "", ""⟩ 0 = true :=
  ⟨by decide,
    invalid_token_needs_refresh ⟨"tok", "", 2 * Minute, 0, "", ""⟩ 0 (by decide) (by decide)⟩

end Auth

namespace Cmd

/-! ## The pagination of the chat search (C24) -/

theorem chatsOf_cons {χ : Type} (p : Page χ) (ps : List (Page χ)) :
    chatsOf (p :: ps) = p.chats ++ chatsOf ps := by
  simp [chatsOf]

theorem chatsOf_nil {χ : Type} : chatsOf ([] : List (Page χ)) = [] := rfl

theorem searchLoop_succ {χ ε : Type} (SearchChats : Nat → SearchChatsOptions → Except ε (Page χ))
    (query : String) (L : Int) (fuel k : Nat) (allChats : List χ) (pageToken : String)
    (remaining : Int) :
    searchLoop SearchChats query L (fuel + 1) k allChats pageToken remaining
      = match SearchChats k
          ⟨query, if remaining > 0 ∧ remaining < 50 then remaining else 50, pageToken⟩ with
        | .error err =>
          some ⟨.error err,
            [⟨query, if remaining > 0 ∧ remaining < 50 then remaining else 50, pageToken⟩], []⟩
        | .ok page =>
          if L > 0 then
            if L - ((allChats ++ page.chats).length : Int) ≤ 0 then
              some ⟨.ok (allChats ++ page.chats),
                [⟨query, if remaining > 0 ∧ remaining < 50 then remaining else 50, pageToken⟩],
                [page]⟩
            else if page.more then
              (searchLoop SearchChats query L fuel (k + 1) (allChats ++ page.chats)
                page.nextToken (L - ((allChats ++ page.chats).length : Int))).map
                (fun r => ⟨r.result,
                  ⟨query, if remaining > 0 ∧ remaining < 50 then remaining else 50, pageToken⟩
                    :: r.requests, page :: r.pages⟩)
            else
              some ⟨.ok (allChats ++ page.chats),
                [⟨query, if remaining > 0 ∧ remaining < 50 then remaining else 50, pageToken⟩],
                [page]⟩
          else if page.more then
            (searchLoop SearchChats query L fuel (k + 1) (allChats ++ page.chats)
              page.nextToken remaining).map
              (fun r => ⟨r.result,
                ⟨query, if remaining > 0 ∧ remaining < 50 then remaining else 50, pageToken⟩
                  :: r.requests, page :: r.pages⟩)
          else
            some ⟨.ok (allChats ++ page.chats),
              [⟨query, if remaining > 0 ∧ remaining < 50 then remaining else 50, pageToken⟩],
              [page]⟩ := rfl

theorem pageSize_bounds (remaining : Int) (h : 0 < remaining) :
    1 ≤ (if remaining > 0 ∧ remaining < 50 then remaining else 50)
      ∧ (if remaining > 0 ∧ remaining < 50 then remaining else 50) ≤ 50
      ∧ (if remaining > 0 ∧ remaining < 50 then remaining else 50) ≤ remaining := by
  split_ifs <;> omega

theorem searchLoop_limited {χ ε : Type}
    (SearchChats : Nat → SearchChatsOptions → Except ε (Page χ)) (query : String) (L : Int)
    (hL : 0 < L) :
    ∀ (fuel k : Nat) (all : List χ) (tok : String) (rem : Int) (run : SearchRun χ ε)
      (out : List χ), rem = L - (all.length : Int) → 0 < rem →
      searchLoop SearchChats query L fuel k all tok rem = some run → run.result = .ok out →
      out = all ++ chatsOf run.pages
        ∧ run.requests.length = run.pages.length
        ∧ (∀ i req, run.requests[i]? = some req →
            req.Query = query ∧ 1 ≤ req.PageSize ∧ req.PageSize ≤ 50
              ∧ req.PageSize ≤ L - ((all ++ chatsOf (run.pages.take i)).length : Int)
              ∧ ∃ page, run.pages[i]? = some page ∧ SearchChats (k + i) req = .ok page)
        ∧ (∀ i page, run.pages[i]? = some page → i + 1 < run.pages.length → page.more = true)
        ∧ (∃ last, run.pages.getLast? = some last
            ∧ (last.more = false ∨ L ≤ ((all ++ chatsOf run.pages).length : Int))) := by
  intro fuel
  induction fuel with
  | zero =>
    intro k all tok rem run out _ _ h
    simp [searchLoop] at h
  | succ fuel ih =>
    intro k all tok rem run out hrem hpos h hres
    rw [searchLoop_succ] at h
    obtain ⟨hp1, hp2, hp3⟩ := pageSize_bounds rem hpos
    cases hresp : SearchChats k
        ⟨query, if rem > 0 ∧ rem < 50 then rem else 50, tok⟩ with
    | error err =>
      rw [hresp] at h
      simp only [Option.some.injEq] at h
      subst h
      cases hres
    | ok page =>
      rw [hresp] at h
      simp only [hL, if_true] at h
      have single : ∀ (run : SearchRun χ ε), run = ⟨.ok (all ++ page.chats),
          [⟨query, if rem > 0 ∧ rem < 50 then rem else 50, tok⟩], [page]⟩ →
          run.result = .ok out →
          (page.more = false ∨ L ≤ ((all ++ page.chats).length : Int)) →
          out = all ++ chatsOf run.pages
            ∧ run.requests.length = run.pages.length
            ∧ (∀ i req, run.requests[i]? = some req →
                req.Query = query ∧ 1 ≤ req.PageSize ∧ req.PageSize ≤ 50
                  ∧ req.PageSize ≤ L - ((all ++ chatsOf (run.pages.take i)).length : Int)
                  ∧ ∃ page, run.pages[i]? = some page ∧ SearchChats (k + i) req = .ok page)
            ∧ (∀ i page, run.pages[i]? = some page → i + 1 < run.pages.length →
                page.more = true)
            ∧ (∃ last, run.pages.getLast? = some last
                ∧ (last.more = false ∨ L ≤ ((all ++ chatsOf run.pages).length : Int))) := by
        intro run hrun hres hstop
        subst hrun
        simp only [Except.ok.injEq] at hres
        subst hres
        refine ⟨by simp [chatsOf], rfl, ?_, ?_, ?_⟩
        · intro i req hi
          cases i with
          | zero =>
            simp only [List.getElem?_cons_zero, Option.some.injEq] at hi
            subst hi
            refine ⟨rfl, hp1, hp2, ?_, page, rfl, by simpa using hresp⟩
            simp only [List.take_zero, chatsOf_nil, List.append_nil]
            omega
          | succ j => simp at hi
        · intro i pg _ hlen
          simp at hlen
        · refine ⟨page, rfl, ?_⟩
          simpa [chatsOf] using hstop
      by_cases hdone : L - ((all ++ page.chats).length : Int) ≤ 0
      · rw [if_pos hdone] at h
        exact single run (Option.some.inj h).symm hres (Or.inr (by omega))
      · rw [if_neg hdone] at h
        by_cases hmore : page.more = true
        · rw [if_pos hmore] at h
          cases hrec : searchLoop SearchChats query L fuel (k + 1) (all ++ page.chats)
              page.nextToken (L - ((all ++ page.chats).length : Int)) with
          | none => rw [hrec] at h; simp at h
          | some r =>
            rw [hrec] at h
            simp only [Option.map_some', Option.some.injEq] at h
            subst h
            obtain ⟨h1, h2, h3, h4, h5⟩ := ih (k + 1) (all ++ page.chats) page.nextToken
              (L - ((all ++ page.chats).length : Int)) r out rfl (by omega) hrec hres
            refine ⟨?_, ?_, ?_, ?_, ?_⟩
            · rw [h1, chatsOf_cons, List.append_assoc]
            · simp only [List.length_cons, h2]
            · intro i req hi
              cases i with
              | zero =>
                simp only [List.getElem?_cons_zero, Option.some.injEq] at hi
                subst hi
                refine ⟨rfl, hp1, hp2, ?_, page, by simp, by simpa using hresp⟩
                simp only [List.take_zero, chatsOf_nil, List.append_nil]
                omega
              | succ j =>
                simp only [List.getElem?_cons_succ] at hi
                obtain ⟨hq, ha, hb, hc, pg, hpg, hsc⟩ := h3 j req hi
                refine ⟨hq, ha, hb, ?_, pg, by simpa using hpg, ?_⟩
                · simp only [List.take_succ_cons, chatsOf_cons]
                  rw [← List.append_assoc]
                  exact hc
                · rw [show k + (j + 1) = k + 1 + j by omega]
                  exact hsc
            · intro i pg hi hlen
              cases i with
              | zero =>
                simp only [List.getElem?_cons_zero, Option.some.injEq] at hi
                subst hi
                exact hmore
              | succ j =>
                simp only [List.getElem?_cons_succ] at hi
                simp only [List.length_cons] at hlen
                exact h4 j pg hi (by omega)
            · obtain ⟨last, hlast, hstop⟩ := h5
              refine ⟨last, ?_, ?_⟩
              · cases hr : r.pages with
                | nil => rw [hr] at hlast; simp at hlast
                | cons a rest =>
                  rw [hr] at hlast
                  rw [List.getLast?_cons_cons]
                  exact hlast
              · rw [chatsOf_cons, ← List.append_assoc]
                exact hstop
        · rw [if_neg hmore] at h
          exact single run (Option.some.inj h).symm hres
            (Or.inl (by simpa using hmore))

theorem searchLoop_unlimited {χ ε : Type}
    (SearchChats : Nat → SearchChatsOptions → Except ε (Page χ)) (query : String) (L : Int)
    (hL : L ≤ 0) :
    ∀ (fuel k : Nat) (all : List χ) (tok : String) (rem : Int) (run : SearchRun χ ε)
      (out : List χ), rem ≤ 0 →
      searchLoop SearchChats query L fuel k all tok rem = some run → run.result = .ok out →
      out = all ++ chatsOf run.pages
        ∧ run.requests.length = run.pages.length
        ∧ (∀ i req, run.requests[i]? = some req →
            req.Query = query ∧ req.PageSize = 50
              ∧ ∃ page, run.pages[i]? = some page ∧ SearchChats (k + i) req = .ok page)
        ∧ (∀ i page, run.pages[i]? = some page → i + 1 < run.pages.length → page.more = true)
        ∧ (∃ last, run.pages.getLast? = some last ∧ last.more = false) := by
  intro fuel
  induction fuel with
  | zero =>
    intro k all tok rem run out _ h
    simp [searchLoop] at h
  | succ fuel ih =>
    intro k all tok rem run out hrem h hres
    rw [searchLoop_succ] at h
    have hsize : (if rem > 0 ∧ rem < 50 then rem else 50) = 50 := by
      rw [if_neg]; omega
    rw [hsize] at h
    have hnot : ¬ L > 0 := by omega
    cases hresp : SearchChats k ⟨query, 50, tok⟩ with
    | error err =>
      rw [hresp] at h
      simp only [Option.some.injEq] at h
      subst h
      cases hres
    | ok page =>
      rw [hresp] at h
      simp only [hnot, if_false] at h
      by_cases hmore : page.more = true
      · rw [if_pos hmore] at h
        cases hrec : searchLoop SearchChats query L fuel (k + 1) (all ++ page.chats)
            page.nextToken rem with
        | none => rw [hrec] at h; simp at h
        | some r =>
          rw [hrec] at h
          simp only [Option.map_some', Option.some.injEq] at h
          subst h
          obtain ⟨h1, h2, h3, h4, h5⟩ := ih (k + 1) (all ++ page.chats) page.nextToken
            rem r out hrem hrec hres
          refine ⟨?_, ?_, ?_, ?_, ?_⟩
          · rw [h1, chatsOf_cons, List.append_assoc]
          · simp only [List.length_cons, h2]
          · intro i req hi
            cases i with
            | zero =>
              simp only [List.getElem?_cons_zero, Option.some.injEq] at hi
              subst hi
              exact ⟨rfl, rfl, page, by simp, by simpa using hresp⟩
            | succ j =>
              simp only [List.getElem?_cons_succ] at hi
              obtain ⟨hq, ha, pg, hpg, hsc⟩ := h3 j req hi
              refine ⟨hq, ha, pg, by simpa using hpg, ?_⟩
              rw [show k + (j + 1) = k + 1 + j by omega]
              exact hsc
          · intro i pg hi hlen
            cases i with
            | zero =>
              simp only [List.getElem?_cons_zero, Option.some.injEq] at hi
              subst hi
              exact hmore
            | succ j =>
              simp only [List.getElem?_cons_succ] at hi
              simp only [List.length_cons] at hlen
              exact h4 j pg hi (by omega)
          · obtain ⟨last, hlast, hstop⟩ := h5
            refine ⟨last, ?_, hstop⟩
            cases hr : r.pages with
            | nil => rw [hr] at hlast; simp at hlast
            | cons a rest =>
              rw [hr] at hlast
              rw [List.getLast?_cons_cons]
              exact hlast
      · rw [if_neg hmore] at h
        simp only [Option.some.injEq] at h
        subst h
        simp only [Except.ok.injEq] at hres
        subst hres
        refine ⟨by simp [chatsOf], rfl, ?_, ?_, ?_⟩
        · intro i req hi
          cases i with
          | zero =>
            simp only [List.getElem?_cons_zero, Option.some.injEq] at hi
            subst hi
            exact ⟨rfl, rfl, page, rfl, by simpa using hresp⟩
          | succ j => simp at hi
        · intro i pg _ hlen
          simp at hlen
        · exact ⟨page, rfl, by simpa using hmore⟩

theorem searchLoop_terminates {χ ε : Type}
    (SearchChats : Nat → SearchChatsOptions → Except ε (Page χ)) (query : String) (L : Int)
    (n : Nat) (hstop : ∀ opts page, SearchChats n opts = .ok page → page.more = false) :
    ∀ (fuel k : Nat) (all : List χ) (tok : String) (rem : Int), k ≤ n → n - k < fuel →
      (searchLoop SearchChats query L fuel k all tok rem).isSome = true := by
  intro fuel
  induction fuel with
  | zero => intro k all tok rem _ h; omega
  | succ fuel ih =>
    intro k all tok rem hk hfuel
    rw [searchLoop_succ]
    generalize (if rem > 0 ∧ rem < 50 then rem else 50) = pageSize
    cases hresp : SearchChats k ⟨query, pageSize, tok⟩ with
    | error err => rfl
    | ok page =>
      simp only []
      have hrec : page.more = true → ∀ rem2,
          (searchLoop SearchChats query L fuel (k + 1) (all ++ page.chats) page.nextToken
            rem2).isSome = true := by
        intro hmore rem2
        have hkn : k ≠ n := by
          intro h
          subst h
          have := hstop _ page hresp
          rw [this] at hmore
          cases hmore
        exact ih (k + 1) _ _ _ (by omega) (by omega)
      by_cases h1 : L > 0
      · rw [if_pos h1]
        by_cases h2 : L - ((all ++ page.chats).length : Int) ≤ 0
        · rw [if_pos h2]; rfl
        · rw [if_neg h2]
          by_cases h3 : page.more = true
          · rw [if_pos h3, Option.isSome_map']
            exact hrec h3 _
          · rw [if_neg h3]; rfl
      · rw [if_neg h1]
        by_cases h3 : page.more = true
        · rw [if_pos h3, Option.isSome_map']
          exact hrec h3 _
        · rw [if_neg h3]; rfl

theorem searchLoop_fuel_succ {χ ε : Type}
    (SearchChats : Nat → SearchChatsOptions → Except ε (Page χ)) (query : String) (L : Int) :
    ∀ (fuel k : Nat) (all : List χ) (tok : String) (rem : Int) (run : SearchRun χ ε),
      searchLoop SearchChats query L fuel k all tok rem = some run →
      searchLoop SearchChats query L (fuel + 1) k all tok rem = some run := by
  intro fuel
  induction fuel with
  | zero => intro k all tok rem run h; simp [searchLoop] at h
  | succ fuel ih =>
    intro k all tok rem run h
    rw [searchLoop_succ] at h ⊢
    generalize (if rem > 0 ∧ rem < 50 then rem else 50) = pageSize at h ⊢
    cases hresp : SearchChats k ⟨query, pageSize, tok⟩ with
    | error err => rw [hresp] at h; exact h
    | ok page =>
      rw [hresp] at h
      simp only [] at h ⊢
      have hrec : ∀ rem2 (f : SearchRun χ ε → SearchRun χ ε),
          (searchLoop SearchChats query L fuel (k + 1) (all ++ page.chats) page.nextToken
            rem2).map f = some run →
          (searchLoop SearchChats query L (fuel + 1) (k + 1) (all ++ page.chats)
            page.nextToken rem2).map f = some run := by
        intro rem2 f hm
        cases hr : searchLoop SearchChats query L fuel (k + 1) (all ++ page.chats)
            page.nextToken rem2 with
        | none => rw [hr] at hm; simp at hm
        | some r =>
          rw [hr] at hm
          rw [ih _ _ _ _ r hr]
          exact hm
      by_cases h1 : L > 0
      · rw [if_pos h1] at h ⊢
        by_cases h2 : L - ((all ++ page.chats).length : Int) ≤ 0
        · rw [if_pos h2] at h ⊢; exact h
        · rw [if_neg h2] at h ⊢
          by_cases h3 : page.more = true
          · rw [if_pos h3] at h ⊢
            exact hrec _ _ h
          · rw [if_neg h3] at h ⊢; exact h
      · rw [if_neg h1] at h ⊢
        by_cases h3 : page.more = true
        · rw [if_pos h3] at h ⊢
          exact hrec _ _ h
        · rw [if_neg h3] at h ⊢; exact h

theorem searchLoop_fuel_mono {χ ε : Type}
    (SearchChats : Nat → SearchChatsOptions → Except ε (Page χ)) (query : String) (L : Int)
    (fuel k : Nat) (all : List χ) (tok : String) (rem : Int) (run : SearchRun χ ε)
    (h : searchLoop SearchChats query L fuel k all tok rem = some run) :
    ∀ d, searchLoop SearchChats query L (fuel + d) k all tok rem = some run := by
  intro d
  induction d with
  | zero => exact h
  | succ d ih => exact searchLoop_fuel_succ SearchChats query L _ _ _ _ _ _ ih

theorem trimToLimit_eq_take {χ : Type} (L : Int) (hL : 0 < L) (all : List χ) :
    trimToLimit L all = all.take L.toNat := by
  unfold trimToLimit
  by_cases h : (all.length : Int) > L
  · simp only [hL, h, and_self, if_true]
  · simp only [h, and_false, if_false]
    rw [List.take_of_length_le]
    omega

theorem trimToLimit_of_nonpos {χ : Type} (L : Int) (hL : L ≤ 0) (all : List χ) :
    trimToLimit L all = all := by
  unfold trimToLimit
  rw [if_neg]
  omega

theorem searchLoop_ends_at_limit {χ ε : Type}
    (SearchChats : Nat → SearchChatsOptions → Except ε (Page χ)) (query : String) (L : Int)
    (hL : 0 < L)
    (hne : ∀ k opts page, SearchChats k opts = .ok page → page.chats ≠ []) :
    ∀ (fuel k : Nat) (all : List χ) (tok : String) (rem : Int),
      rem = L - (all.length : Int) → 0 < rem → rem.toNat ≤ fuel →
      (searchLoop SearchChats query L fuel k all tok rem).isSome = true := by
  intro fuel
  induction fuel with
  | zero => intro k all tok rem _ hpos h; omega
  | succ fuel ih =>
    intro k all tok rem hrem hpos hfuel
    rw [searchLoop_succ]
    generalize (if rem > 0 ∧ rem < 50 then rem else 50) = pageSize
    cases hresp : SearchChats k ⟨query, pageSize, tok⟩ with
    | error err => rfl
    | ok page =>
      simp only []
      rw [if_pos hL]
      by_cases h2 : L - ((all ++ page.chats).length : Int) ≤ 0
      · rw [if_pos h2]; rfl
      · rw [if_neg h2]
        by_cases h3 : page.more = true
        · rw [if_pos h3, Option.isSome_map']
          have hlen : 0 < page.chats.length := List.length_pos.mpr (hne k _ page hresp)
          have hall : ((all ++ page.chats).length : Int) = all.length + page.chats.length := by
            rw [List.length_append]; push_cast; rfl
          exact ih (k + 1) _ _ _ rfl (by omega) (by omega)
        · rw [if_neg h3]; rfl

theorem chatSearch_eq_some {χ ε : Type}
    (SearchChats : Nat → SearchChatsOptions → Except ε (Page χ)) (args : List String)
    (L : Int) (fuel : Nat) (run : SearchRun χ ε) (out : List χ)
    (hrun : chatSearch SearchChats args L fuel = some run) (hout : run.result = .ok out) :
    ∃ r all, searchLoop SearchChats (args.headD "") L fuel 0 [] "" L = some r
      ∧ r.result = .ok all ∧ out = trimToLimit L all
      ∧ run.requests = r.requests ∧ run.pages = r.pages := by
  unfold chatSearch at hrun
  cases hr : searchLoop SearchChats (args.headD "") L fuel 0 [] "" L with
  | none => rw [hr] at hrun; simp at hrun
  | some r =>
    rw [hr] at hrun
    simp only [Option.map_some', Option.some.injEq] at hrun
    subst hrun
    simp only at hout
    cases hres : r.result with
    | error e => rw [hres] at hout; cases hout
    | ok all =>
      rw [hres] at hout
      simp only [Except.map, Except.ok.injEq] at hout
      exact ⟨r, all, rfl, hres, hout.symm, rfl, rfl⟩

/-- C24: in every run of the pagination that ends without an error, the pages received
answer the requests made, in order, and every page but the last reports more results.  For
a limit `L > 0` the output is the first `L` chats of the concatenation of the pages received
(all of them when there are fewer), so it is an initial part of it and holds at most `L`
chats; every request is made while fewer than `L` chats are collected and asks for a page of
at least 1, at most 50 and at most the number of chats still needed; and the last page
reports no more results or completes the `L` chats.  For a limit `L ≤ 0`, in particular
`L = 0`, every request asks for 50 chats, the last page is the first one that reports no
more results, and the output is the concatenation of all the pages.  A run that ends within
some number of iterations ends alike within any larger number; the run ends as soon as
the answer to some request is an error or reports no more results; and for `L > 0`, when no
page is empty, it ends within `L` iterations. -/
theorem chat_search_pagination {χ ε : Type}
    (SearchChats : Nat → SearchChatsOptions → Except ε (Page χ)) (args : List String)
    (L : Int) :
    (∀ (fuel : Nat) (run : SearchRun χ ε) (out : List χ), chatSearch SearchChats args L fuel = some run → run.result = .ok out →
        run.requests.length = run.pages.length
          ∧ (∀ (i : Nat) (req : SearchChatsOptions), run.requests[i]? = some req →
              ∃ page, run.pages[i]? = some page ∧ SearchChats i req = .ok page)
          ∧ (∀ (i : Nat) (page : Page χ), run.pages[i]? = some page → i + 1 < run.pages.length →
              page.more = true)
          ∧ (0 < L →
              out = (chatsOf run.pages).take L.toNat
                ∧ (∃ rest, chatsOf run.pages = out ++ rest)
                ∧ (out.length : Int) ≤ L
                ∧ (∀ (i : Nat) (req : SearchChatsOptions), run.requests[i]? = some req →
                    1 ≤ req.PageSize ∧ req.PageSize ≤ 50
                      ∧ req.PageSize ≤ L - ((chatsOf (run.pages.take i)).length : Int)
                      ∧ ((chatsOf (run.pages.take i)).length : Int) < L)
                ∧ (∃ last, run.pages.getLast? = some last
                    ∧ (last.more = false ∨ L ≤ ((chatsOf run.pages).length : Int))))
          ∧ (L ≤ 0 →
              out = chatsOf run.pages
                ∧ (∀ (i : Nat) (req : SearchChatsOptions), run.requests[i]? = some req → req.PageSize = 50)
                ∧ (∃ last, run.pages.getLast? = some last ∧ last.more = false)))
      ∧ (∀ (fuel : Nat) (run : SearchRun χ ε), chatSearch SearchChats args L fuel = some run →
          ∀ fuel2, fuel ≤ fuel2 → chatSearch SearchChats args L fuel2 = some run)
      ∧ (∀ n, (∀ opts page, SearchChats n opts = .ok page → page.more = false) →
          ∀ fuel, n < fuel → (chatSearch SearchChats args L fuel).isSome = true)
      ∧ (0 < L → (∀ k opts page, SearchChats k opts = .ok page → page.chats ≠ []) →
          ∀ fuel, L.toNat ≤ fuel → (chatSearch SearchChats args L fuel).isSome = true) := by
  refine ⟨?_, ?_, ?_, ?_⟩
  · intro fuel run out hrun hout
    obtain ⟨r, all, hr, hres, hout2, hreq, hpages⟩ :=
      chatSearch_eq_some SearchChats args L fuel run out hrun hout
    rw [hreq, hpages]
    by_cases hL : 0 < L
    · obtain ⟨h1, h2, h3, h4, h5⟩ := searchLoop_limited SearchChats (args.headD "") L hL fuel 0
        [] "" L r all (by simp) hL hr hres
      simp only [List.nil_append, Nat.zero_add] at h1 h3 h5
      have hout3 : out = (chatsOf r.pages).take L.toNat := by
        rw [hout2, trimToLimit_eq_take L hL, h1]
      refine ⟨h2, ?_, h4, ?_, ?_⟩
      · intro i req hi
        exact (h3 i req hi).2.2.2.2
      · intro _
        refine ⟨hout3, ⟨(chatsOf r.pages).drop L.toNat, ?_⟩, ?_, ?_, h5⟩
        · rw [hout3, List.take_append_drop]
        · rw [hout3, List.length_take]
          omega
        · intro i req hi
          obtain ⟨_, ha, hb, hc, _⟩ := h3 i req hi
          exact ⟨ha, hb, hc, by omega⟩
      · intro hle
        omega
    · have hL2 : L ≤ 0 := by omega
      obtain ⟨h1, h2, h3, h4, h5⟩ := searchLoop_unlimited SearchChats (args.headD "") L hL2
        fuel 0 [] "" L r all hL2 hr hres
      simp only [List.nil_append, Nat.zero_add] at h1 h3
      refine ⟨h2, ?_, h4, ?_, ?_⟩
      · intro i req hi
        exact (h3 i req hi).2.2
      · intro h
        exact absurd h hL
      · intro _
        refine ⟨?_, ?_, h5⟩
        · rw [hout2, trimToLimit_of_nonpos L hL2, h1]
        · intro i req hi
          exact (h3 i req hi).2.1
  · intro fuel run hrun fuel2 hle
    unfold chatSearch at hrun ⊢
    cases hr : searchLoop SearchChats (args.headD "") L fuel 0 [] "" L with
    | none => rw [hr] at hrun; simp at hrun
    | some r =>
      rw [hr] at hrun
      have := searchLoop_fuel_mono SearchChats (args.headD "") L fuel 0 [] "" L r hr
        (fuel2 - fuel)
      rw [show fuel + (fuel2 - fuel) = fuel2 by omega] at this
      rw [this]
      exact hrun
  · intro n hstop fuel hfuel
    unfold chatSearch
    rw [Option.isSome_map']
    exact searchLoop_terminates SearchChats (args.headD "") L n hstop fuel 0 [] "" L
      (by omega) (by omega)
  · intro hL hne fuel hfuel
    unfold chatSearch
    rw [Option.isSome_map']
    exact searchLoop_ends_at_limit SearchChats (args.headD "") L hL hne fuel 0 [] "" L
      (by simp) hL hfuel

/-- C24, witness: against a server with 120 chats and the limit 70, the command asks for 50
chats and then for 20, and its output is the first 70 chats. -/
theorem chat_search_pagination_witness :
    ∃ run, chatSearch countingServer ["team"] 70 5 = some run
      ∧ run.result = .ok (List.range' 0 70)
      ∧ run.requests = [⟨"team", 50, ""⟩, ⟨"team", 20, "1"⟩]
      ∧ List.range' 0 70 = (chatsOf run.pages).take 70 := by
  have hrun : chatSearch countingServer ["team"] 70 5
      = some ⟨.ok (List.range' 0 70), [⟨"team", 50, ""⟩, ⟨"team", 20, "1"⟩],
          [⟨List.range' 0 50, true, "1"⟩, ⟨List.range' 50 20, true, "2"⟩]⟩ := by
    simp [chatSearch, searchLoop, countingServer, trimToLimit, Except.map]
    decide
  refine ⟨_, hrun, rfl, rfl, ?_⟩
  exact ((chat_search_pagination countingServer ["team"] 70).1 5 _ _ hrun rfl).2.2.2.1
    (by decide) |>.1

end Cmd

namespace Cmd

/-! ## The duration of a recording (C25) -/

/-- C25: for `seconds ≥ 0` there are `h`, `m`, `s` with `seconds = 3600 h + 60 m + s`,
`0 ≤ m < 60` and `0 ≤ s < 60`, they are the only ones, and `formatDuration` writes
`<h>h <m>m <s>s` when `seconds ≥ 3600`, `<m>m <s>s` when `60 ≤ seconds < 3600`, and `<s>s`
when `seconds < 60`. -/
theorem formatDuration_renders_decomposition (seconds : Int) (h0 : 0 ≤ seconds) :
    ∃ h m s : Int, seconds = 3600 * h + 60 * m + s ∧ 0 ≤ h ∧ 0 ≤ m ∧ m < 60 ∧ 0 ≤ s ∧ s < 60
      ∧ (∀ h1 m1 s1 : Int, seconds = 3600 * h1 + 60 * m1 + s1 → 0 ≤ m1 → m1 < 60 → 0 ≤ s1 →
          s1 < 60 → h1 = h ∧ m1 = m ∧ s1 = s)
      ∧ formatDuration seconds
          = (if seconds ≥ 3600 then
              toString h ++ "h " ++ toString m ++ "m " ++ toString s ++ "s"
            else if seconds ≥ 60 then toString m ++ "m " ++ toString s ++ "s"
            else toString s ++ "s") := by
  have e1 : seconds.tdiv 3600 = seconds / 3600 := Int.tdiv_eq_ediv h0 (by omega)
  have e2 : seconds.tmod 3600 = seconds % 3600 := Int.tmod_eq_emod h0 (by omega)
  have e3 : seconds.tmod 60 = seconds % 60 := Int.tmod_eq_emod h0 (by omega)
  have e4 : (seconds % 3600).tdiv 60 = seconds % 3600 / 60 :=
    Int.tdiv_eq_ediv (Int.emod_nonneg _ (by omega)) (by omega)
  refine ⟨seconds / 3600, seconds % 3600 / 60, seconds % 60, by omega, by omega, by omega,
    by omega, by omega, by omega, ?_, ?_⟩
  · intro h1 m1 s1 hs hm0 hm1 hs0 hs1
    omega
  · unfold formatDuration
    simp only [e1, e2, e3, e4]
    by_cases hh : seconds ≥ 3600
    · have : seconds / 3600 > 0 := by omega
      simp only [this, hh, if_true]
    · have h1 : ¬ seconds / 3600 > 0 := by omega
      simp only [h1, hh, if_false]
      by_cases hm : seconds ≥ 60
      · have : seconds % 3600 / 60 > 0 := by omega
        simp only [this, hm, if_true]
      · have : ¬ seconds % 3600 / 60 > 0 := by omega
        simp only [this, hm, if_false]

/-- C25, witness: 3725 seconds are written `1h 2m 5s`. -/
theorem formatDuration_renders_decomposition_witness :
    formatDuration 3725 = "1h 2m 5s" ∧ formatDuration 125 = "2m 5s"
      ∧ formatDuration 59 = "59s" := by
  obtain ⟨h, m, s, hs, _, hm0, hm1, hs0, hs1, _, hf⟩ :=
    formatDuration_renders_decomposition 3725 (by decide)
  have hh : h = 1 := by omega
  have hm : m = 2 := by omega
  have hs2 : s = 5 := by omega
  subst hh hm hs2
  exact ⟨by rw [hf]; decide, by decide, by decide⟩

end Cmd
